import Mathlib

/-!
Minesweeper: board construction and the click / flood-fill step

Shallow embedding of `minesweeper.cc` (class template
`Minesweeper<NumRowsT, NumColsT>`).

* `size_t` coordinates are natural numbers (every coordinate that occurs
  is at most one more than a dimension of the board, far from `2^64`);
  `int8_t` cell values are integers and the one arithmetic operation on
  them, `cell.value++`, wraps at 127.
* The member `board_` is state that is passed explicitly.  Its shape is
  the declared one: `std::array<std::array<Cell, NumRowsT>, NumColsT>`,
  that is `NumColsT` inner arrays of `NumRowsT` cells, and `board_[i][j]`
  takes element `j` of inner array `i`.
* A run that reads or writes outside an array, fails an `assert` (they are
  taken as compiled in) or exhausts its iteration budget stops without a
  result (`Fault`); a fault is a terminal outcome of the run.
* `std::array` checks no bound.  The definitions `Flat.` repeat the
  functions on the storage as one block of `NumColsT * NumRowsT` cells, in
  which `board_[i][j]` is cell `i * NumRowsT + j`; only an access beyond the
  block ends the run there.
* The constructor runs on storage whose cells are `value = 0`,
  `is_revealed = false`.
-/

/-- Cell values, `using CellValue = std::int8_t`. -/
abbrev CellValue := Int

/-- Board coordinates, `using Position = std::pair<size_t, size_t>`. -/
abbrev Position := Nat × Nat

/-- One cell of the board, `struct Cell`. -/
structure Cell where
  value : CellValue
  is_revealed : Bool
deriving DecidableEq, Repr

/-- Marker of a mine, `Cell::BOMB`. -/
def Cell.BOMB : CellValue := -1

/-- Marker of a cell without adjacent mine, `Cell::SPACE`. -/
def Cell.SPACE : CellValue := 0

/-- Text of a cell, `Cell::to_string`; `std::to_string` of a number is its
decimal numeral. -/
def Cell.to_string (c : Cell) (apply_revealed : Bool) : String :=
  if apply_revealed && !c.is_revealed then "-"
  else if c.value = Cell.BOMB then "X"
  else if c.value = Cell.SPACE then " "
  else toString c.value

/-- Text of a cell in `minesweeper_no_click.cc`, the `Cell::to_string` of that
file: its parameter asks for the text of the value whatever the flag. -/
def NoClick.to_string (c : Cell) (force_reveal : Bool) : String :=
  if !force_reveal && !c.is_revealed then "-"
  else if c.value = Cell.BOMB then "X"
  else if c.value = Cell.SPACE then " "
  else toString c.value

/-- Outcome classification of a click, `enum class ClickResult`. -/
inductive ClickResult where
  | IN_PROGRESS
  | INVALID_MOVE
  | WIN
  | LOSE
deriving DecidableEq, Repr

/-- Ways in which a run ends without a result. -/
inductive Fault where
  | assert_failed
  | out_of_range
  | out_of_fuel
deriving DecidableEq, Repr

/-- Result of a run that may stop with a `Fault`. -/
inductive Run (α : Type) where
  | ok (a : α)
  | fault (e : Fault)
deriving DecidableEq, Repr

namespace Minesweeper

/-- Storage of the member `board_`: a list of inner arrays. -/
abbrev Board := List (List Cell)

/-- The eight neighbour offsets in the order of the source table. -/
def SURROUNDING_DX_DY : List (Int × Int) :=
  [(-1, -1), (-1, 0), (0, -1), (1, 1), (1, 0), (0, 1), (-1, 1), (1, -1)]

/-- Read of `board_[i][j]`: element `j` of inner array `i`. -/
def readCell (b : Board) (i j : Nat) : Run Cell :=
  match b[i]? with
  | none => Run.fault Fault.out_of_range
  | some inner =>
    match inner[j]? with
    | none => Run.fault Fault.out_of_range
    | some c => Run.ok c

/-- Store into `board_[i][j]` (after a successful read of the same place). -/
def writeCell (b : Board) (i j : Nat) (c : Cell) : Board :=
  match b[i]? with
  | none => b
  | some inner => b.set i (inner.set j c)

/-- The storage as the constructor finds it: `NumColsT` inner arrays of
`NumRowsT` cells, every cell `value = 0`, `is_revealed = false`.  These are
the member initialisers `value{}`, `is_revealed{}` of
`minesweeper_no_click.cc`; `minesweeper.cc` declares the two members without
initialiser and says nothing about the content. -/
def board_ (NumRowsT NumColsT : Nat) : Board :=
  List.replicate NumColsT (List.replicate NumRowsT ⟨0, false⟩)

/-- Loop of `visit_surrounding_cells` over a table of offsets.  The callback
receives the cell and its position, may change the cell and a state `σ` of
its own (what the closure captures). -/
def visit_offsets {σ : Type} (NumRowsT NumColsT : Nat) (cell : Position)
    (callback : Cell → Position → σ → Cell × σ) :
    List (Int × Int) → Board × σ → Run (Board × σ)
  | [], st => Run.ok st
  | (dx, dy) :: rest, (b, s) =>
    -- `row == NumRowsT - 1` is unsigned: it is `row + 1 == NumRowsT`
    if cell.1 = 0 ∧ dx < 0 then visit_offsets NumRowsT NumColsT cell callback rest (b, s)
    else if cell.2 = 0 ∧ dy < 0 then visit_offsets NumRowsT NumColsT cell callback rest (b, s)
    else if cell.1 + 1 = NumRowsT ∧ dx > 0 then
      visit_offsets NumRowsT NumColsT cell callback rest (b, s)
    else if cell.2 + 1 = NumColsT ∧ dy > 0 then
      visit_offsets NumRowsT NumColsT cell callback rest (b, s)
    else
      let new_row := ((cell.1 : Int) + dx).toNat
      let new_col := ((cell.2 : Int) + dy).toNat
      match readCell b new_row new_col with
      | Run.fault e => Run.fault e
      | Run.ok c =>
        let r := callback c (new_row, new_col) s
        visit_offsets NumRowsT NumColsT cell callback rest
          (writeCell b new_row new_col r.1, r.2)

/-- Function `Minesweeper::visit_surrounding_cells`. -/
def visit_surrounding_cells {σ : Type} (NumRowsT NumColsT : Nat) (cell : Position)
    (callback : Cell → Position → σ → Cell × σ) (st : Board × σ) : Run (Board × σ) :=
  visit_offsets NumRowsT NumColsT cell callback SURROUNDING_DX_DY st

/-- The statement `cell.value++` on an `int8_t`. -/
def incr (v : CellValue) : CellValue := if v = 127 then -128 else v + 1

/-- Callback of `insert_bombs`: count one more adjacent mine. -/
def count_bomb (cell : Cell) (_position : Position) (s : Unit) : Cell × Unit :=
  if cell.value ≠ Cell.BOMB then ({ cell with value := incr cell.value }, s) else (cell, s)

/-- Second loop of `insert_bombs`: place each mine and count it in the
cells around it. -/
def place_bombs (NumRowsT NumColsT : Nat) : List Position → Board → Run Board
  | [], b => Run.ok b
  | (row, col) :: rest, b =>
    match readCell b row col with
    | Run.fault e => Run.fault e
    | Run.ok c =>
      match visit_surrounding_cells NumRowsT NumColsT (row, col) count_bomb
          (writeCell b row col { c with value := Cell.BOMB }, ()) with
      | Run.fault e => Run.fault e
      | Run.ok st => place_bombs NumRowsT NumColsT rest st.1

/-- Function `Minesweeper::insert_bombs` with its three `assert`s. -/
def insert_bombs (NumRowsT NumColsT : Nat) (bomb_positions : List Position) (b : Board) :
    Run Board :=
  if ¬ bomb_positions.length < NumRowsT * NumColsT then Run.fault Fault.assert_failed
  else if ¬ (∀ p ∈ bomb_positions, p.1 < NumRowsT ∧ p.2 < NumColsT) then
    Run.fault Fault.assert_failed
  else place_bombs NumRowsT NumColsT bomb_positions b

/-- The constructor `Minesweeper(bomb_positions)`. -/
def new (NumRowsT NumColsT : Nat) (bomb_positions : List Position) : Run Board :=
  insert_bombs NumRowsT NumColsT bomb_positions (board_ NumRowsT NumColsT)

/-- Callback of the flood fill: queue the cell when it is neither a mine
nor revealed. -/
def enqueue (cell : Cell) (position : Position) (visit_positions : List Position) :
    Cell × List Position :=
  if cell.value ≠ Cell.BOMB ∧ cell.is_revealed = false then (cell, visit_positions ++ [position])
  else (cell, visit_positions)

/-- Body of the loop of `click`: take the front of the queue (already
split into `current_pos` and the `rest`), skip a mine, otherwise reveal the
cell and, when it is a `SPACE`, visit the cells around it. -/
def flood_body (NumRowsT NumColsT : Nat) (current_pos : Position) (rest : List Position)
    (b : Board) : Run (Board × List Position) :=
  match readCell b current_pos.1 current_pos.2 with
  | Run.fault e => Run.fault e
  | Run.ok current_cell =>
    if current_cell.value = Cell.BOMB then Run.ok (b, rest)
    else
      let b1 := writeCell b current_pos.1 current_pos.2
        { current_cell with is_revealed := true }
      if current_cell.value = Cell.SPACE then
        visit_surrounding_cells NumRowsT NumColsT current_pos enqueue (b1, rest)
      else Run.ok (b1, rest)

/-- The `do ... while (!visit_positions.empty())` loop of `click`; one unit
of fuel per iteration, the queue is a list with its front at the head
(`front()` of an empty queue is an access out of range). -/
def flood (NumRowsT NumColsT : Nat) : Nat → List Position → Board → Run Board
  | 0, _, _ => Run.fault Fault.out_of_fuel
  | _ + 1, [], _ => Run.fault Fault.out_of_range
  | fuel + 1, current_pos :: rest, b =>
    match flood_body NumRowsT NumColsT current_pos rest b with
    | Run.fault e => Run.fault e
    | Run.ok st =>
      if st.2.isEmpty then Run.ok st.1 else flood NumRowsT NumColsT fuel st.2 st.1

/-- Function `Minesweeper::click`; `fuel` bounds the iterations of its
loop. -/
def click (NumRowsT NumColsT : Nat) (fuel : Nat) (click : Position) (b : Board) :
    Run (ClickResult × Board) :=
  if click.1 > NumRowsT ∨ click.2 > NumColsT then Run.ok (ClickResult.INVALID_MOVE, b)
  else
    match readCell b click.1 click.2 with
    | Run.fault e => Run.fault e
    | Run.ok c =>
      if c.is_revealed then Run.ok (ClickResult.IN_PROGRESS, b)
      else
        let b1 := writeCell b click.1 click.2 { c with is_revealed := true }
        if c.value = Cell.BOMB then Run.ok (ClickResult.LOSE, b1)
        else
          match flood NumRowsT NumColsT fuel [click] b1 with
          | Run.fault e => Run.fault e
          | Run.ok b2 => Run.ok (ClickResult.IN_PROGRESS, b2)

/-! ### The positions a visit reaches -/

/-- Position reached from `cell` by one offset, `none` when one of the four
bounds checks of `visit_surrounding_cells` skips the offset. -/
def target (NumRowsT NumColsT : Nat) (cell : Position) (d : Int × Int) : Option Position :=
  if cell.1 = 0 ∧ d.1 < 0 then none
  else if cell.2 = 0 ∧ d.2 < 0 then none
  else if cell.1 + 1 = NumRowsT ∧ d.1 > 0 then none
  else if cell.2 + 1 = NumColsT ∧ d.2 > 0 then none
  else some (((cell.1 : Int) + d.1).toNat, ((cell.2 : Int) + d.2).toNat)

/-- Positions on which a visit from `cell` calls the callback, in order. -/
def targets (NumRowsT NumColsT : Nat) (cell : Position) (offsets : List (Int × Int)) :
    List Position :=
  offsets.filterMap (target NumRowsT NumColsT cell)

/-- Calls of the callback on a list of positions, in order. -/
def visit_list {σ : Type} (callback : Cell → Position → σ → Cell × σ) :
    List Position → Board × σ → Run (Board × σ)
  | [], st => Run.ok st
  | x :: xs, (b, s) =>
    match readCell b x.1 x.2 with
    | Run.fault e => Run.fault e
    | Run.ok c =>
      visit_list callback xs (writeCell b x.1 x.2 (callback c x s).1, (callback c x s).2)

/-- The test of the flood-fill callback: the cell exists, is no mine and is
not revealed. -/
def pushable (b : Board) (x : Position) : Bool :=
  match readCell b x.1 x.2 with
  | Run.ok c => decide (c.value ≠ Cell.BOMB ∧ c.is_revealed = false)
  | Run.fault _ => false

/-! ### Vocabulary of the properties -/

/-- Position on the `NumRowsT x NumColsT` grid. -/
def inBounds (NumRowsT NumColsT : Nat) (p : Position) : Prop :=
  p.1 < NumRowsT ∧ p.2 < NumColsT

instance (R C : Nat) (p : Position) : Decidable (inBounds R C p) := by
  unfold inBounds; infer_instance

/-- Two distinct positions that differ by at most one in each coordinate. -/
def adjacent (x q : Position) : Prop :=
  x ≠ q ∧ x.1 ≤ q.1 + 1 ∧ q.1 ≤ x.1 + 1 ∧ x.2 ≤ q.2 + 1 ∧ q.2 ≤ x.2 + 1

instance (x q : Position) : Decidable (adjacent x q) := by
  unfold adjacent; infer_instance

/-- Every non-mine cell of the storage is revealed. -/
def all_safe_revealed (b : Board) : Bool :=
  b.all (fun inner => inner.all (fun c => c.value = Cell.BOMB ∨ c.is_revealed = true))

/-! ### Boards used as examples -/

/-- The bomb list of `main`. -/
def bomb_locations : List Position := [(1, 3), (2, 2)]

/-- Storage of `Minesweeper<5, 7>` after the constructor ran on
`bomb_locations`: seven inner arrays of five cells. -/
def game_board : Board :=
  [[⟨0, false⟩, ⟨0, false⟩, ⟨1, false⟩, ⟨1, false⟩, ⟨1, false⟩],
   [⟨0, false⟩, ⟨1, false⟩, ⟨2, false⟩, ⟨-1, false⟩, ⟨1, false⟩],
   [⟨0, false⟩, ⟨1, false⟩, ⟨-1, false⟩, ⟨2, false⟩, ⟨1, false⟩],
   [⟨0, false⟩, ⟨1, false⟩, ⟨1, false⟩, ⟨1, false⟩, ⟨0, false⟩],
   [⟨0, false⟩, ⟨0, false⟩, ⟨0, false⟩, ⟨0, false⟩, ⟨0, false⟩],
   [⟨0, false⟩, ⟨0, false⟩, ⟨0, false⟩, ⟨0, false⟩, ⟨0, false⟩],
   [⟨0, false⟩, ⟨0, false⟩, ⟨0, false⟩, ⟨0, false⟩, ⟨0, false⟩]]

/-- Storage of `Minesweeper<3, 3>` after the constructor ran on the single
mine `(0, 0)`. -/
def corner_board : Board :=
  [[⟨-1, false⟩, ⟨1, false⟩, ⟨0, false⟩],
   [⟨1, false⟩, ⟨1, false⟩, ⟨0, false⟩],
   [⟨0, false⟩, ⟨0, false⟩, ⟨0, false⟩]]

/-- The board `corner_board` with every cell but the mine revealed. -/
def corner_board_cleared : Board :=
  [[⟨-1, false⟩, ⟨1, true⟩, ⟨0, true⟩],
   [⟨1, true⟩, ⟨1, true⟩, ⟨0, true⟩],
   [⟨0, true⟩, ⟨0, true⟩, ⟨0, true⟩]]

/-- Storage that the constructor of `Minesweeper<3, 3>` leaves for the mine
list `[(0, 0), (0, 0)]`, which names the same position twice. -/
def doubled_board : Board :=
  [[⟨-1, false⟩, ⟨2, false⟩, ⟨0, false⟩],
   [⟨2, false⟩, ⟨2, false⟩, ⟨0, false⟩],
   [⟨0, false⟩, ⟨0, false⟩, ⟨0, false⟩]]

/-- A callback that leaves the cell as it is and notes the position it was
called on. -/
def record (cell : Cell) (position : Position) (log : List Position) :
    Cell × List Position :=
  (cell, log ++ [position])

/-- Number of borders of the grid that the row of `p` lies on. -/
def row_borders (NumRowsT : Nat) (p : Position) : Nat :=
  (if p.1 = 0 then 1 else 0) + (if p.1 + 1 = NumRowsT then 1 else 0)

/-- Number of borders of the grid that the column of `p` lies on. -/
def col_borders (NumColsT : Nat) (p : Position) : Nat :=
  (if p.2 = 0 then 1 else 0) + (if p.2 + 1 = NumColsT then 1 else 0)

/-! ### Measures and shapes used by the proofs -/

/-- Weight 1 for a cell that is neither a mine nor revealed. -/
def hidden_weight (c : Cell) : Nat :=
  if c.value ≠ Cell.BOMB ∧ c.is_revealed = false then 1 else 0

/-- Number of cells of the storage that are neither a mine nor revealed. -/
def hidden_count (b : Board) : Nat :=
  (b.map (fun inner => (inner.map hidden_weight).sum)).sum

/-- The storage holds a cell for every position of the grid. -/
def Covers (NumRowsT NumColsT : Nat) (b : Board) : Prop :=
  ∀ i < NumRowsT, ∀ j < NumColsT, readCell b i j ≠ Run.fault Fault.out_of_range

instance (R C : Nat) (b : Board) : Decidable (Covers R C b) := by
  unfold Covers; infer_instance

/-! ### Vocabulary of the construction -/

/-- All positions of the grid. -/
def grid (NumRowsT NumColsT : Nat) : List Position :=
  (List.range NumRowsT).product (List.range NumColsT)

/-- The in-bounds 8-neighbours of a position. -/
def neighbours (NumRowsT NumColsT : Nat) (p : Position) : List Position :=
  (grid NumRowsT NumColsT).filter (fun x => decide (adjacent p x))

/-- The cell at `x` exists and holds a mine. -/
def is_mine (b : Board) (x : Position) : Bool :=
  match readCell b x.1 x.2 with
  | Run.ok c => decide (c.value = Cell.BOMB)
  | Run.fault _ => false

/-- Number of mine cells among the in-bounds 8-neighbours of `p`. -/
def mine_neighbours (NumRowsT NumColsT : Nat) (b : Board) (p : Position) : Nat :=
  ((neighbours NumRowsT NumColsT p).filter (is_mine b)).length

/-- Value that the cell at `p` holds once the mines `placed` are inserted
into fresh storage: the marker for a mine, the number of those mines next to
`p` otherwise. -/
def value_after (placed : List Position) (p : Position) : CellValue :=
  if p ∈ placed then Cell.BOMB else ((placed.countP (fun m => decide (adjacent m p)) : Nat) : Int)

/-- The mine list is one that the specification admits for the grid. -/
def ValidMines (NumRowsT NumColsT : Nat) (bomb_positions : List Position) : Prop :=
  bomb_positions.length < NumRowsT * NumColsT ∧
  (∀ p ∈ bomb_positions, inBounds NumRowsT NumColsT p) ∧ bomb_positions.Nodup

instance (R C : Nat) (l : List Position) : Decidable (ValidMines R C l) := by
  unfold ValidMines; infer_instance

/-- What the callback of `insert_bombs` makes of a cell. -/
def bump (c : Cell) : Cell :=
  if c.value ≠ Cell.BOMB then { c with value := incr c.value } else c

/-! ### Vocabulary of the flood fill -/

/-- The cell at `x` exists and is revealed. -/
def is_revealed_at (b : Board) (x : Position) : Bool :=
  match readCell b x.1 x.2 with
  | Run.ok c => c.is_revealed
  | Run.fault _ => false

/-- The least set of positions that contains `p` and, with every `SPACE`
cell `x` in it, the in-bounds 8-neighbours of `x`. -/
inductive Region (NumRowsT NumColsT : Nat) (b : Board) (p : Position) : Position → Prop where
  | seed : Region NumRowsT NumColsT b p p
  | step {x y : Position} {c : Cell} : Region NumRowsT NumColsT b p x →
      readCell b x.1 x.2 = Run.ok c → c.value = Cell.SPACE →
      inBounds NumRowsT NumColsT y → adjacent x y → Region NumRowsT NumColsT b p y

/-- Boards that arise from the constructor by clicks on positions of the
grid. -/
inductive Reachable (NumRowsT NumColsT : Nat) (bomb_positions : List Position) :
    Board → Prop where
  | fresh {b : Board} : Minesweeper.new NumRowsT NumColsT bomb_positions = Run.ok b →
      Reachable NumRowsT NumColsT bomb_positions b
  | click {b b2 : Board} {fuel : Nat} {p : Position} {r : ClickResult} :
      Reachable NumRowsT NumColsT bomb_positions b → inBounds NumRowsT NumColsT p →
      Minesweeper.click NumRowsT NumColsT fuel p b = Run.ok (r, b2) →
      Reachable NumRowsT NumColsT bomb_positions b2

/-- Every cell of the grid exists and holds the value that the mine list
gives it. -/
def HasValues (NumRowsT NumColsT : Nat) (bomb_positions : List Position) (b : Board) : Prop :=
  ∀ x, inBounds NumRowsT NumColsT x →
    ∃ f, readCell b x.1 x.2 = Run.ok ⟨value_after bomb_positions x, f⟩

/-- Every revealed `SPACE` of the grid has all its in-bounds 8-neighbours
revealed. -/
def Closed (NumRowsT NumColsT : Nat) (b : Board) : Prop :=
  ∀ x, inBounds NumRowsT NumColsT x → readCell b x.1 x.2 = Run.ok ⟨Cell.SPACE, true⟩ →
    ∀ y, inBounds NumRowsT NumColsT y → adjacent x y → is_revealed_at b y = true

/-- Invariant of the flood fill of a click on `p` in the board `b`, for the
queue `q` and the current board `b1`. -/
def FloodInv (NumRowsT NumColsT : Nat) (bomb_positions : List Position) (b : Board)
    (p : Position) (q : List Position) (b1 : Board) : Prop :=
  HasValues NumRowsT NumColsT bomb_positions b1 ∧
  (∀ x ∈ q, inBounds NumRowsT NumColsT x ∧ Region NumRowsT NumColsT b p x ∧
    x ∉ bomb_positions) ∧
  (∀ x, inBounds NumRowsT NumColsT x → is_revealed_at b1 x = true →
    is_revealed_at b x = true ∨ Region NumRowsT NumColsT b p x) ∧
  (∀ x, inBounds NumRowsT NumColsT x → is_revealed_at b x = true →
    is_revealed_at b1 x = true) ∧
  is_revealed_at b1 p = true ∧
  (∀ x, inBounds NumRowsT NumColsT x → is_revealed_at b1 x = true →
    value_after bomb_positions x = Cell.SPACE →
    x ∈ q ∨ ∀ y, inBounds NumRowsT NumColsT y → adjacent x y →
      is_revealed_at b1 y = true ∨ y ∈ q)

/-! ### The flood fill over an arbitrary table of offsets, and its trace -/

/-- The body of the loop of `click` with the table of offsets as a
parameter; `flood_body` is the instance for `SURROUNDING_DX_DY`. -/
def flood_body_with (offsets : List (Int × Int)) (NumRowsT NumColsT : Nat)
    (current_pos : Position) (rest : List Position) (b : Board) :
    Run (Board × List Position) :=
  match readCell b current_pos.1 current_pos.2 with
  | Run.fault e => Run.fault e
  | Run.ok current_cell =>
    if current_cell.value = Cell.BOMB then Run.ok (b, rest)
    else
      let b1 := writeCell b current_pos.1 current_pos.2
        { current_cell with is_revealed := true }
      if current_cell.value = Cell.SPACE then
        visit_offsets NumRowsT NumColsT current_pos enqueue offsets (b1, rest)
      else Run.ok (b1, rest)

/-- The loop of `click` with the table of offsets as a parameter. -/
def flood_with (offsets : List (Int × Int)) (NumRowsT NumColsT : Nat) :
    Nat → List Position → Board → Run Board
  | 0, _, _ => Run.fault Fault.out_of_fuel
  | _ + 1, [], _ => Run.fault Fault.out_of_range
  | fuel + 1, current_pos :: rest, b =>
    match flood_body_with offsets NumRowsT NumColsT current_pos rest b with
    | Run.fault e => Run.fault e
    | Run.ok st =>
      if st.2.isEmpty then Run.ok st.1
      else flood_with offsets NumRowsT NumColsT fuel st.2 st.1

/-- The function `click` with the table of offsets as a parameter. -/
def click_with (offsets : List (Int × Int)) (NumRowsT NumColsT : Nat) (fuel : Nat)
    (click : Position) (b : Board) : Run (ClickResult × Board) :=
  if click.1 > NumRowsT ∨ click.2 > NumColsT then Run.ok (ClickResult.INVALID_MOVE, b)
  else
    match readCell b click.1 click.2 with
    | Run.fault e => Run.fault e
    | Run.ok c =>
      if c.is_revealed then Run.ok (ClickResult.IN_PROGRESS, b)
      else
        let b1 := writeCell b click.1 click.2 { c with is_revealed := true }
        if c.value = Cell.BOMB then Run.ok (ClickResult.LOSE, b1)
        else
          match flood_with offsets NumRowsT NumColsT fuel [click] b1 with
          | Run.fault e => Run.fault e
          | Run.ok b2 => Run.ok (ClickResult.IN_PROGRESS, b2)

/-- Trace of the loop of `click`: for every iteration the position taken
from the front of the queue and the positions that the callback pushed
during the iteration (what the queue holds after the iteration beyond the
`rest`). -/
def flood_rounds (NumRowsT NumColsT : Nat) :
    Nat → List Position → Board → List (Position × List Position)
  | 0, _, _ => []
  | _ + 1, [], _ => []
  | fuel + 1, current_pos :: rest, b =>
    match flood_body NumRowsT NumColsT current_pos rest b with
    | Run.fault _ => []
    | Run.ok st =>
      (current_pos, st.2.drop rest.length) ::
        (if st.2.isEmpty then [] else flood_rounds NumRowsT NumColsT fuel st.2 st.1)

/-- Trace of the loop of a click; empty when `click` returns before the
loop. -/
def click_rounds (NumRowsT NumColsT : Nat) (fuel : Nat) (click : Position) (b : Board) :
    List (Position × List Position) :=
  if click.1 > NumRowsT ∨ click.2 > NumColsT then []
  else
    match readCell b click.1 click.2 with
    | Run.fault _ => []
    | Run.ok c =>
      if c.is_revealed then []
      else if c.value = Cell.BOMB then []
      else flood_rounds NumRowsT NumColsT fuel [click]
        (writeCell b click.1 click.2 { c with is_revealed := true })

/-- All pushes onto `visit_positions` during a click that enters the loop:
the push of the clicked position before the loop, then the pushes of the
callback in order. -/
def click_pushes (NumRowsT NumColsT : Nat) (fuel : Nat) (click : Position) (b : Board) :
    List Position :=
  click :: ((click_rounds NumRowsT NumColsT fuel click b).map (fun r => r.2)).flatten

/-- Lengths of the arrays of the storage. -/
def shape (b : Board) : List Nat := b.map List.length

/-- Positions that the flood fill takes from its queue, when it starts with
the queue `q` on the board `b` and uses the table `offsets`: the positions
of `q`, and with every `SPACE` among them the positions around it that are
hidden and no mine in `b`. -/
inductive Swept (offsets : List (Int × Int)) (NumRowsT NumColsT : Nat) (b : Board)
    (q : List Position) : Position → Prop where
  | seed {x : Position} : x ∈ q → Swept offsets NumRowsT NumColsT b q x
  | step {x y : Position} {c : Cell} : Swept offsets NumRowsT NumColsT b q x →
      readCell b x.1 x.2 = Run.ok c → c.value = Cell.SPACE →
      y ∈ targets NumRowsT NumColsT x offsets → pushable b y = true →
      Swept offsets NumRowsT NumColsT b q y

/-- The position `x` has been dealt with, for the start board `b`, the
current queue `q1` and the current board `b1`: its cell exists, is revealed
unless it is a mine, and if it is a `SPACE` the cells around it exist and
those that were hidden and no mine at the start are in the queue or
revealed. -/
def Handled (offsets : List (Int × Int)) (NumRowsT NumColsT : Nat) (b : Board)
    (q1 : List Position) (b1 : Board) (x : Position) : Prop :=
  ∃ c, readCell b x.1 x.2 = Run.ok c ∧
    (c.value ≠ Cell.BOMB → is_revealed_at b1 x = true) ∧
    (c.value = Cell.SPACE → ∀ z ∈ targets NumRowsT NumColsT x offsets,
      (∃ cz, readCell b z.1 z.2 = Run.ok cz) ∧
      (pushable b z = true → z ∈ q1 ∨ is_revealed_at b1 z = true))

/-- Invariant of the flood fill that started with the queue `q` on the
board `b`, for the current queue `q1` and the current board `b1`. -/
def SweepInv (offsets : List (Int × Int)) (NumRowsT NumColsT : Nat) (b : Board)
    (q : List Position) (q1 : List Position) (b1 : Board) : Prop :=
  shape b1 = shape b ∧
  (∀ i j e, readCell b i j = Run.fault e → readCell b1 i j = Run.fault e) ∧
  (∀ i j d, readCell b i j = Run.ok d →
    readCell b1 i j = Run.ok d ∨
      (d.value ≠ Cell.BOMB ∧ readCell b1 i j = Run.ok ⟨d.value, true⟩ ∧
        Swept offsets NumRowsT NumColsT b q (i, j))) ∧
  (∀ x ∈ q1, Swept offsets NumRowsT NumColsT b q x) ∧
  (∀ x ∈ q, x ∈ q1 ∨ Handled offsets NumRowsT NumColsT b q1 b1 x) ∧
  (∀ y, pushable b y = true → is_revealed_at b1 y = true →
    y ∈ q1 ∨ Handled offsets NumRowsT NumColsT b q1 b1 y)

/-- Every cell of the grid that the storage holds has the value that the
mine list gives it. -/
def StoredValues (NumRowsT NumColsT : Nat) (bomb_positions : List Position) (b : Board) :
    Prop :=
  ∀ x, inBounds NumRowsT NumColsT x → ∀ c, readCell b x.1 x.2 = Run.ok c →
    c.value = value_after bomb_positions x

/-! ### The storage as the build lays it out

`std::array<std::array<Cell, NumRowsT>, NumColsT>` is one block of
`NumColsT * NumRowsT` cells, and `operator[]` of `std::array` checks no
bound: `board_[i][j]` is cell `i * NumRowsT + j` of the block, also when
`j` is not below `NumRowsT`.  The definitions of this part are those above
with this access in place of `readCell` and `writeCell`; an access beyond
the block still ends the run. -/

/-- Read of `board_[i][j]` in the block of cells: cell `i * NumRowsT + j`. -/
def Flat.readCell (NumRowsT : Nat) (m : List Cell) (i j : Nat) : Run Cell :=
  match m[i * NumRowsT + j]? with
  | none => Run.fault Fault.out_of_range
  | some c => Run.ok c

/-- Store into `board_[i][j]` in the block of cells. -/
def Flat.writeCell (NumRowsT : Nat) (m : List Cell) (i j : Nat) (c : Cell) : List Cell :=
  m.set (i * NumRowsT + j) c

/-- The block of cells as the constructor finds it in the model: every cell
`value = 0`, `is_revealed = false`. -/
def Flat.board_ (NumRowsT NumColsT : Nat) : List Cell :=
  List.replicate (NumColsT * NumRowsT) ⟨0, false⟩

/-- Loop of `visit_surrounding_cells` over a table of offsets, on the block
of cells. -/
def Flat.visit_offsets {σ : Type} (NumRowsT NumColsT : Nat) (cell : Position)
    (callback : Cell → Position → σ → Cell × σ) :
    List (Int × Int) → List Cell × σ → Run (List Cell × σ)
  | [], st => Run.ok st
  | (dx, dy) :: rest, (m, s) =>
    if cell.1 = 0 ∧ dx < 0 then Flat.visit_offsets NumRowsT NumColsT cell callback rest (m, s)
    else if cell.2 = 0 ∧ dy < 0 then
      Flat.visit_offsets NumRowsT NumColsT cell callback rest (m, s)
    else if cell.1 + 1 = NumRowsT ∧ dx > 0 then
      Flat.visit_offsets NumRowsT NumColsT cell callback rest (m, s)
    else if cell.2 + 1 = NumColsT ∧ dy > 0 then
      Flat.visit_offsets NumRowsT NumColsT cell callback rest (m, s)
    else
      let new_row := ((cell.1 : Int) + dx).toNat
      let new_col := ((cell.2 : Int) + dy).toNat
      match Flat.readCell NumRowsT m new_row new_col with
      | Run.fault e => Run.fault e
      | Run.ok c =>
        let r := callback c (new_row, new_col) s
        Flat.visit_offsets NumRowsT NumColsT cell callback rest
          (Flat.writeCell NumRowsT m new_row new_col r.1, r.2)

/-- Second loop of `insert_bombs` on the block of cells. -/
def Flat.place_bombs (NumRowsT NumColsT : Nat) : List Position → List Cell → Run (List Cell)
  | [], m => Run.ok m
  | (row, col) :: rest, m =>
    match Flat.readCell NumRowsT m row col with
    | Run.fault e => Run.fault e
    | Run.ok c =>
      match Flat.visit_offsets NumRowsT NumColsT (row, col) count_bomb SURROUNDING_DX_DY
          (Flat.writeCell NumRowsT m row col { c with value := Cell.BOMB }, ()) with
      | Run.fault e => Run.fault e
      | Run.ok st => Flat.place_bombs NumRowsT NumColsT rest st.1

/-- Function `Minesweeper::insert_bombs` on the block of cells. -/
def Flat.insert_bombs (NumRowsT NumColsT : Nat) (bomb_positions : List Position)
    (m : List Cell) : Run (List Cell) :=
  if ¬ bomb_positions.length < NumRowsT * NumColsT then Run.fault Fault.assert_failed
  else if ¬ (∀ p ∈ bomb_positions, p.1 < NumRowsT ∧ p.2 < NumColsT) then
    Run.fault Fault.assert_failed
  else Flat.place_bombs NumRowsT NumColsT bomb_positions m

/-- The constructor `Minesweeper(bomb_positions)` on the block of cells. -/
def Flat.new (NumRowsT NumColsT : Nat) (bomb_positions : List Position) : Run (List Cell) :=
  Flat.insert_bombs NumRowsT NumColsT bomb_positions (Flat.board_ NumRowsT NumColsT)

/-- Body of the loop of `click` on the block of cells, with the table of
offsets as a parameter. -/
def Flat.flood_body_with (offsets : List (Int × Int)) (NumRowsT NumColsT : Nat)
    (current_pos : Position) (rest : List Position) (m : List Cell) :
    Run (List Cell × List Position) :=
  match Flat.readCell NumRowsT m current_pos.1 current_pos.2 with
  | Run.fault e => Run.fault e
  | Run.ok current_cell =>
    if current_cell.value = Cell.BOMB then Run.ok (m, rest)
    else
      let m1 := Flat.writeCell NumRowsT m current_pos.1 current_pos.2
        { current_cell with is_revealed := true }
      if current_cell.value = Cell.SPACE then
        Flat.visit_offsets NumRowsT NumColsT current_pos enqueue offsets (m1, rest)
      else Run.ok (m1, rest)

/-- The loop of `click` on the block of cells, with the table of offsets as
a parameter; one unit of fuel per iteration. -/
def Flat.flood_with (offsets : List (Int × Int)) (NumRowsT NumColsT : Nat) :
    Nat → List Position → List Cell → Run (List Cell)
  | 0, _, _ => Run.fault Fault.out_of_fuel
  | _ + 1, [], _ => Run.fault Fault.out_of_range
  | fuel + 1, current_pos :: rest, m =>
    match Flat.flood_body_with offsets NumRowsT NumColsT current_pos rest m with
    | Run.fault e => Run.fault e
    | Run.ok st =>
      if st.2.isEmpty then Run.ok st.1
      else Flat.flood_with offsets NumRowsT NumColsT fuel st.2 st.1

/-- Function `Minesweeper::click` on the block of cells, with the table of
offsets as a parameter. -/
def Flat.click_with (offsets : List (Int × Int)) (NumRowsT NumColsT : Nat) (fuel : Nat)
    (click : Position) (m : List Cell) : Run (ClickResult × List Cell) :=
  if click.1 > NumRowsT ∨ click.2 > NumColsT then Run.ok (ClickResult.INVALID_MOVE, m)
  else
    match Flat.readCell NumRowsT m click.1 click.2 with
    | Run.fault e => Run.fault e
    | Run.ok c =>
      if c.is_revealed then Run.ok (ClickResult.IN_PROGRESS, m)
      else
        let m1 := Flat.writeCell NumRowsT m click.1 click.2 { c with is_revealed := true }
        if c.value = Cell.BOMB then Run.ok (ClickResult.LOSE, m1)
        else
          match Flat.flood_with offsets NumRowsT NumColsT fuel [click] m1 with
          | Run.fault e => Run.fault e
          | Run.ok m2 => Run.ok (ClickResult.IN_PROGRESS, m2)

/-- Function `Minesweeper::click` on the block of cells. -/
def Flat.click (NumRowsT NumColsT : Nat) (fuel : Nat) (click : Position) (m : List Cell) :
    Run (ClickResult × List Cell) :=
  Flat.click_with SURROUNDING_DX_DY NumRowsT NumColsT fuel click m

/-- Storage of `Minesweeper<3, 3>` after the constructor ran on the single
mine `(1, 0)`. -/
def edge_mine_board : Board :=
  [[⟨1, false⟩, ⟨1, false⟩, ⟨0, false⟩],
   [⟨-1, false⟩, ⟨1, false⟩, ⟨0, false⟩],
   [⟨1, false⟩, ⟨1, false⟩, ⟨0, false⟩]]

/-- The cells of `Minesweeper<5, 7>` with the mines of `main`, inner array
by inner array, after the click on `(4, 2)` in the fresh board, run on the
block of cells with the table in the order of the source.  The same cells
result from the two first moves of `main`, `(2, 4)` and `(0, 1)`. -/
def game_board_swept : Board :=
  [[⟨0, true⟩, ⟨0, true⟩, ⟨1, true⟩, ⟨1, false⟩, ⟨1, false⟩],
   [⟨0, true⟩, ⟨1, true⟩, ⟨2, true⟩, ⟨-1, false⟩, ⟨1, false⟩],
   [⟨0, true⟩, ⟨1, true⟩, ⟨-1, false⟩, ⟨2, true⟩, ⟨1, true⟩],
   [⟨0, true⟩, ⟨1, true⟩, ⟨1, true⟩, ⟨1, true⟩, ⟨0, true⟩],
   [⟨0, true⟩, ⟨0, true⟩, ⟨0, true⟩, ⟨0, true⟩, ⟨0, true⟩],
   [⟨0, true⟩, ⟨0, true⟩, ⟨0, false⟩, ⟨0, false⟩, ⟨0, false⟩],
   [⟨0, false⟩, ⟨0, false⟩, ⟨0, false⟩, ⟨0, false⟩, ⟨0, false⟩]]

/-- The cells after the same click on `(4, 2)` with the table of offsets in
reverse order: `board_[0][4]` and `board_[1][4]` are revealed as well. -/
def game_board_swept_reversed : Board :=
  [[⟨0, true⟩, ⟨0, true⟩, ⟨1, true⟩, ⟨1, false⟩, ⟨1, true⟩],
   [⟨0, true⟩, ⟨1, true⟩, ⟨2, true⟩, ⟨-1, false⟩, ⟨1, true⟩],
   [⟨0, true⟩, ⟨1, true⟩, ⟨-1, false⟩, ⟨2, true⟩, ⟨1, true⟩],
   [⟨0, true⟩, ⟨1, true⟩, ⟨1, true⟩, ⟨1, true⟩, ⟨0, true⟩],
   [⟨0, true⟩, ⟨0, true⟩, ⟨0, true⟩, ⟨0, true⟩, ⟨0, true⟩],
   [⟨0, true⟩, ⟨0, true⟩, ⟨0, false⟩, ⟨0, false⟩, ⟨0, false⟩],
   [⟨0, false⟩, ⟨0, false⟩, ⟨0, false⟩, ⟨0, false⟩, ⟨0, false⟩]]

/-- The cells after the click on `(0, 5)` in the fresh board of `main`, run
on the block of cells. -/
def game_board_after_0_5 : Board :=
  [[⟨0, false⟩, ⟨0, false⟩, ⟨1, false⟩, ⟨1, false⟩, ⟨1, true⟩],
   [⟨0, true⟩, ⟨1, true⟩, ⟨2, false⟩, ⟨-1, false⟩, ⟨1, true⟩],
   [⟨0, true⟩, ⟨1, true⟩, ⟨-1, false⟩, ⟨2, true⟩, ⟨1, true⟩],
   [⟨0, true⟩, ⟨1, true⟩, ⟨1, true⟩, ⟨1, true⟩, ⟨0, true⟩],
   [⟨0, true⟩, ⟨0, true⟩, ⟨0, true⟩, ⟨0, true⟩, ⟨0, true⟩],
   [⟨0, true⟩, ⟨0, true⟩, ⟨0, false⟩, ⟨0, false⟩, ⟨0, false⟩],
   [⟨0, false⟩, ⟨0, false⟩, ⟨0, false⟩, ⟨0, false⟩, ⟨0, false⟩]]

/-! ### Reading and writing cells -/

theorem readCell_eq_ok {b : Board} {i j : Nat} {c : Cell} :
    readCell b i j = Run.ok c ↔ ∃ inner, b[i]? = some inner ∧ inner[j]? = some c := by
  unfold readCell
  cases hb : b[i]? with
  | none => simp
  | some inner =>
    cases hc : inner[j]? with
    | none => simp [hc]
    | some d => simp [hc]

theorem readCell_fault_kind {b : Board} {i j : Nat} {e : Fault}
    (h : readCell b i j = Run.fault e) : e = Fault.out_of_range := by
  unfold readCell at h
  split at h
  · cases h; rfl
  · split at h
    · cases h; rfl
    · cases h

theorem writeCell_self {b : Board} {i j : Nat} {c : Cell}
    (h : readCell b i j = Run.ok c) : writeCell b i j c = b := by
  obtain ⟨inner, hb, hc⟩ := readCell_eq_ok.1 h
  unfold writeCell
  rw [hb]
  simp only
  have h1 : inner.set j c = inner := by
    apply List.ext_getElem?
    intro n
    by_cases hn : j = n
    · subst hn
      rw [List.getElem?_set_self (by
        rcases List.getElem?_eq_some_iff.1 hc with ⟨hlt, _⟩; exact hlt)]
      exact hc.symm
    · rw [List.getElem?_set_ne hn]
  rw [h1]
  apply List.ext_getElem?
  intro n
  by_cases hn : i = n
  · subst hn
    rw [List.getElem?_set_self (by
      rcases List.getElem?_eq_some_iff.1 hb with ⟨hlt, _⟩; exact hlt)]
    exact hb.symm
  · rw [List.getElem?_set_ne hn]

theorem readCell_writeCell_same {b : Board} {i j : Nat} {c d : Cell}
    (h : readCell b i j = Run.ok c) : readCell (writeCell b i j d) i j = Run.ok d := by
  obtain ⟨inner, hb, hc⟩ := readCell_eq_ok.1 h
  rcases List.getElem?_eq_some_iff.1 hb with ⟨hi, _⟩
  rcases List.getElem?_eq_some_iff.1 hc with ⟨hj, _⟩
  apply readCell_eq_ok.2
  refine ⟨inner.set j d, ?_, ?_⟩
  · unfold writeCell
    rw [hb]
    simp only
    rw [List.getElem?_set_self hi]
  · rw [List.getElem?_set_self hj]

theorem readCell_writeCell_other {b : Board} {i j i2 j2 : Nat} {d : Cell}
    (h : (i, j) ≠ (i2, j2)) : readCell (writeCell b i j d) i2 j2 = readCell b i2 j2 := by
  unfold writeCell
  cases hb : b[i]? with
  | none => rfl
  | some inner =>
    simp only
    by_cases hi : i = i2
    · subst hi
      have hj : j ≠ j2 := fun e => h (by rw [e])
      rcases List.getElem?_eq_some_iff.1 hb with ⟨hlt, _⟩
      unfold readCell
      rw [List.getElem?_set_self hlt, hb]
      simp only
      rw [List.getElem?_set_ne hj]
    · unfold readCell
      rw [List.getElem?_set_ne hi]

/-! ### Visits -/

theorem visit_offsets_eq_visit_list {σ : Type} (R C : Nat) (cell : Position)
    (callback : Cell → Position → σ → Cell × σ) (offsets : List (Int × Int))
    (st : Board × σ) :
    visit_offsets R C cell callback offsets st
      = visit_list callback (targets R C cell offsets) st := by
  induction offsets generalizing st with
  | nil => cases st; rfl
  | cons d rest ih =>
    obtain ⟨dx, dy⟩ := d
    obtain ⟨b, s⟩ := st
    unfold visit_offsets
    simp only [targets, List.filterMap_cons, target]
    split_ifs with h1 h2 h3 h4
    · exact ih _
    · exact ih _
    · exact ih _
    · exact ih _
    · simp only [visit_list]
      cases hr : readCell b ((cell.1 : Int) + dx).toNat ((cell.2 : Int) + dy).toNat with
      | fault e => rfl
      | ok c => exact ih _

theorem enqueue_fst (c : Cell) (x : Position) (q : List Position) : (enqueue c x q).1 = c := by
  unfold enqueue; split <;> rfl

theorem enqueue_snd (b : Board) (c : Cell) (x : Position) (q : List Position)
    (hr : readCell b x.1 x.2 = Run.ok c) :
    (enqueue c x q).2 = q ++ [x].filter (pushable b) := by
  have hp : pushable b x = decide (c.value ≠ Cell.BOMB ∧ c.is_revealed = false) := by
    unfold pushable; rw [hr]
  unfold enqueue
  by_cases hc : c.value ≠ Cell.BOMB ∧ c.is_revealed = false
  · simp [hc, List.filter_cons, hp]
  · simp [hc, List.filter_cons, hp]

theorem visit_list_enqueue {xs : List Position} {b : Board} {q : List Position}
    {st : Board × List Position} (h : visit_list enqueue xs (b, q) = Run.ok st) :
    st = (b, q ++ xs.filter (pushable b)) := by
  induction xs generalizing q with
  | nil =>
    simp only [visit_list] at h
    cases h
    simp
  | cons x xs ih =>
    simp only [visit_list] at h
    cases hr : readCell b x.1 x.2 with
    | fault e => rw [hr] at h; cases h
    | ok c =>
      rw [hr] at h
      simp only at h
      rw [enqueue_fst, writeCell_self hr, enqueue_snd b c x q hr] at h
      rw [ih h, List.append_assoc, ← List.filter_append]
      rfl

theorem visit_list_enqueue_ok {xs : List Position} {b : Board} (q : List Position)
    (h : ∀ x ∈ xs, ∃ c, readCell b x.1 x.2 = Run.ok c) :
    visit_list enqueue xs (b, q) = Run.ok (b, q ++ xs.filter (pushable b)) := by
  induction xs generalizing q with
  | nil => simp [visit_list]
  | cons x xs ih =>
    obtain ⟨c, hr⟩ := h x (List.mem_cons_self _ _)
    simp only [visit_list]
    rw [hr]
    simp only
    rw [enqueue_fst, writeCell_self hr, enqueue_snd b c x q hr,
      ih _ (fun y hy => h y (List.mem_cons_of_mem _ hy)), List.append_assoc,
      ← List.filter_append]
    rfl

/-! ### One iteration of the flood fill -/

/-- What one iteration of the loop does to the board and to the queue. -/
theorem flood_body_cases {R C : Nat} {p : Position} {rest : List Position} {b : Board}
    {st : Board × List Position} (h : flood_body R C p rest b = Run.ok st) :
    ∃ c, readCell b p.1 p.2 = Run.ok c ∧
      ((c.value = Cell.BOMB ∧ st = (b, rest)) ∨
       (c.value ≠ Cell.BOMB ∧ c.value ≠ Cell.SPACE ∧
          st = (writeCell b p.1 p.2 ⟨c.value, true⟩, rest)) ∨
       (c.value ≠ Cell.BOMB ∧ c.value = Cell.SPACE ∧
          st = (writeCell b p.1 p.2 ⟨c.value, true⟩,
            rest ++ (targets R C p SURROUNDING_DX_DY).filter
              (pushable (writeCell b p.1 p.2 ⟨c.value, true⟩))))) := by
  unfold flood_body at h
  cases hr : readCell b p.1 p.2 with
  | fault e => rw [hr] at h; cases h
  | ok c =>
    rw [hr] at h
    refine ⟨c, rfl, ?_⟩
    simp only at h
    split_ifs at h with h1 h2
    · left; cases h; exact ⟨h1, rfl⟩
    · right; right
      unfold visit_surrounding_cells at h
      rw [visit_offsets_eq_visit_list] at h
      exact ⟨h1, h2, visit_list_enqueue h⟩
    · right; left; cases h; exact ⟨h1, h2, rfl⟩

/-- Invariants of the loop carry over to its result. -/
theorem flood_induct (R C : Nat) (Inv : List Position → Board → Prop)
    (hstep : ∀ p rest b st, Inv (p :: rest) b → flood_body R C p rest b = Run.ok st →
      Inv st.2 st.1) :
    ∀ (fuel : Nat) (q : List Position) (b b2 : Board),
      Inv q b → flood R C fuel q b = Run.ok b2 → Inv [] b2 := by
  intro fuel
  induction fuel with
  | zero => intro q b b2 _ h; simp [flood] at h
  | succ n ih =>
    intro q b b2 hinv h
    cases q with
    | nil => simp [flood] at h
    | cons p rest =>
      simp only [flood] at h
      cases hb : flood_body R C p rest b with
      | fault e => rw [hb] at h; cases h
      | ok st =>
        rw [hb] at h
        simp only at h
        have hst := hstep p rest b st hinv hb
        split_ifs at h with he
        · cases h
          have : st.2 = [] := by simpa using he
          rw [this] at hst; exact hst
        · exact ih _ _ _ hst h

/-- A cell after one iteration: same value, a revealed flag stays, and any
change is the reveal of the popped cell, which is no mine. -/
theorem flood_body_frame {R C : Nat} {p : Position} {rest : List Position} {b : Board}
    {st : Board × List Position} (h : flood_body R C p rest b = Run.ok st)
    {i j : Nat} {d : Cell} (hr : readCell b i j = Run.ok d) :
    readCell st.1 i j = Run.ok d ∨
      ((i, j) = p ∧ d.value ≠ Cell.BOMB ∧ readCell st.1 i j = Run.ok ⟨d.value, true⟩) := by
  obtain ⟨c, hc, hcase⟩ := flood_body_cases h
  have key : ∀ rest2, st = (writeCell b p.1 p.2 ⟨c.value, true⟩, rest2) → c.value ≠ Cell.BOMB →
      readCell st.1 i j = Run.ok d ∨
      ((i, j) = p ∧ d.value ≠ Cell.BOMB ∧ readCell st.1 i j = Run.ok ⟨d.value, true⟩) := by
    intro rest2 hst hnb
    rw [hst]
    by_cases hp : (p.1, p.2) = (i, j)
    · right
      have hp2 : (i, j) = p := by rw [← hp]
      have e1 : i = p.1 := by rw [← hp2]
      have e2 : j = p.2 := by rw [← hp2]
      subst e1; subst e2
      rw [hc] at hr
      cases hr
      exact ⟨hp2, hnb, readCell_writeCell_same hc⟩
    · left
      simp only
      rw [readCell_writeCell_other hp]
      exact hr
  rcases hcase with ⟨_, hst⟩ | ⟨hnb, _, hst⟩ | ⟨hnb, _, hst⟩
  · left; rw [hst]; exact hr
  · exact key _ hst hnb
  · exact key _ hst hnb

/-- A cell after the whole loop: same value, a revealed flag stays, a mine
is untouched. -/
theorem flood_frame {R C fuel : Nat} {q : List Position} {b b2 : Board}
    (h : flood R C fuel q b = Run.ok b2) {i j : Nat} {d : Cell}
    (hr : readCell b i j = Run.ok d) :
    readCell b2 i j = Run.ok d ∨
      (d.value ≠ Cell.BOMB ∧ d.is_revealed = false ∧
        readCell b2 i j = Run.ok ⟨d.value, true⟩) := by
  have := flood_induct R C
    (fun _ b1 => readCell b1 i j = Run.ok d ∨
      (d.value ≠ Cell.BOMB ∧ d.is_revealed = false ∧
        readCell b1 i j = Run.ok ⟨d.value, true⟩))
    (by
      intro p rest b1 st hinv hb
      rcases hinv with h1 | ⟨hnb, hf, h1⟩
      · rcases flood_body_frame hb h1 with h2 | ⟨_, hnb, h2⟩
        · left; exact h2
        · cases hd : d.is_revealed with
          | true =>
            left
            have : d = ⟨d.value, true⟩ := by cases d; simp_all
            rw [this]; exact h2
          | false => right; exact ⟨hnb, rfl, h2⟩
      · rcases flood_body_frame hb h1 with h2 | ⟨_, _, h2⟩
        · right; exact ⟨hnb, hf, h2⟩
        · right; exact ⟨hnb, hf, h2⟩)
    fuel q b b2 (Or.inl hr) h
  exact this

/-! ### The paths through `click` -/

/-- The four ways in which `click` returns. -/
theorem click_cases {R C fuel : Nat} {p : Position} {b b2 : Board} {r : ClickResult}
    (h : click R C fuel p b = Run.ok (r, b2)) :
    ((p.1 > R ∨ p.2 > C) ∧ r = ClickResult.INVALID_MOVE ∧ b2 = b) ∨
    (¬ (p.1 > R ∨ p.2 > C) ∧ ∃ c, readCell b p.1 p.2 = Run.ok c ∧
      ((c.is_revealed = true ∧ r = ClickResult.IN_PROGRESS ∧ b2 = b) ∨
       (c.is_revealed = false ∧ c.value = Cell.BOMB ∧ r = ClickResult.LOSE ∧
          b2 = writeCell b p.1 p.2 ⟨c.value, true⟩) ∨
       (c.is_revealed = false ∧ c.value ≠ Cell.BOMB ∧ r = ClickResult.IN_PROGRESS ∧
          flood R C fuel [p] (writeCell b p.1 p.2 ⟨c.value, true⟩) = Run.ok b2))) := by
  unfold click at h
  split_ifs at h with hg
  · left
    cases h
    exact ⟨hg, rfl, rfl⟩
  · right
    refine ⟨hg, ?_⟩
    cases hr : readCell b p.1 p.2 with
    | fault e => rw [hr] at h; cases h
    | ok c =>
      refine ⟨c, rfl, ?_⟩
      rw [hr] at h
      simp only at h
      split_ifs at h with h1 h2
      · left; cases h; exact ⟨h1, rfl, rfl⟩
      · right; left; cases h
        exact ⟨by simpa using h1, h2, rfl, rfl⟩
      · right; right
        cases hf : flood R C fuel [p] (writeCell b p.1 p.2 ⟨c.value, true⟩) with
        | fault e => rw [hf] at h; cases h
        | ok b3 =>
          rw [hf] at h
          cases h
          exact ⟨by simpa using h1, h2, rfl, rfl⟩

/-- A click on a revealed cell of the grid. -/
theorem click_of_revealed {R C : Nat} (fuel : Nat) {p : Position} {b : Board} {c : Cell}
    (hin : p.1 ≤ R ∧ p.2 ≤ C) (hc : readCell b p.1 p.2 = Run.ok c)
    (hrev : c.is_revealed = true) :
    click R C fuel p b = Run.ok (ClickResult.IN_PROGRESS, b) := by
  unfold click
  rw [if_neg (by omega), hc]
  simp [hrev]

/-- A click on a hidden mine of the grid. -/
theorem click_of_hidden_mine {R C : Nat} (fuel : Nat) {p : Position} {b : Board} {c : Cell}
    (hin : p.1 ≤ R ∧ p.2 ≤ C) (hc : readCell b p.1 p.2 = Run.ok c)
    (hrev : c.is_revealed = false) (hm : c.value = Cell.BOMB) :
    click R C fuel p b = Run.ok (ClickResult.LOSE, writeCell b p.1 p.2 ⟨c.value, true⟩) := by
  unfold click
  rw [if_neg (by omega), hc]
  simp [hrev, hm]

/-- The cell clicked is revealed in the board that `click` leaves, whenever
the click passed the bounds check. -/
theorem click_reveals_clicked {R C fuel : Nat} {p : Position} {b b2 : Board} {r : ClickResult}
    (h : click R C fuel p b = Run.ok (r, b2)) (hg : ¬ (p.1 > R ∨ p.2 > C)) :
    ∃ c, readCell b2 p.1 p.2 = Run.ok c ∧ c.is_revealed = true := by
  rcases click_cases h with ⟨hg2, _⟩ | ⟨_, c, hc, hcase⟩
  · exact absurd hg2 hg
  · rcases hcase with ⟨hrev, _, hb⟩ | ⟨_, _, _, hb⟩ | ⟨_, _, _, hf⟩
    · exact ⟨c, by rw [hb]; exact hc, hrev⟩
    · exact ⟨⟨c.value, true⟩, by rw [hb]; exact readCell_writeCell_same hc, rfl⟩
    · have h1 : readCell (writeCell b p.1 p.2 ⟨c.value, true⟩) p.1 p.2
          = Run.ok ⟨c.value, true⟩ := readCell_writeCell_same hc
      rcases flood_frame hf h1 with h2 | ⟨_, _, h2⟩
      · exact ⟨_, h2, rfl⟩
      · exact ⟨_, h2, rfl⟩

/-! ### Claims -/

/-- C3 (win detection), as the code has it: `click` never answers `WIN`.
On the 3 x 3 board with the single mine `(0, 0)` the click on `(2, 2)`
reveals every cell that is no mine and the answer is `IN_PROGRESS`. -/
theorem click_never_answers_win :
    (∀ (R C fuel : Nat) (p : Position) (b b2 : Board),
        click R C fuel p b ≠ Run.ok (ClickResult.WIN, b2)) ∧
    Minesweeper.new 3 3 [(0, 0)] = Run.ok corner_board ∧
    click 3 3 11 (2, 2) corner_board
      = Run.ok (ClickResult.IN_PROGRESS, corner_board_cleared) ∧
    all_safe_revealed corner_board_cleared = true := by
  refine ⟨?_, by decide, by decide, by decide⟩
  intro R C fuel p b b2 h
  rcases click_cases h with ⟨_, hr, _⟩ | ⟨_, c, _, hcase⟩
  · cases hr
  · rcases hcase with ⟨_, hr, _⟩ | ⟨_, _, hr, _⟩ | ⟨_, _, hr, _⟩ <;> cases hr

/-- C4 (out-of-bounds rejection), as the code has it: the check is
`row > NumRowsT || col > NumColsT`, so a click with `row = NumRowsT` or
`col = NumColsT` is never answered with `INVALID_MOVE`; on the 3 x 3 board
such a click goes on to read `board_[3][0]`, resp. `board_[0][3]`, outside
the storage. -/
theorem click_on_the_bound_not_rejected :
    (∀ (R C fuel : Nat) (p : Position) (b b2 : Board), p.1 ≤ R → p.2 ≤ C →
        click R C fuel p b ≠ Run.ok (ClickResult.INVALID_MOVE, b2)) ∧
    (∀ fuel, click 3 3 fuel (3, 0) corner_board = Run.fault Fault.out_of_range) ∧
    (∀ fuel, click 3 3 fuel (0, 3) corner_board = Run.fault Fault.out_of_range) := by
  refine ⟨?_, fun fuel => rfl, fun fuel => rfl⟩
  intro R C fuel p b b2 h1 h2 h
  rcases click_cases h with ⟨hg, _, _⟩ | ⟨_, c, _, hcase⟩
  · omega
  · rcases hcase with ⟨_, hr, _⟩ | ⟨_, _, hr, _⟩ | ⟨_, _, hr, _⟩ <;> cases hr

/-- C9 (idempotent re-click): a click on a position of the grid whose cell
is revealed answers `IN_PROGRESS` and leaves the board as it is; and after
any click on a position of the grid that returned, a second click on the
same position answers `IN_PROGRESS` and leaves the board of the first. -/
theorem click_revealed_is_noop (R C : Nat) (p : Position) (b : Board)
    (hin : inBounds R C p) :
    (∀ (fuel : Nat) (c : Cell), readCell b p.1 p.2 = Run.ok c → c.is_revealed = true →
      click R C fuel p b = Run.ok (ClickResult.IN_PROGRESS, b)) ∧
    (∀ (fuel fuel2 : Nat) (r : ClickResult) (b1 : Board),
      click R C fuel p b = Run.ok (r, b1) →
      click R C fuel2 p b1 = Run.ok (ClickResult.IN_PROGRESS, b1)) := by
  have hle : p.1 ≤ R ∧ p.2 ≤ C := ⟨Nat.le_of_lt hin.1, Nat.le_of_lt hin.2⟩
  refine ⟨fun fuel c hc hrev => click_of_revealed fuel hle hc hrev, ?_⟩
  intro fuel fuel2 r b1 h
  obtain ⟨c, hc, hrev⟩ := click_reveals_clicked h (by omega)
  exact click_of_revealed fuel2 hle hc hrev

/-- Witness of C9: on the 3 x 3 board with the mine `(0, 0)`, the click on
`(2, 2)` and then the same click again. -/
theorem click_revealed_is_noop_witness :
    inBounds 3 3 (2, 2) ∧
    click 3 3 11 (2, 2) corner_board = Run.ok (ClickResult.IN_PROGRESS, corner_board_cleared) ∧
    click 3 3 0 (2, 2) corner_board_cleared
      = Run.ok (ClickResult.IN_PROGRESS, corner_board_cleared) :=
  ⟨by decide, by decide,
    (click_revealed_is_noop 3 3 (2, 2) corner_board (by decide)).2 11 0
      ClickResult.IN_PROGRESS corner_board_cleared (by decide)⟩

/-! ### Geometry of a visit -/

theorem target_adjacent {R C : Nat} {p x : Position} {d : Int × Int}
    (hd : d ∈ SURROUNDING_DX_DY) (ht : target R C p d = some x) : adjacent p x := by
  obtain ⟨r, c⟩ := p
  obtain ⟨a, b⟩ := x
  simp only [SURROUNDING_DX_DY, List.mem_cons, List.mem_singleton, List.not_mem_nil,
    or_false] at hd
  unfold target at ht
  unfold adjacent
  simp only [ne_eq, Prod.mk.injEq]
  rcases hd with rfl | rfl | rfl | rfl | rfl | rfl | rfl | rfl <;>
    (simp only at ht
     split_ifs at ht
     simp only [Option.some.injEq, Prod.mk.injEq] at ht
     omega)

theorem targets_adjacent {R C : Nat} {p x : Position}
    (h : x ∈ targets R C p SURROUNDING_DX_DY) : adjacent p x := by
  unfold targets at h
  obtain ⟨d, hd, ht⟩ := List.mem_filterMap.1 h
  exact target_adjacent hd ht

/-! ### What the flood fill reveals -/

theorem sum_map_set {α : Type} (g : α → Nat) (x a : α) :
    ∀ (l : List α) (i : Nat), l[i]? = some a →
      ((l.set i x).map g).sum + g a = (l.map g).sum + g x := by
  intro l
  induction l with
  | nil => intro i h; simp at h
  | cons y ys ih =>
    intro i h
    cases i with
    | zero =>
      simp only [List.getElem?_cons_zero, Option.some.injEq] at h
      subst h
      simp only [List.set_cons_zero, List.map_cons, List.sum_cons]
      omega
    | succ n =>
      simp only [List.getElem?_cons_succ] at h
      have := ih n h
      simp only [List.set_cons_succ, List.map_cons, List.sum_cons]
      omega

theorem hidden_count_writeCell {b : Board} {i j : Nat} {c d : Cell}
    (h : readCell b i j = Run.ok c) :
    hidden_count (writeCell b i j d) + hidden_weight c = hidden_count b + hidden_weight d := by
  obtain ⟨inner, hb, hc⟩ := readCell_eq_ok.1 h
  unfold writeCell hidden_count
  rw [hb]
  simp only
  have h1 := sum_map_set hidden_weight d c inner j hc
  have h2 := sum_map_set (fun inner => (inner.map hidden_weight).sum) (inner.set j d) inner b i hb
  simp only at h2
  omega

theorem flood_body_fault {R C : Nat} {p : Position} {rest : List Position} {b : Board}
    {e : Fault} (h : flood_body R C p rest b = Run.fault e) : e = Fault.out_of_range := by
  have hv : ∀ (xs : List Position) (st : Board × List Position),
      visit_list enqueue xs st = Run.fault e → e = Fault.out_of_range := by
    intro xs
    induction xs with
    | nil => intro st h; simp [visit_list] at h
    | cons x xs ih =>
      intro st h
      obtain ⟨b1, q1⟩ := st
      simp only [visit_list] at h
      cases hr : readCell b1 x.1 x.2 with
      | fault e2 =>
        rw [hr] at h
        cases h
        exact readCell_fault_kind hr
      | ok c =>
        rw [hr] at h
        exact ih _ h
  unfold flood_body at h
  cases hr : readCell b p.1 p.2 with
  | fault e2 =>
    rw [hr] at h
    cases h
    exact readCell_fault_kind hr
  | ok c =>
    rw [hr] at h
    simp only at h
    split_ifs at h
    · unfold visit_surrounding_cells at h
      rw [visit_offsets_eq_visit_list] at h
      exact hv _ _ h

theorem findIdx_append_filter {α : Type} (f : α → Bool) (ts : List α) :
    ∀ l : List α, (l ++ ts.filter f).findIdx f = l.findIdx f := by
  intro l
  induction l with
  | nil =>
    simp only [List.nil_append, List.findIdx_nil]
    cases hts : ts.filter f with
    | nil => rfl
    | cons x xs =>
      have hx : x ∈ ts.filter f := by rw [hts]; exact List.mem_cons_self _ _
      have := (List.mem_filter.1 hx).2
      simp [List.findIdx_cons, this]
  | cons a l ih =>
    simp only [List.cons_append, List.findIdx_cons, ih]

/-- More fuel does not change a run that had enough. -/
theorem flood_fuel_mono {R C : Nat} (k : Nat) :
    ∀ (fuel : Nat) (q : List Position) (b : Board),
      flood R C fuel q b ≠ Run.fault Fault.out_of_fuel →
      flood R C (fuel + k) q b = flood R C fuel q b := by
  intro fuel
  induction fuel with
  | zero => intro q b h; simp [flood] at h
  | succ n ih =>
    intro q b h
    have e : n + 1 + k = (n + k) + 1 := by omega
    rw [e]
    cases q with
    | nil => simp [flood]
    | cons p rest =>
      simp only [flood] at h ⊢
      cases hb : flood_body R C p rest b with
      | fault e2 => rfl
      | ok st =>
        rw [hb] at h
        simp only at h ⊢
        split_ifs at h ⊢ with he
        · rfl
        · exact ih _ _ h

/-- The loop stops: from every queue and every board some fuel suffices. -/
theorem flood_halts (R C : Nat) :
    ∀ (n k : Nat) (q : List Position) (b : Board),
      hidden_count b = n → q.findIdx (pushable b) = k →
      ∃ fuel, flood R C fuel q b ≠ Run.fault Fault.out_of_fuel := by
  intro n
  induction n using Nat.strong_induction_on with
  | _ n ihn =>
    intro k
    induction k using Nat.strong_induction_on with
    | _ k ihk =>
      intro q b hn hk
      cases q with
      | nil => exact ⟨1, by simp [flood]⟩
      | cons p rest =>
        cases hb : flood_body R C p rest b with
        | fault e =>
          refine ⟨1, ?_⟩
          simp only [flood, hb]
          rw [flood_body_fault hb]
          simp
        | ok st =>
          by_cases he : st.2.isEmpty = true
          · refine ⟨1, ?_⟩
            simp [flood, hb, he]
          · have next : ∃ fuel, flood R C fuel st.2 st.1 ≠ Run.fault Fault.out_of_fuel := by
              obtain ⟨c, hc, hcase⟩ := flood_body_cases hb
              have hpush : pushable b p = decide (c.value ≠ Cell.BOMB ∧ c.is_revealed = false) := by
                unfold pushable; rw [hc]
              by_cases hh : c.value ≠ Cell.BOMB ∧ c.is_revealed = false
              · -- a hidden cell is revealed: fewer hidden cells
                have hlt : hidden_count st.1 < n := by
                  have hw := hidden_count_writeCell (d := ⟨c.value, true⟩) hc
                  have w1 : hidden_weight c = 1 := by unfold hidden_weight; rw [if_pos hh]
                  have w2 : hidden_weight ⟨c.value, true⟩ = 0 := by
                    unfold hidden_weight; simp
                  rcases hcase with ⟨hbm, _⟩ | ⟨_, _, hst⟩ | ⟨_, _, hst⟩
                  · exact absurd hbm hh.1
                  · rw [hst]; simp only; omega
                  · rw [hst]; simp only; omega
                exact ihn _ hlt _ _ _ rfl rfl
              · -- nothing new is revealed: the first hidden entry of the queue moves up
                have hpf : pushable b p = false := by rw [hpush]; simpa using hh
                have hk2 : rest.findIdx (pushable b) < k := by
                  rw [← hk, List.findIdx_cons, hpf]; simp
                have hsame : c.value ≠ Cell.BOMB →
                    writeCell b p.1 p.2 ⟨c.value, true⟩ = b := by
                  intro hnb
                  have hrev : c.is_revealed = true := by
                    by_contra hcon
                    exact hh ⟨hnb, by simpa using hcon⟩
                  have : c = ⟨c.value, true⟩ := by cases c; simp_all
                  rw [← this]; exact writeCell_self hc
                rcases hcase with ⟨_, hst⟩ | ⟨hnb, _, hst⟩ | ⟨hnb, _, hst⟩
                · rw [hst]
                  exact ihk _ hk2 _ _ hn rfl
                · rw [hst, hsame hnb]
                  exact ihk _ hk2 _ _ hn rfl
                · rw [hst, hsame hnb]
                  refine ihk _ ?_ _ _ hn rfl
                  rw [findIdx_append_filter]
                  exact hk2
            obtain ⟨fuel, hf⟩ := next
            refine ⟨fuel + 1, ?_⟩
            simp only [flood, hb]
            rw [if_neg he]
            exact hf

/-! ### Runs without an access out of range -/

theorem target_inBounds {R C : Nat} {p x : Position} {d : Int × Int}
    (hp : inBounds R C p) (hd : d ∈ SURROUNDING_DX_DY) (ht : target R C p d = some x) :
    inBounds R C x := by
  obtain ⟨r, c⟩ := p
  obtain ⟨a, b⟩ := x
  simp only [SURROUNDING_DX_DY, List.mem_cons, List.mem_singleton, List.not_mem_nil,
    or_false] at hd
  unfold target at ht
  unfold inBounds at hp ⊢
  simp only at hp ⊢
  rcases hd with rfl | rfl | rfl | rfl | rfl | rfl | rfl | rfl <;>
    (simp only at ht
     split_ifs at ht
     simp only [Option.some.injEq, Prod.mk.injEq] at ht
     omega)

theorem targets_inBounds {R C : Nat} {p x : Position} (hp : inBounds R C p)
    (h : x ∈ targets R C p SURROUNDING_DX_DY) : inBounds R C x := by
  unfold targets at h
  obtain ⟨d, hd, ht⟩ := List.mem_filterMap.1 h
  exact target_inBounds hp hd ht

theorem covers_read {R C : Nat} {b : Board} (hcov : Covers R C b) {x : Position}
    (hx : inBounds R C x) : ∃ c, readCell b x.1 x.2 = Run.ok c := by
  cases hr : readCell b x.1 x.2 with
  | ok c => exact ⟨c, rfl⟩
  | fault e =>
    have := readCell_fault_kind hr
    subst this
    exact absurd hr (hcov x.1 hx.1 x.2 hx.2)

theorem covers_writeCell {R C : Nat} {b : Board} (hcov : Covers R C b) {i j : Nat} {c d : Cell}
    (h : readCell b i j = Run.ok c) : Covers R C (writeCell b i j d) := by
  intro i2 hi2 j2 hj2
  by_cases hp : (i, j) = (i2, j2)
  · have e1 : i2 = i := by rw [← (Prod.mk.inj hp).1]
    have e2 : j2 = j := by rw [← (Prod.mk.inj hp).2]
    subst e1; subst e2
    rw [readCell_writeCell_same h]
    simp
  · rw [readCell_writeCell_other hp]
    exact hcov i2 hi2 j2 hj2

/-- On a storage that covers the grid an iteration for a position of the
grid makes no access out of range. -/
theorem flood_body_ok_of_covers {R C : Nat} {b : Board} (hcov : Covers R C b) {p : Position}
    (hp : inBounds R C p) (rest : List Position) :
    ∃ st, flood_body R C p rest b = Run.ok st := by
  obtain ⟨c, hc⟩ := covers_read hcov hp
  unfold flood_body
  rw [hc]
  simp only
  split_ifs with h1 h2
  · exact ⟨_, rfl⟩
  · unfold visit_surrounding_cells
    rw [visit_offsets_eq_visit_list]
    refine ⟨_, visit_list_enqueue_ok rest ?_⟩
    intro x hx
    exact covers_read (covers_writeCell hcov hc) (targets_inBounds hp hx)
  · exact ⟨_, rfl⟩

theorem flood_body_covers {R C : Nat} {b : Board} (hcov : Covers R C b) {p : Position}
    (hp : inBounds R C p) {rest : List Position} (hrest : ∀ x ∈ rest, inBounds R C x)
    {st : Board × List Position} (h : flood_body R C p rest b = Run.ok st) :
    Covers R C st.1 ∧ ∀ x ∈ st.2, inBounds R C x := by
  obtain ⟨c, hc, hcase⟩ := flood_body_cases h
  rcases hcase with ⟨_, hst⟩ | ⟨_, _, hst⟩ | ⟨_, _, hst⟩
  · rw [hst]; exact ⟨hcov, hrest⟩
  · rw [hst]; exact ⟨covers_writeCell hcov hc, hrest⟩
  · rw [hst]
    refine ⟨covers_writeCell hcov hc, ?_⟩
    intro x hx
    rcases List.mem_append.1 hx with h1 | h2
    · exact hrest x h1
    · exact targets_inBounds hp (List.mem_filter.1 h2).1

/-- On a storage that covers the grid the loop, started on positions of the
grid, ends with the queue empty as soon as the fuel suffices. -/
theorem flood_ok_of_covers {R C : Nat} :
    ∀ (fuel : Nat) (q : List Position) (b : Board), q ≠ [] →
      (∀ x ∈ q, inBounds R C x) → Covers R C b →
      flood R C fuel q b ≠ Run.fault Fault.out_of_fuel →
      ∃ b2, flood R C fuel q b = Run.ok b2 ∧ Covers R C b2 := by
  intro fuel
  induction fuel with
  | zero => intro q b _ _ _ h; simp [flood] at h
  | succ n ih =>
    intro q b hne hq hcov h
    cases q with
    | nil => exact absurd rfl hne
    | cons p rest =>
      have hp := hq p (List.mem_cons_self _ _)
      have hrest : ∀ x ∈ rest, inBounds R C x := fun x hx => hq x (List.mem_cons_of_mem _ hx)
      obtain ⟨st, hst⟩ := flood_body_ok_of_covers hcov hp rest
      obtain ⟨hcov2, hq2⟩ := flood_body_covers hcov hp hrest hst
      simp only [flood, hst] at h ⊢
      split_ifs at h ⊢ with he
      · exact ⟨_, rfl, hcov2⟩
      · exact ih _ _ (by intro e; rw [e] at he; exact he rfl) hq2 hcov2 h

theorem flood_halts_from (R C : Nat) (q : List Position) (b : Board) :
    ∃ fuel, ∀ k, flood R C (fuel + k) q b ≠ Run.fault Fault.out_of_fuel := by
  obtain ⟨fuel, hf⟩ := flood_halts R C _ _ q b rfl rfl
  refine ⟨fuel, fun k => ?_⟩
  rw [flood_fuel_mono k fuel q b hf]
  exact hf

/-- The same click with more fuel, when the flood fill had enough. -/
theorem click_fuel_mono {R C : Nat} (fuel k : Nat) (p : Position) (b : Board)
    (h : click R C fuel p b ≠ Run.fault Fault.out_of_fuel) :
    click R C (fuel + k) p b = click R C fuel p b := by
  unfold click at h ⊢
  split_ifs at h ⊢ with hg
  · rfl
  · cases hr : readCell b p.1 p.2 with
    | fault e => rfl
    | ok c =>
      rw [hr] at h
      simp only at h ⊢
      split_ifs at h ⊢ with h1 h2
      · rfl
      · rfl
      · have hf : flood R C fuel [p] (writeCell b p.1 p.2 ⟨c.value, true⟩)
            ≠ Run.fault Fault.out_of_fuel := by
          intro e
          rw [e] at h
          exact h rfl
        rw [flood_fuel_mono k fuel _ _ hf]

theorem click_halts (R C : Nat) (p : Position) (b : Board) :
    ∃ fuel, ∀ k, click R C (fuel + k) p b ≠ Run.fault Fault.out_of_fuel := by
  have main : ∃ fuel, click R C fuel p b ≠ Run.fault Fault.out_of_fuel := by
    unfold click
    split_ifs with hg
    · exact ⟨0, by simp⟩
    · cases hr : readCell b p.1 p.2 with
      | fault e =>
        refine ⟨0, ?_⟩
        rw [readCell_fault_kind hr]
        simp
      | ok c =>
        simp only
        split_ifs with h1 h2
        · exact ⟨0, by simp⟩
        · exact ⟨0, by simp⟩
        · obtain ⟨fuel, hf⟩ := flood_halts R C _ _ [p] (writeCell b p.1 p.2 ⟨c.value, true⟩)
            rfl rfl
          refine ⟨fuel, ?_⟩
          cases hfl : flood R C fuel [p] (writeCell b p.1 p.2 ⟨c.value, true⟩) with
          | ok b2 => simp
          | fault e =>
            simp only [ne_eq, Run.fault.injEq]
            intro he
            rw [he] at hfl
            exact hf hfl
  obtain ⟨fuel, hf⟩ := main
  refine ⟨fuel, fun k => ?_⟩
  rw [click_fuel_mono fuel k p b hf]
  exact hf

/-- On a storage that covers the grid a click on a position of the grid
returns, once the fuel suffices. -/
theorem click_ok_of_covers {R C : Nat} {p : Position} {b : Board} (hp : inBounds R C p)
    (hcov : Covers R C b) {fuel : Nat}
    (h : click R C fuel p b ≠ Run.fault Fault.out_of_fuel) :
    ∃ r b2, click R C fuel p b = Run.ok (r, b2) ∧ Covers R C b2 := by
  obtain ⟨c, hc⟩ := covers_read hcov hp
  unfold click at h ⊢
  have hg : ¬ (p.1 > R ∨ p.2 > C) := by
    unfold inBounds at hp; omega
  rw [if_neg hg, hc] at h ⊢
  simp only at h ⊢
  split_ifs at h ⊢ with h1 h2
  · exact ⟨_, _, rfl, hcov⟩
  · exact ⟨_, _, rfl, covers_writeCell hcov hc⟩
  · have hf : flood R C fuel [p] (writeCell b p.1 p.2 ⟨c.value, true⟩)
        ≠ Run.fault Fault.out_of_fuel := by
      intro e
      rw [e] at h
      exact h rfl
    obtain ⟨b2, hb2, hcov2⟩ := flood_ok_of_covers fuel [p] _ (by simp)
      (by intro x hx; simp only [List.mem_singleton] at hx; rw [hx]; exact hp)
      (covers_writeCell hcov hc) hf
    rw [hb2]
    exact ⟨_, _, rfl, hcov2⟩

/-- C10 (termination): the loop of `click` stops after finitely many
iterations, from every queue and on every board: some fuel is enough, and
so is any larger one; the same holds of `click` as a whole.  On a board
whose storage holds every cell of the grid a click on a position of the
grid returns: the loop has emptied the queue. -/
theorem flood_loop_terminates (R C : Nat) (b : Board) :
    (∀ q : List Position, ∃ fuel, ∀ k,
      flood R C (fuel + k) q b ≠ Run.fault Fault.out_of_fuel) ∧
    (∀ p : Position, ∃ fuel, ∀ k,
      click R C (fuel + k) p b ≠ Run.fault Fault.out_of_fuel) ∧
    (∀ p : Position, inBounds R C p → Covers R C b →
      ∃ fuel r b2, ∀ k, click R C (fuel + k) p b = Run.ok (r, b2)) := by
  refine ⟨fun q => flood_halts_from R C q b, fun p => click_halts R C p b, ?_⟩
  intro p hp hcov
  obtain ⟨fuel, hf⟩ := click_halts R C p b
  have h0 := hf 0
  rw [Nat.add_zero] at h0
  obtain ⟨r, b2, hok, _⟩ := click_ok_of_covers hp hcov h0
  refine ⟨fuel, r, b2, fun k => ?_⟩
  rw [click_fuel_mono fuel k p b h0]
  exact hok

/-- Witness of C10: the 3 x 3 board with the mine `(0, 0)` covers its grid
and the click on `(2, 2)` returns for all fuel from some point on. -/
theorem flood_loop_terminates_witness :
    inBounds 3 3 (2, 2) ∧ Covers 3 3 corner_board ∧
    ∃ fuel r b2, ∀ k, click 3 3 (fuel + k) (2, 2) corner_board = Run.ok (r, b2) :=
  ⟨by decide, by decide,
    (flood_loop_terminates 3 3 corner_board).2.2 (2, 2) (by decide) (by decide)⟩

/-! ### The visit reaches exactly the in-bounds neighbours, once each -/

theorem adjacent_symm {x y : Position} (h : adjacent x y) : adjacent y x := by
  unfold adjacent at h ⊢
  exact ⟨fun e => h.1 e.symm, h.2.2.1, h.2.1, h.2.2.2.2, h.2.2.2.1⟩

theorem target_offset {R C : Nat} {p x : Position} {d : Int × Int}
    (hd : d ∈ SURROUNDING_DX_DY) (ht : target R C p d = some x) :
    d = ((x.1 : Int) - p.1, (x.2 : Int) - p.2) := by
  obtain ⟨r, c⟩ := p
  obtain ⟨a, b⟩ := x
  simp only [SURROUNDING_DX_DY, List.mem_cons, List.mem_singleton, List.not_mem_nil,
    or_false] at hd
  unfold target at ht
  rcases hd with rfl | rfl | rfl | rfl | rfl | rfl | rfl | rfl <;>
    (simp only at ht
     split_ifs at ht
     simp only [Option.some.injEq, Prod.mk.injEq] at ht
     simp only [Prod.mk.injEq]
     omega)

theorem nodup_filterMap_of_inj_on {α β : Type} (f : α → Option β) :
    ∀ l : List α, l.Nodup →
      (∀ a ∈ l, ∀ a2 ∈ l, ∀ y, f a = some y → f a2 = some y → a = a2) →
      (l.filterMap f).Nodup := by
  intro l
  induction l with
  | nil => intro _ _; simp
  | cons a l ih =>
    intro hnd hinj
    have hnd2 := List.nodup_cons.1 hnd
    have ih2 := ih hnd2.2 (fun a1 h1 a2 h2 y e1 e2 =>
      hinj a1 (List.mem_cons_of_mem _ h1) a2 (List.mem_cons_of_mem _ h2) y e1 e2)
    rw [List.filterMap_cons]
    cases hfa : f a with
    | none => exact ih2
    | some y =>
      simp only
      refine List.nodup_cons.2 ⟨?_, ih2⟩
      intro hy
      obtain ⟨a2, ha2, hf2⟩ := List.mem_filterMap.1 hy
      have := hinj a (List.mem_cons_self _ _) a2 (List.mem_cons_of_mem _ ha2) y hfa hf2
      rw [this] at hnd2
      exact hnd2.1 ha2

theorem targets_nodup (R C : Nat) (p : Position) :
    (targets R C p SURROUNDING_DX_DY).Nodup := by
  unfold targets
  apply nodup_filterMap_of_inj_on
  · decide
  · intro a ha a2 ha2 y e1 e2
    rw [target_offset ha e1, target_offset ha2 e2]

theorem mem_targets_of_adjacent {R C : Nat} {p x : Position} (hp : inBounds R C p)
    (hx : inBounds R C x) (hadj : adjacent p x) : x ∈ targets R C p SURROUNDING_DX_DY := by
  obtain ⟨r, c⟩ := p
  obtain ⟨a, b⟩ := x
  unfold adjacent at hadj
  unfold inBounds at hp hx
  simp only [ne_eq, Prod.mk.injEq] at hadj hp hx
  unfold targets
  refine List.mem_filterMap.2 ⟨((a : Int) - r, (b : Int) - c), ?_, ?_⟩
  · have h1 : (a : Int) - r = -1 ∨ (a : Int) - r = 0 ∨ (a : Int) - r = 1 := by omega
    have h2 : (b : Int) - c = -1 ∨ (b : Int) - c = 0 ∨ (b : Int) - c = 1 := by omega
    have h3 : ¬ ((a : Int) - r = 0 ∧ (b : Int) - c = 0) := by omega
    rcases h1 with h1 | h1 | h1 <;> rcases h2 with h2 | h2 | h2 <;>
      first
        | (rw [h1, h2]; decide)
        | exact absurd (And.intro h1 h2) h3
  · unfold target
    simp only
    rw [if_neg (by omega), if_neg (by omega), if_neg (by omega), if_neg (by omega)]
    simp only [Option.some.injEq, Prod.mk.injEq]
    omega

theorem mem_targets_iff {R C : Nat} {p x : Position} (hp : inBounds R C p) :
    x ∈ targets R C p SURROUNDING_DX_DY ↔ inBounds R C x ∧ adjacent p x :=
  ⟨fun h => ⟨targets_inBounds hp h, targets_adjacent h⟩,
   fun h => mem_targets_of_adjacent hp h.1 h.2⟩

theorem mem_grid {R C : Nat} {x : Position} : x ∈ grid R C ↔ inBounds R C x := by
  obtain ⟨a, b⟩ := x
  unfold grid inBounds
  simp [List.mem_product, List.mem_range]

theorem grid_nodup (R C : Nat) : (grid R C).Nodup :=
  List.Nodup.product (List.nodup_range R) (List.nodup_range C)

theorem mem_neighbours {R C : Nat} {p x : Position} :
    x ∈ neighbours R C p ↔ inBounds R C x ∧ adjacent p x := by
  unfold neighbours
  rw [List.mem_filter, mem_grid]
  simp

/-- The positions that a visit from a cell of the grid reaches are the
in-bounds 8-neighbours of the cell, each once. -/
theorem targets_perm_neighbours {R C : Nat} {p : Position} (hp : inBounds R C p) :
    (targets R C p SURROUNDING_DX_DY).Perm (neighbours R C p) := by
  apply (List.perm_ext_iff_of_nodup (targets_nodup R C p) ?_).2
  · intro x
    rw [mem_targets_iff hp, mem_neighbours]
  · exact (grid_nodup R C).filter _

/-! ### Construction of the board -/

theorem count_bomb_eq (c : Cell) (x : Position) (s : Unit) : count_bomb c x s = (bump c, ()) := by
  unfold count_bomb bump
  split <;> rfl

/-- A visit with the callback of `insert_bombs` on distinct positions of a
storage that covers the grid: the cells visited are bumped, the others
stay. -/
theorem visit_list_count_bomb {R C : Nat} :
    ∀ (xs : List Position) (b : Board), Covers R C b → (∀ x ∈ xs, inBounds R C x) →
      xs.Nodup →
      ∃ b2, visit_list count_bomb xs (b, ()) = Run.ok (b2, ()) ∧ Covers R C b2 ∧
        ∀ (p : Position) (c : Cell), readCell b p.1 p.2 = Run.ok c →
          readCell b2 p.1 p.2 = Run.ok (if p ∈ xs then bump c else c) := by
  intro xs
  induction xs with
  | nil =>
    intro b hcov _ _
    exact ⟨b, rfl, hcov, fun p c h => by simpa using h⟩
  | cons x xs ih =>
    intro b hcov hin hnd
    obtain ⟨c0, hc0⟩ := covers_read hcov (hin x (List.mem_cons_self _ _))
    have hnd2 := List.nodup_cons.1 hnd
    obtain ⟨b2, hb2, hcov2, hread⟩ := ih (writeCell b x.1 x.2 (bump c0))
      (covers_writeCell hcov hc0) (fun y hy => hin y (List.mem_cons_of_mem _ hy)) hnd2.2
    refine ⟨b2, ?_, hcov2, ?_⟩
    · simp only [visit_list]
      rw [hc0]
      simp only [count_bomb_eq]
      exact hb2
    · intro p c hc
      by_cases hp : p = x
      · subst hp
        rw [hc0] at hc
        cases hc
        have := hread p (bump c0) (readCell_writeCell_same hc0)
        rw [if_neg hnd2.1] at this
        rw [this, if_pos (List.mem_cons_self _ _)]
      · have hne : (x.1, x.2) ≠ (p.1, p.2) := by
          intro e
          apply hp
          exact (Prod.ext (Prod.mk.inj e).1 (Prod.mk.inj e).2).symm
        have := hread p c (by rw [readCell_writeCell_other hne]; exact hc)
        rw [this]
        by_cases hm : p ∈ xs
        · rw [if_pos hm, if_pos (List.mem_cons_of_mem _ hm)]
        · rw [if_neg hm, if_neg (by
            intro h
            rcases List.mem_cons.1 h with h | h
            · exact hp h
            · exact hm h)]

/-- At most eight distinct positions lie next to a position. -/
theorem countP_adjacent_le (l : List Position) (hnd : l.Nodup) (p : Position) :
    l.countP (fun m => decide (adjacent m p)) ≤ 8 := by
  rw [List.countP_eq_length_filter]
  have hsub : l.filter (fun m => decide (adjacent m p)) ⊆
      [(p.1 - 1, p.2 - 1), (p.1 - 1, p.2), (p.1 - 1, p.2 + 1), (p.1, p.2 - 1),
       (p.1, p.2 + 1), (p.1 + 1, p.2 - 1), (p.1 + 1, p.2), (p.1 + 1, p.2 + 1)] := by
    intro m hm
    have hadj : adjacent m p := by simpa using (List.mem_filter.1 hm).2
    obtain ⟨a, b⟩ := m
    obtain ⟨r, c⟩ := p
    unfold adjacent at hadj
    simp only [ne_eq, Prod.mk.injEq] at hadj
    simp only [List.mem_cons, Prod.mk.injEq, List.mem_singleton, List.not_mem_nil, or_false]
    omega
  have := (List.subperm_of_subset (hnd.filter _) hsub).length_le
  simpa using this

theorem value_after_perm {l1 l2 : List Position} (h : l1.Perm l2) (p : Position) :
    value_after l1 p = value_after l2 p := by
  unfold value_after
  rw [h.countP_eq]
  by_cases hm : p ∈ l1
  · rw [if_pos hm, if_pos (h.mem_iff.1 hm)]
  · rw [if_neg hm, if_neg (fun h2 => hm (h.mem_iff.2 h2))]

theorem value_after_eq_bomb {l : List Position} {p : Position} :
    value_after l p = Cell.BOMB ↔ p ∈ l := by
  unfold value_after Cell.BOMB
  by_cases hm : p ∈ l
  · simp [hm]
  · simp only [hm, if_false, iff_false]
    intro h
    have h0 : (0 : Int) ≤ ((List.countP (fun m => decide (adjacent m p)) l : Nat) : Int) :=
      Int.ofNat_nonneg _
    have h1 : ((List.countP (fun m => decide (adjacent m p)) l : Nat) : Int) = -1 := h
    omega

/-- One mine more: the value of every cell of the grid after the store of
the marker and the visit around it. -/
theorem bump_value_after {placed : List Position} {m p : Position}
    (hnd : (m :: placed).Nodup) (hpm : p ≠ m) :
    (if adjacent m p then bump ⟨value_after placed p, false⟩
      else ⟨value_after placed p, false⟩) = (⟨value_after (m :: placed) p, false⟩ : Cell) := by
  have hmem : p ∈ m :: placed ↔ p ∈ placed := by
    constructor
    · intro h
      rcases List.mem_cons.1 h with h | h
      · exact absurd h hpm
      · exact h
    · exact List.mem_cons_of_mem _
  by_cases hadj : adjacent m p
  · rw [if_pos hadj]
    by_cases hm : p ∈ placed
    · have e1 : value_after placed p = Cell.BOMB := value_after_eq_bomb.2 hm
      have e2 : value_after (m :: placed) p = Cell.BOMB :=
        value_after_eq_bomb.2 (hmem.2 hm)
      rw [e1, e2]
      unfold bump
      simp
    · have hle := countP_adjacent_le (m :: placed) hnd p
      rw [List.countP_cons] at hle
      simp only [hadj, decide_True, if_true] at hle
      unfold bump value_after incr Cell.BOMB
      simp only [hm, if_false, (fun h => hm (hmem.1 h) : ¬ p ∈ m :: placed)]
      rw [List.countP_cons]
      simp only [hadj, decide_True, if_true]
      have h1 : ((List.countP (fun m => decide (adjacent m p)) placed : Nat) : Int) ≠ -1 := by
        omega
      have h2 : ((List.countP (fun m => decide (adjacent m p)) placed : Nat) : Int) ≠ 127 := by
        omega
      simp only [ne_eq, h1, not_false_eq_true, if_true, h2, if_false]
      rw [if_neg (fun h => hm (hmem.1 h))]
      congr 1
  · rw [if_neg hadj]
    congr 1
    unfold value_after
    rw [List.countP_cons]
    simp only [hadj, decide_False, Bool.false_eq_true, if_false, Nat.add_zero]
    by_cases hm : p ∈ placed
    · rw [if_pos hm, if_pos (hmem.2 hm)]
    · rw [if_neg hm, if_neg (fun h => hm (hmem.1 h))]

/-- The placing loop on a storage that covers the grid: it runs through,
and every cell of the grid ends with the value that the mines placed so far
and the mines of the list give it. -/
theorem place_bombs_spec {R C : Nat} :
    ∀ (rest placed : List Position) (b : Board), Covers R C b →
      (∀ p ∈ rest, inBounds R C p) → (rest ++ placed).Nodup →
      (∀ p, inBounds R C p → readCell b p.1 p.2 = Run.ok ⟨value_after placed p, false⟩) →
      ∃ b2, place_bombs R C rest b = Run.ok b2 ∧ Covers R C b2 ∧
        ∀ p, inBounds R C p →
          readCell b2 p.1 p.2 = Run.ok ⟨value_after (rest ++ placed) p, false⟩ := by
  intro rest
  induction rest with
  | nil =>
    intro placed b hcov _ _ hval
    exact ⟨b, rfl, hcov, by simpa using hval⟩
  | cons m rest ih =>
    intro placed b hcov hin hnd hval
    have hm : inBounds R C m := hin m (List.mem_cons_self _ _)
    have hmid : (rest ++ m :: placed).Perm (m :: rest ++ placed) := List.perm_middle
    have hnd2 : (rest ++ m :: placed).Nodup := hmid.nodup_iff.2 hnd
    have hnd3 : (m :: placed).Nodup := (List.nodup_append.1 hnd2).2.1
    have hcm := hval m hm
    obtain ⟨b2, hb2, hcov2, hread⟩ := visit_list_count_bomb
      (targets R C m SURROUNDING_DX_DY) (writeCell b m.1 m.2 ⟨Cell.BOMB, false⟩)
      (covers_writeCell hcov hcm) (fun x hx => targets_inBounds hm hx) (targets_nodup R C m)
    have hval2 : ∀ p, inBounds R C p →
        readCell b2 p.1 p.2 = Run.ok ⟨value_after (m :: placed) p, false⟩ := by
      intro p hp
      by_cases hpm : p = m
      · subst hpm
        have := hread p ⟨Cell.BOMB, false⟩ (readCell_writeCell_same hcm)
        rw [if_neg (fun h => (targets_adjacent h).1 rfl)] at this
        rw [this, value_after_eq_bomb.2 (List.mem_cons_self _ _)]
      · have hne : (m.1, m.2) ≠ (p.1, p.2) := by
          intro e
          apply hpm
          exact (Prod.ext (Prod.mk.inj e).1 (Prod.mk.inj e).2).symm
        have := hread p ⟨value_after placed p, false⟩
          (by rw [readCell_writeCell_other hne]; exact hval p hp)
        rw [this, ← bump_value_after hnd3 hpm]
        by_cases hadj : adjacent m p
        · rw [if_pos ((mem_targets_iff hm).2 ⟨hp, hadj⟩), if_pos hadj]
        · rw [if_neg (fun h => hadj (targets_adjacent h)), if_neg hadj]
    obtain ⟨b3, hb3, hcov3, hread3⟩ := ih (m :: placed) b2 hcov2
      (fun p hp => hin p (List.mem_cons_of_mem _ hp)) hnd2 hval2
    refine ⟨b3, ?_, hcov3, ?_⟩
    · obtain ⟨row, col⟩ := m
      simp only [place_bombs]
      rw [hcm]
      simp only
      unfold visit_surrounding_cells
      rw [visit_offsets_eq_visit_list, hb2]
      exact hb3
    · intro p hp
      rw [hread3 p hp, value_after_perm hmid p]

theorem readCell_board_ {R C i j : Nat} {c : Cell}
    (h : readCell (board_ R C) i j = Run.ok c) : c = ⟨0, false⟩ := by
  obtain ⟨inner, hb, hc⟩ := readCell_eq_ok.1 h
  unfold board_ at hb
  rcases List.getElem?_eq_some_iff.1 hb with ⟨_, hb2⟩
  rw [List.getElem_replicate] at hb2
  subst hb2
  rcases List.getElem?_eq_some_iff.1 hc with ⟨_, hc2⟩
  rw [List.getElem_replicate] at hc2
  exact hc2.symm

/-- The declared storage of a square board holds every cell of the grid. -/
theorem covers_board_square (n : Nat) : Covers n n (board_ n n) := by
  intro i hi j hj
  have : readCell (board_ n n) i j = Run.ok ⟨0, false⟩ := by
    apply readCell_eq_ok.2
    refine ⟨List.replicate n ⟨0, false⟩, ?_, ?_⟩
    · unfold board_
      rw [List.getElem?_eq_some_iff]
      exact ⟨by simpa using hi, by simp⟩
    · rw [List.getElem?_eq_some_iff]
      exact ⟨by simpa using hj, by simp⟩
  rw [this]
  simp

/-- The constructor on a valid mine list, when the declared storage holds
every cell of the grid: it returns a board in which every cell of the grid
is hidden and holds the marker, if it is in the list, and else the number
of listed mines next to it. -/
theorem new_spec {R C : Nat} {bombs : List Position} (hv : ValidMines R C bombs)
    (hcov : Covers R C (board_ R C)) :
    ∃ b, Minesweeper.new R C bombs = Run.ok b ∧ Covers R C b ∧
      ∀ p, inBounds R C p → readCell b p.1 p.2 = Run.ok ⟨value_after bombs p, false⟩ := by
  obtain ⟨hlen, hin, hnd⟩ := hv
  obtain ⟨b, hb, hcovb, hread⟩ := place_bombs_spec bombs [] (board_ R C) hcov hin
    (by simpa using hnd)
    (by
      intro p hp
      obtain ⟨c, hc⟩ := covers_read hcov hp
      rw [hc, readCell_board_ hc]
      rfl)
  refine ⟨b, ?_, hcovb, ?_⟩
  · unfold Minesweeper.new insert_bombs
    rw [if_neg (by simpa using hlen), if_neg (by
      intro h
      apply h
      intro p hp
      exact hin p hp)]
    exact hb
  · intro p hp
    have := hread p hp
    rw [List.append_nil] at this
    exact this

/-- In a board whose grid cells hold `value_after bombs`, the number of
mine cells among the in-bounds neighbours of a position is the number of
listed mines next to it. -/
theorem mine_neighbours_eq {R C : Nat} {bombs : List Position} {b : Board}
    (hin : ∀ p ∈ bombs, inBounds R C p) (hnd : bombs.Nodup)
    (hread : ∀ p, inBounds R C p → readCell b p.1 p.2 = Run.ok ⟨value_after bombs p, false⟩)
    (p : Position) :
    mine_neighbours R C b p = bombs.countP (fun m => decide (adjacent m p)) := by
  unfold mine_neighbours
  rw [List.countP_eq_length_filter]
  apply List.Perm.length_eq
  apply (List.perm_ext_iff_of_nodup ?_ (hnd.filter _)).2
  · intro x
    rw [List.mem_filter, List.mem_filter, mem_neighbours]
    constructor
    · rintro ⟨⟨hx, hadj⟩, hmine⟩
      unfold is_mine at hmine
      rw [hread x hx] at hmine
      simp only [decide_eq_true_eq] at hmine
      exact ⟨value_after_eq_bomb.1 hmine, by simpa using adjacent_symm hadj⟩
    · rintro ⟨hx, hadj⟩
      have hadj2 : adjacent x p := by simpa using hadj
      refine ⟨⟨hin x hx, adjacent_symm hadj2⟩, ?_⟩
      unfold is_mine
      rw [hread x (hin x hx)]
      simpa using value_after_eq_bomb.2 hx
  · unfold neighbours
    exact ((grid_nodup R C).filter _).filter _

/-- Adjacency and mine conservation for the constructor, when the declared
storage holds every cell of the grid: every listed position and no other
reads `BOMB`, and every other cell of the grid holds the number of mine
cells among its in-bounds 8-neighbours; all cells are hidden. -/
theorem new_correct {R C : Nat} {bombs : List Position} (hv : ValidMines R C bombs)
    (hcov : Covers R C (board_ R C)) :
    ∃ b, Minesweeper.new R C bombs = Run.ok b ∧ Covers R C b ∧
      ∀ p, inBounds R C p → ∃ c, readCell b p.1 p.2 = Run.ok c ∧ c.is_revealed = false ∧
        (c.value = Cell.BOMB ↔ p ∈ bombs) ∧
        (c.value ≠ Cell.BOMB → c.value = (mine_neighbours R C b p : Int)) := by
  obtain ⟨b, hb, hcovb, hread⟩ := new_spec hv hcov
  refine ⟨b, hb, hcovb, ?_⟩
  intro p hp
  refine ⟨_, hread p hp, rfl, value_after_eq_bomb, ?_⟩
  intro hnb
  simp only at hnb ⊢
  rw [mine_neighbours_eq hv.2.1 hv.2.2 hread p]
  unfold value_after
  rw [if_neg (fun h => hnb (value_after_eq_bomb.2 h))]

/-! ### The flood fill reveals the region of the clicked cell -/

theorem is_revealed_at_writeCell {b : Board} {x : Position} {c : Cell} (v : CellValue)
    (h : readCell b x.1 x.2 = Run.ok c) (z : Position) :
    is_revealed_at (writeCell b x.1 x.2 ⟨v, true⟩) z
      = if z = x then true else is_revealed_at b z := by
  unfold is_revealed_at
  by_cases hz : z = x
  · subst hz
    rw [readCell_writeCell_same h, if_pos rfl]
  · have hne : (x.1, x.2) ≠ (z.1, z.2) := by
      intro e
      apply hz
      exact (Prod.ext (Prod.mk.inj e).1 (Prod.mk.inj e).2).symm
    rw [readCell_writeCell_other hne, if_neg hz]

theorem hasValues_writeCell {R C : Nat} {bombs : List Position} {b : Board}
    (hV : HasValues R C bombs b) {x : Position} (hx : inBounds R C x) (f : Bool) :
    HasValues R C bombs (writeCell b x.1 x.2 ⟨value_after bombs x, f⟩) := by
  intro z hz
  obtain ⟨fx, hfx⟩ := hV x hx
  by_cases hzx : z = x
  · subst hzx
    exact ⟨f, readCell_writeCell_same hfx⟩
  · have hne : (x.1, x.2) ≠ (z.1, z.2) := by
      intro e
      apply hzx
      exact (Prod.ext (Prod.mk.inj e).1 (Prod.mk.inj e).2).symm
    rw [readCell_writeCell_other hne]
    exact hV z hz

theorem hasValues_covers {R C : Nat} {bombs : List Position} {b : Board}
    (hV : HasValues R C bombs b) : Covers R C b := by
  intro i hi j hj
  obtain ⟨f, hf⟩ := hV (i, j) ⟨hi, hj⟩
  simp only at hf
  rw [hf]
  simp

/-- A cell whose value is `SPACE` has no listed mine next to it. -/
theorem space_has_no_mine_neighbour {bombs : List Position} {x y : Position}
    (h : value_after bombs x = Cell.SPACE) (hy : y ∈ bombs) : ¬ adjacent x y := by
  intro hadj
  unfold value_after Cell.SPACE at h
  split_ifs at h with hm
  · unfold Cell.BOMB at h
    have h1 : (-1 : Int) = 0 := h
    omega
  · have h0 : List.countP (fun m => decide (adjacent m x)) bombs = 0 := by
      have h1 : ((List.countP (fun m => decide (adjacent m x)) bombs : Nat) : Int) = 0 := h
      omega
    have := List.countP_eq_zero.1 h0 y hy
    simp only [decide_eq_true_eq] at this
    exact this (adjacent_symm hadj)

theorem is_revealed_at_of_values {R C : Nat} {bombs : List Position} {b : Board}
    (hV : HasValues R C bombs b) {x : Position} (hx : inBounds R C x) :
    readCell b x.1 x.2 = Run.ok ⟨value_after bombs x, is_revealed_at b x⟩ := by
  obtain ⟨f, hf⟩ := hV x hx
  unfold is_revealed_at
  rw [hf]

/-- One iteration keeps the invariant of the flood fill. -/
theorem flood_body_inv {R C : Nat} {bombs : List Position} {b : Board} {p : Position}
    (hVb : HasValues R C bombs b) {x : Position} {rest : List Position} {b1 : Board}
    (h : FloodInv R C bombs b p (x :: rest) b1) {st : Board × List Position}
    (hb : flood_body R C x rest b1 = Run.ok st) : FloodInv R C bombs b p st.2 st.1 := by
  obtain ⟨hV, hQ, hSub, hMono, hSeed, hCl⟩ := h
  obtain ⟨hxin, hxreg, hxsafe⟩ := hQ x (List.mem_cons_self _ _)
  obtain ⟨f, hrx⟩ := hV x hxin
  have hnb : value_after bombs x ≠ Cell.BOMB := fun e => hxsafe (value_after_eq_bomb.1 e)
  have hV2 := hasValues_writeCell hV hxin true
  have hrev := is_revealed_at_writeCell (value_after bombs x) hrx
  -- the invariant for any queue made of the rest and of pushable cells around a `SPACE`
  have key : ∀ q2 : List Position, (∀ y ∈ rest, y ∈ q2) →
      (∀ y ∈ q2, y ∈ rest ∨ (value_after bombs x = Cell.SPACE ∧
        y ∈ targets R C x SURROUNDING_DX_DY ∧
        pushable (writeCell b1 x.1 x.2 ⟨value_after bombs x, true⟩) y = true)) →
      (value_after bombs x = Cell.SPACE → ∀ y ∈ targets R C x SURROUNDING_DX_DY,
        pushable (writeCell b1 x.1 x.2 ⟨value_after bombs x, true⟩) y = true → y ∈ q2) →
      FloodInv R C bombs b p q2 (writeCell b1 x.1 x.2 ⟨value_after bombs x, true⟩) := by
    intro q2 hsub hfrom hpush
    refine ⟨hV2, ?_, ?_, ?_, ?_, ?_⟩
    · intro y hy
      rcases hfrom y hy with hy1 | ⟨hsp, hyt, hyp⟩
      · exact hQ y (List.mem_cons_of_mem _ hy1)
      · have hyin := targets_inBounds hxin hyt
        refine ⟨hyin, ?_, ?_⟩
        · obtain ⟨fb, hfb⟩ := hVb x hxin
          exact Region.step hxreg hfb hsp hyin (targets_adjacent hyt)
        · intro hmem
          unfold pushable at hyp
          rw [is_revealed_at_of_values hV2 hyin] at hyp
          simp only [ne_eq, decide_eq_true_eq] at hyp
          exact hyp.1 (value_after_eq_bomb.2 hmem)
    · intro z hz hr
      rw [hrev z] at hr
      by_cases hzx : z = x
      · right; rw [hzx]; exact hxreg
      · rw [if_neg hzx] at hr
        exact hSub z hz hr
    · intro z hz hr
      rw [hrev z]
      by_cases hzx : z = x
      · rw [if_pos hzx]
      · rw [if_neg hzx]; exact hMono z hz hr
    · rw [hrev p]
      by_cases hpx : p = x
      · rw [if_pos hpx]
      · rw [if_neg hpx]; exact hSeed
    · intro z hz hr hsp
      by_cases hzx : z = x
      · right
        subst hzx
        intro y hy hadj
        have hyt : y ∈ targets R C z SURROUNDING_DX_DY := (mem_targets_iff hxin).2 ⟨hy, hadj⟩
        by_cases hyp : pushable (writeCell b1 z.1 z.2 ⟨value_after bombs z, true⟩) y = true
        · right; exact hpush hsp y hyt hyp
        · left
          unfold pushable at hyp
          rw [is_revealed_at_of_values hV2 hy] at hyp
          simp only [ne_eq, decide_eq_true_eq, not_and] at hyp
          by_contra hcon
          apply hyp
          · intro e
            exact space_has_no_mine_neighbour hsp (value_after_eq_bomb.1 e) hadj
          · simpa using hcon
      · rw [hrev z, if_neg hzx] at hr
        rcases hCl z hz hr hsp with hzq | hall
        · left
          rcases List.mem_cons.1 hzq with e | e
          · exact absurd e hzx
          · exact hsub z e
        · right
          intro y hy hadj
          rcases hall y hy hadj with hyr | hyq
          · left
            rw [hrev y]
            by_cases hyx : y = x
            · rw [if_pos hyx]
            · rw [if_neg hyx]; exact hyr
          · rcases List.mem_cons.1 hyq with e | e
            · left; rw [hrev y, if_pos e]
            · right; exact hsub y e
  obtain ⟨c, hc, hcase⟩ := flood_body_cases hb
  rw [hrx] at hc
  cases hc
  rcases hcase with ⟨hbm, _⟩ | ⟨_, hns, hst⟩ | ⟨_, hsp, hst⟩
  · exact absurd hbm hnb
  · rw [hst]
    exact key rest (fun y hy => hy) (fun y hy => Or.inl hy) (fun e => absurd e hns)
  · rw [hst]
    refine key _ (fun y hy => List.mem_append_left _ hy) ?_ ?_
    · intro y hy
      rcases List.mem_append.1 hy with h1 | h2
      · left; exact h1
      · right
        exact ⟨hsp, (List.mem_filter.1 h2).1, (List.mem_filter.1 h2).2⟩
    · intro _ y hyt hyp
      exact List.mem_append_right _ (List.mem_filter.2 ⟨hyt, hyp⟩)

theorem region_inBounds {R C : Nat} {b : Board} {p x : Position} (hp : inBounds R C p)
    (h : Region R C b p x) : inBounds R C x := by
  induction h with
  | seed => exact hp
  | step _ _ _ hy _ _ => exact hy

/-- The flood fill of a click on a hidden cell `p` that is no mine, in a
board with the values of the mine list in which the revealed `SPACE`s have
their neighbours revealed: the cells revealed at the end are those revealed
before and the region of `p`, and the board is again of that kind. -/
theorem flood_complete {R C : Nat} {bombs : List Position} {b : Board} {p : Position}
    (hVb : HasValues R C bombs b) (hClb : Closed R C b) (hp : inBounds R C p)
    (hsafe : p ∉ bombs) {fuel : Nat} {b2 : Board}
    (hf : flood R C fuel [p] (writeCell b p.1 p.2 ⟨value_after bombs p, true⟩) = Run.ok b2) :
    HasValues R C bombs b2 ∧ Closed R C b2 ∧
    ∀ x, inBounds R C x →
      (is_revealed_at b2 x = true ↔ (is_revealed_at b x = true ∨ Region R C b p x)) := by
  obtain ⟨fp, hrp⟩ := hVb p hp
  have hrev := is_revealed_at_writeCell (value_after bombs p) hrp
  have hinit : FloodInv R C bombs b p [p]
      (writeCell b p.1 p.2 ⟨value_after bombs p, true⟩) := by
    refine ⟨hasValues_writeCell hVb hp true, ?_, ?_, ?_, ?_, ?_⟩
    · intro x hx
      have : x = p := by simpa using hx
      subst this
      exact ⟨hp, Region.seed, hsafe⟩
    · intro z _ hr
      rw [hrev z] at hr
      by_cases hzp : z = p
      · right; rw [hzp]; exact Region.seed
      · rw [if_neg hzp] at hr; left; exact hr
    · intro z _ hr
      rw [hrev z]
      by_cases hzp : z = p
      · rw [if_pos hzp]
      · rw [if_neg hzp]; exact hr
    · rw [hrev p, if_pos rfl]
    · intro z hz hr hsp
      by_cases hzp : z = p
      · left; rw [hzp]; exact List.mem_singleton_self _
      · right
        rw [hrev z, if_neg hzp] at hr
        have hzread := is_revealed_at_of_values hVb hz
        rw [hr, hsp] at hzread
        intro y hy hadj
        left
        rw [hrev y]
        by_cases hyp : y = p
        · rw [if_pos hyp]
        · rw [if_neg hyp]; exact hClb z hz hzread y hy hadj
  have hfin := flood_induct R C (FloodInv R C bombs b p)
    (fun x rest b1 st hinv hb => flood_body_inv hVb hinv hb) fuel [p] _ b2 hinit hf
  obtain ⟨hV, _, hSub, hMono, hSeed, hCl⟩ := hfin
  have hclosed : ∀ x, inBounds R C x → is_revealed_at b2 x = true →
      value_after bombs x = Cell.SPACE →
      ∀ y, inBounds R C y → adjacent x y → is_revealed_at b2 y = true := by
    intro x hx hr hsp y hy hadj
    rcases hCl x hx hr hsp with h1 | h1
    · simp at h1
    · rcases h1 y hy hadj with h2 | h2
      · exact h2
      · simp at h2
  refine ⟨hV, ?_, ?_⟩
  · intro x hx hread y hy hadj
    have h1 := is_revealed_at_of_values hV hx
    rw [hread] at h1
    have h2 : value_after bombs x = Cell.SPACE := by
      have := congrArg Cell.value (Run.ok.inj h1)
      exact this.symm
    have h3 : is_revealed_at b2 x = true := by
      have := congrArg Cell.is_revealed (Run.ok.inj h1)
      exact this.symm
    exact hclosed x hx h3 h2 y hy hadj
  · intro x hx
    constructor
    · exact hSub x hx
    · rintro (h | h)
      · exact hMono x hx h
      · clear hx
        induction h with
        | seed => exact hSeed
        | step hreg hread hsp hy hadj ih =>
          rename_i x0 y0 c0
          have hx0 := region_inBounds hp hreg
          obtain ⟨f0, hf0⟩ := hVb x0 hx0
          rw [hf0] at hread
          have hv0 : value_after bombs x0 = Cell.SPACE := by
            have := congrArg Cell.value (Run.ok.inj hread)
            simp only at this
            rw [this]; exact hsp
          exact hclosed x0 hx0 ih hv0 y0 hy hadj

/-- A click that returns keeps the values of the mine list and the
closedness of the revealed `SPACE`s. -/
theorem click_keeps_good {R C : Nat} {bombs : List Position} {b b2 : Board} {p : Position}
    {fuel : Nat} {r : ClickResult} (hVb : HasValues R C bombs b) (hClb : Closed R C b)
    (hp : inBounds R C p) (h : click R C fuel p b = Run.ok (r, b2)) :
    HasValues R C bombs b2 ∧ Closed R C b2 := by
  rcases click_cases h with ⟨_, _, hb⟩ | ⟨_, c, hc, hcase⟩
  · rw [hb]; exact ⟨hVb, hClb⟩
  · obtain ⟨f, hf⟩ := hVb p hp
    rw [hf] at hc
    cases hc
    rcases hcase with ⟨_, _, hb⟩ | ⟨_, hm, _, hb⟩ | ⟨_, hnb, _, hfl⟩
    · rw [hb]; exact ⟨hVb, hClb⟩
    · rw [hb]
      simp only at hm ⊢
      have hrev := is_revealed_at_writeCell (value_after bombs p) hf
      refine ⟨hasValues_writeCell hVb hp true, ?_⟩
      intro x hx hread y hy hadj
      have hxp : x ≠ p := by
        intro e
        subst e
        rw [readCell_writeCell_same hf] at hread
        have := congrArg Cell.value (Run.ok.inj hread)
        simp only at this
        rw [hm] at this
        exact absurd this (by decide)
      have hne : (p.1, p.2) ≠ (x.1, x.2) := by
        intro e
        apply hxp
        exact (Prod.ext (Prod.mk.inj e).1 (Prod.mk.inj e).2).symm
      rw [readCell_writeCell_other hne] at hread
      rw [hrev y]
      by_cases hyp : y = p
      · rw [if_pos hyp]
      · rw [if_neg hyp]; exact hClb x hx hread y hy hadj
    · simp only at hnb hfl
      have := flood_complete hVb hClb hp (fun e => hnb (value_after_eq_bomb.2 e)) hfl
      exact ⟨this.1, this.2.1⟩

/-- Every board that arises from a valid mine list by clicks on the grid,
when the declared storage holds every cell of the grid, has the values of
the mine list and its revealed `SPACE`s have their neighbours revealed. -/
theorem reachable_good {R C : Nat} {bombs : List Position} (hv : ValidMines R C bombs)
    (hcov : Covers R C (board_ R C)) {b : Board} (hr : Reachable R C bombs b) :
    HasValues R C bombs b ∧ Closed R C b := by
  induction hr with
  | fresh hnew =>
    obtain ⟨b0, hb0, _, hread⟩ := new_spec hv hcov
    rw [hb0] at hnew
    cases hnew
    refine ⟨fun x hx => ⟨false, hread x hx⟩, ?_⟩
    intro x hx hx2
    rw [hread x hx] at hx2
    have := congrArg Cell.is_revealed (Run.ok.inj hx2)
    simp at this
  | click _ hp hclick ih => exact click_keeps_good ih.1 ih.2 hp hclick

/-- Flood-fill completeness when the declared storage holds every cell of
the grid: in a board reached from a valid mine list, a click on a hidden
cell of the grid that is no mine returns `IN_PROGRESS`, and the cells of the
grid revealed afterwards are those revealed before and the region of the
clicked cell. -/
theorem click_reveals_region {R C : Nat} {bombs : List Position} (hv : ValidMines R C bombs)
    (hcov : Covers R C (board_ R C)) {b : Board} (hr : Reachable R C bombs b)
    {p : Position} (hp : inBounds R C p) (hhid : is_revealed_at b p = false)
    (hsafe : is_mine b p = false) :
    ∃ fuel b2, (∀ k, click R C (fuel + k) p b = Run.ok (ClickResult.IN_PROGRESS, b2)) ∧
      ∀ x, inBounds R C x →
        (is_revealed_at b2 x = true ↔ (is_revealed_at b x = true ∨ Region R C b p x)) := by
  obtain ⟨hVb, hClb⟩ := reachable_good hv hcov hr
  obtain ⟨fuel, hfuel⟩ := click_halts R C p b
  have h0 := hfuel 0
  rw [Nat.add_zero] at h0
  obtain ⟨r, b2, hok, _⟩ := click_ok_of_covers hp (hasValues_covers hVb) h0
  have hpread := is_revealed_at_of_values hVb hp
  rw [hhid] at hpread
  have hnb : value_after bombs p ≠ Cell.BOMB := by
    intro e
    unfold is_mine at hsafe
    rw [hpread] at hsafe
    simp only [decide_eq_false_iff_not] at hsafe
    exact hsafe e
  rcases click_cases hok with ⟨hg, _, _⟩ | ⟨_, c, hc, hcase⟩
  · unfold inBounds at hp; omega
  · rw [hpread] at hc
    cases hc
    rcases hcase with ⟨hrev, _, _⟩ | ⟨_, hm, _, _⟩ | ⟨_, _, hres, hfl⟩
    · simp at hrev
    · exact absurd hm hnb
    · simp only at hfl
      have := flood_complete hVb hClb hp (fun e => hnb (value_after_eq_bomb.2 e)) hfl
      refine ⟨fuel, b2, ?_, this.2.2⟩
      intro k
      rw [click_fuel_mono fuel k p b h0, hok, hres]

/-! ### Claims on the construction and on the flood fill -/

/-- C1 (adjacency correctness).  On every square board the constructor
accepts a valid mine list and every cell of the grid that is no mine holds
the number of mine cells among its in-bounds 8-neighbours.  On the 5 x 7
board of `main` the constructor leaves `game_board`; `(0, 0)` reads 0 and
`(1, 2)` reads 2, but `(1, 6)`, a cell of the grid that is no mine, is
element 6 of an inner array of five cells: the read is out of range and
there is no value to compare with the count.  With the mine `(0, 5)` the
constructor itself makes such an access. -/
theorem adjacency_square_and_main_board :
    (∀ (n : Nat) (bombs : List Position), ValidMines n n bombs →
      ∃ b, Minesweeper.new n n bombs = Run.ok b ∧
        ∀ p, inBounds n n p → ∃ c, readCell b p.1 p.2 = Run.ok c ∧
          (c.value ≠ Cell.BOMB → c.value = (mine_neighbours n n b p : Int))) ∧
    Minesweeper.new 5 7 bomb_locations = Run.ok game_board ∧
    readCell game_board 0 0 = Run.ok ⟨0, false⟩ ∧
    readCell game_board 1 2 = Run.ok ⟨2, false⟩ ∧
    inBounds 5 7 (1, 6) ∧
    readCell game_board 1 6 = Run.fault Fault.out_of_range ∧
    ValidMines 5 7 [(0, 5)] ∧
    Minesweeper.new 5 7 [(0, 5)] = Run.fault Fault.out_of_range := by
  refine ⟨?_, by decide, by decide, by decide, by decide, by decide, by decide, by decide⟩
  intro n bombs hv
  obtain ⟨b, hb, _, hread⟩ := new_correct hv (covers_board_square n)
  refine ⟨b, hb, fun p hp => ?_⟩
  obtain ⟨c, hc, _, _, hval⟩ := hread p hp
  exact ⟨c, hc, hval⟩

/-- C2 (mine conservation).  On every square board the constructor accepts
a valid mine list and a cell of the grid reads `BOMB` exactly when its
position is in the list.  On a 5 x 7 board the mine list `[(0, 5)]` is
valid, and the store into `board_[0][5]` is out of range (inner arrays have
five cells): no board with a mine at `(0, 5)` results. -/
theorem mines_square_and_wide_board :
    (∀ (n : Nat) (bombs : List Position), ValidMines n n bombs →
      ∃ b, Minesweeper.new n n bombs = Run.ok b ∧
        ∀ p, inBounds n n p → ∃ c, readCell b p.1 p.2 = Run.ok c ∧
          (c.value = Cell.BOMB ↔ p ∈ bombs)) ∧
    ValidMines 5 7 [(0, 5)] ∧
    Minesweeper.new 5 7 [(0, 5)] = Run.fault Fault.out_of_range := by
  refine ⟨?_, by decide, by decide⟩
  intro n bombs hv
  obtain ⟨b, hb, _, hread⟩ := new_correct hv (covers_board_square n)
  refine ⟨b, hb, fun p hp => ?_⟩
  obtain ⟨c, hc, _, hmine, _⟩ := hread p hp
  exact ⟨c, hc, hmine⟩

/-- C6 (flood-fill completeness).  On every square board, in every board
reached from a valid mine list by clicks on the grid, a click on a hidden
cell of the grid that is no mine returns, and the cells of the grid
revealed afterwards are those revealed before together with the region of
the clicked cell.  On the 5 x 7 board of `main`, after the first move of
`main`, the click on `(2, 4)`, its second move, the click on `(0, 1)`, a
hidden `SPACE` of the grid, returns no board: the flood fill reaches column
5, which the inner arrays of five cells do not have. -/
theorem flood_square_and_main_board :
    (∀ (n : Nat) (bombs : List Position) (b : Board) (p : Position),
      ValidMines n n bombs → Reachable n n bombs b → inBounds n n p →
      is_revealed_at b p = false → is_mine b p = false →
      ∃ fuel b2, (∀ k, click n n (fuel + k) p b = Run.ok (ClickResult.IN_PROGRESS, b2)) ∧
        ∀ x, inBounds n n x →
          (is_revealed_at b2 x = true ↔ (is_revealed_at b x = true ∨ Region n n b p x))) ∧
    click 5 7 1 (2, 4) game_board
      = Run.ok (ClickResult.IN_PROGRESS, writeCell game_board 2 4 ⟨1, true⟩) ∧
    Reachable 5 7 bomb_locations (writeCell game_board 2 4 ⟨1, true⟩) ∧
    inBounds 5 7 (0, 1) ∧
    readCell (writeCell game_board 2 4 ⟨1, true⟩) 0 1 = Run.ok ⟨Cell.SPACE, false⟩ ∧
    ∀ k, click 5 7 (32 + k) (0, 1) (writeCell game_board 2 4 ⟨1, true⟩)
      = Run.fault Fault.out_of_range := by
  have h1 : click 5 7 1 (2, 4) game_board
      = Run.ok (ClickResult.IN_PROGRESS, writeCell game_board 2 4 ⟨1, true⟩) := by decide
  refine ⟨?_, h1, Reachable.click (Reachable.fresh (by decide)) (by decide) h1, by decide,
    by decide, fun k => ?_⟩
  · intro n bombs b p hv hr hp hhid hsafe
    exact click_reveals_region hv (covers_board_square n) hr hp hhid hsafe
  · have h : click 5 7 32 (0, 1) (writeCell game_board 2 4 ⟨1, true⟩)
        = Run.fault Fault.out_of_range := by decide
    rw [click_fuel_mono 32 k (0, 1) _ (by rw [h]; simp), h]

/-- Witness of C1 on a square board: the 3 x 3 board with the mine
`(0, 0)`. -/
theorem adjacency_square_witness :
    ValidMines 3 3 [(0, 0)] ∧
    ∃ b, Minesweeper.new 3 3 [(0, 0)] = Run.ok b ∧
      ∀ p, inBounds 3 3 p → ∃ c, readCell b p.1 p.2 = Run.ok c ∧
        (c.value ≠ Cell.BOMB → c.value = (mine_neighbours 3 3 b p : Int)) :=
  ⟨by decide, adjacency_square_and_main_board.1 3 [(0, 0)] (by decide)⟩

/-- Witness of C2 on a square board: the 3 x 3 board with the mine
`(0, 0)`. -/
theorem mines_square_witness :
    ValidMines 3 3 [(0, 0)] ∧
    ∃ b, Minesweeper.new 3 3 [(0, 0)] = Run.ok b ∧
      ∀ p, inBounds 3 3 p → ∃ c, readCell b p.1 p.2 = Run.ok c ∧
        (c.value = Cell.BOMB ↔ p ∈ [((0, 0) : Position)]) :=
  ⟨by decide, mines_square_and_wide_board.1 3 [(0, 0)] (by decide)⟩

/-- Witness of C6 on a square board: the click on `(2, 2)` in the fresh
3 x 3 board with the mine `(0, 0)`. -/
theorem flood_square_witness :
    ValidMines 3 3 [(0, 0)] ∧ Reachable 3 3 [(0, 0)] corner_board ∧ inBounds 3 3 (2, 2) ∧
    is_revealed_at corner_board (2, 2) = false ∧ is_mine corner_board (2, 2) = false ∧
    ∃ fuel b2,
      (∀ k, click 3 3 (fuel + k) (2, 2) corner_board
        = Run.ok (ClickResult.IN_PROGRESS, b2)) ∧
      ∀ x, inBounds 3 3 x →
        (is_revealed_at b2 x = true ↔
          (is_revealed_at corner_board x = true ∨ Region 3 3 corner_board (2, 2) x)) :=
  ⟨by decide, Reachable.fresh (by decide), by decide, by decide, by decide,
    flood_square_and_main_board.1 3 [(0, 0)] corner_board (2, 2) (by decide)
      (Reachable.fresh (by decide)) (by decide) (by decide) (by decide)⟩

/-! ### Values and flags across a click -/

/-- A store at a place that cannot be read leaves the storage as it is. -/
theorem writeCell_of_fault {b : Board} {i j : Nat} {e : Fault} (c : Cell)
    (h : readCell b i j = Run.fault e) : writeCell b i j c = b := by
  unfold writeCell
  unfold readCell at h
  cases hb : b[i]? with
  | none => rfl
  | some inner =>
    rw [hb] at h
    simp only at h ⊢
    cases hc : inner[j]? with
    | some d => rw [hc] at h; cases h
    | none =>
      have hlen : inner.length ≤ j := List.getElem?_eq_none_iff.1 hc
      have h1 : inner.set j c = inner := List.set_eq_of_length_le hlen
      rw [h1]
      apply List.ext_getElem?
      intro n
      by_cases hn : i = n
      · subst hn
        rw [List.getElem?_set_self (by
          rcases List.getElem?_eq_some_iff.1 hb with ⟨hlt, _⟩; exact hlt)]
        exact hb.symm
      · rw [List.getElem?_set_ne hn]

/-- A place that cannot be read cannot be read after the loop either. -/
theorem flood_keeps_fault {R C fuel : Nat} {q : List Position} {b b2 : Board}
    (h : flood R C fuel q b = Run.ok b2) {i j : Nat} {e : Fault}
    (hr : readCell b i j = Run.fault e) : readCell b2 i j = Run.fault e := by
  refine flood_induct R C (fun _ b1 => readCell b1 i j = Run.fault e) ?_ fuel q b b2 hr h
  intro p rest b1 st hinv hb
  obtain ⟨c, hc, hcase⟩ := flood_body_cases hb
  have hne : (p.1, p.2) ≠ (i, j) := by
    intro e2
    rw [(Prod.mk.inj e2).1, (Prod.mk.inj e2).2, hinv] at hc
    cases hc
  rcases hcase with ⟨_, hst⟩ | ⟨_, _, hst⟩ | ⟨_, _, hst⟩
  · rw [hst]; exact hinv
  · rw [hst]; simp only; rw [readCell_writeCell_other hne]; exact hinv
  · rw [hst]; simp only; rw [readCell_writeCell_other hne]; exact hinv

/-- C12 (value immutability and monotone reveal): whenever `click` returns,
every cell of the old board is a cell of the new one with the same value,
and with its flag still set if it was set; a place without a cell stays
without one.  So the revealed cells after the click include those
before. -/
theorem click_keeps_values_and_flags (R C fuel : Nat) (p : Position) (b b2 : Board)
    (r : ClickResult) (h : click R C fuel p b = Run.ok (r, b2)) :
    (∀ (i j : Nat) (d : Cell), readCell b i j = Run.ok d →
      ∃ d2, readCell b2 i j = Run.ok d2 ∧ d2.value = d.value ∧
        (d.is_revealed = true → d2.is_revealed = true)) ∧
    (∀ (i j : Nat) (e : Fault), readCell b i j = Run.fault e →
      readCell b2 i j = Run.fault e) ∧
    (∀ x : Position, is_revealed_at b x = true → is_revealed_at b2 x = true) := by
  have first : ∀ (i j : Nat) (d : Cell), readCell b i j = Run.ok d →
      ∃ d2, readCell b2 i j = Run.ok d2 ∧ d2.value = d.value ∧
        (d.is_revealed = true → d2.is_revealed = true) := by
    intro i j d hd
    have same : readCell b i j = Run.ok d →
        ∃ d2, readCell b i j = Run.ok d2 ∧ d2.value = d.value ∧
          (d.is_revealed = true → d2.is_revealed = true) := fun hh => ⟨d, hh, rfl, fun e => e⟩
    have wr : ∀ c : Cell, readCell b p.1 p.2 = Run.ok c →
        readCell (writeCell b p.1 p.2 ⟨c.value, true⟩) i j = Run.ok d ∨
        readCell (writeCell b p.1 p.2 ⟨c.value, true⟩) i j = Run.ok ⟨d.value, true⟩ := by
      intro c hc
      by_cases hp : (p.1, p.2) = (i, j)
      · right
        have e1 : i = p.1 := by rw [← (Prod.mk.inj hp).1]
        have e2 : j = p.2 := by rw [← (Prod.mk.inj hp).2]
        subst e1; subst e2
        rw [hc] at hd; cases hd
        exact readCell_writeCell_same hc
      · left
        rw [readCell_writeCell_other hp]; exact hd
    rcases click_cases h with ⟨_, _, hb⟩ | ⟨_, c, hc, hcase⟩
    · rw [hb]; exact same hd
    · rcases hcase with ⟨_, _, hb⟩ | ⟨_, _, _, hb⟩ | ⟨_, _, _, hf⟩
      · rw [hb]; exact same hd
      · rw [hb]
        rcases wr c hc with h1 | h1
        · exact ⟨d, h1, rfl, fun e => e⟩
        · exact ⟨_, h1, rfl, fun _ => rfl⟩
      · rcases wr c hc with h1 | h1
        · rcases flood_frame hf h1 with h2 | ⟨_, _, h2⟩
          · exact ⟨d, h2, rfl, fun e => e⟩
          · exact ⟨_, h2, rfl, fun _ => rfl⟩
        · rcases flood_frame hf h1 with h2 | ⟨_, _, h2⟩
          · exact ⟨_, h2, rfl, fun _ => rfl⟩
          · exact ⟨_, h2, rfl, fun _ => rfl⟩
  refine ⟨first, ?_, ?_⟩
  · intro i j e he
    rcases click_cases h with ⟨_, _, hb⟩ | ⟨_, c, hc, hcase⟩
    · rw [hb]; exact he
    · have hne : (p.1, p.2) ≠ (i, j) := by
        intro e2
        rw [(Prod.mk.inj e2).1, (Prod.mk.inj e2).2, he] at hc
        cases hc
      rcases hcase with ⟨_, _, hb⟩ | ⟨_, _, _, hb⟩ | ⟨_, _, _, hf⟩
      · rw [hb]; exact he
      · rw [hb, readCell_writeCell_other hne]; exact he
      · exact flood_keeps_fault hf (by rw [readCell_writeCell_other hne]; exact he)
  · intro x hx
    unfold is_revealed_at at hx ⊢
    cases hr : readCell b x.1 x.2 with
    | fault e => rw [hr] at hx; cases hx
    | ok d =>
      rw [hr] at hx
      obtain ⟨d2, hd2, _, hflag⟩ := first x.1 x.2 d hr
      rw [hd2]
      exact hflag hx

/-- Witness of C12: the click on `(2, 2)` in the 3 x 3 board with the mine
`(0, 0)`; the cell `(1, 1)` keeps its value 1. -/
theorem click_keeps_values_and_flags_witness :
    click 3 3 11 (2, 2) corner_board = Run.ok (ClickResult.IN_PROGRESS, corner_board_cleared) ∧
    readCell corner_board 1 1 = Run.ok ⟨1, false⟩ ∧
    ∃ d2, readCell corner_board_cleared 1 1 = Run.ok d2 ∧ d2.value = (⟨1, false⟩ : Cell).value ∧
      ((⟨1, false⟩ : Cell).is_revealed = true → d2.is_revealed = true) :=
  ⟨by decide, by decide,
    (click_keeps_values_and_flags 3 3 11 (2, 2) corner_board corner_board_cleared
      ClickResult.IN_PROGRESS (by decide)).1 1 1 ⟨1, false⟩ (by decide)⟩

/-! ### What the constructor checks -/

theorem visit_list_fault {σ : Type} (callback : Cell → Position → σ → Cell × σ) {e : Fault} :
    ∀ (xs : List Position) (st : Board × σ),
      visit_list callback xs st = Run.fault e → e = Fault.out_of_range := by
  intro xs
  induction xs with
  | nil => intro st h; simp [visit_list] at h
  | cons x xs ih =>
    intro st h
    obtain ⟨b1, s1⟩ := st
    simp only [visit_list] at h
    cases hr : readCell b1 x.1 x.2 with
    | fault e2 =>
      rw [hr] at h
      cases h
      exact readCell_fault_kind hr
    | ok c =>
      rw [hr] at h
      exact ih _ h

theorem place_bombs_fault {R C : Nat} {e : Fault} :
    ∀ (l : List Position) (b : Board), place_bombs R C l b = Run.fault e →
      e = Fault.out_of_range := by
  intro l
  induction l with
  | nil => intro b h; simp [place_bombs] at h
  | cons m rest ih =>
    intro b h
    obtain ⟨row, col⟩ := m
    simp only [place_bombs] at h
    cases hr : readCell b row col with
    | fault e2 =>
      rw [hr] at h
      cases h
      exact readCell_fault_kind hr
    | ok c =>
      rw [hr] at h
      simp only at h
      cases hv : visit_surrounding_cells R C (row, col) count_bomb
          (writeCell b row col ⟨Cell.BOMB, c.is_revealed⟩, ()) with
      | fault e2 =>
        rw [hv] at h
        cases h
        unfold visit_surrounding_cells at hv
        rw [visit_offsets_eq_visit_list] at hv
        exact visit_list_fault _ _ _ hv
      | ok st =>
        rw [hv] at h
        exact ih _ h

/-- The placing loop runs through on a storage that covers the grid, for
every list of positions of the grid, with or without repetitions. -/
theorem place_bombs_ok_of_covers {R C : Nat} :
    ∀ (l : List Position) (b : Board), Covers R C b → (∀ p ∈ l, inBounds R C p) →
      ∃ b2, place_bombs R C l b = Run.ok b2 ∧ Covers R C b2 := by
  intro l
  induction l with
  | nil => intro b hcov _; exact ⟨b, rfl, hcov⟩
  | cons m rest ih =>
    intro b hcov hin
    have hm : inBounds R C m := hin m (List.mem_cons_self _ _)
    obtain ⟨c, hc⟩ := covers_read hcov hm
    obtain ⟨b2, hb2, hcov2, _⟩ := visit_list_count_bomb
      (targets R C m SURROUNDING_DX_DY) (writeCell b m.1 m.2 ⟨Cell.BOMB, c.is_revealed⟩)
      (covers_writeCell hcov hc) (fun x hx => targets_inBounds hm hx) (targets_nodup R C m)
    obtain ⟨b3, hb3, hcov3⟩ := ih b2 hcov2 (fun p hp => hin p (List.mem_cons_of_mem _ hp))
    refine ⟨b3, ?_, hcov3⟩
    obtain ⟨row, col⟩ := m
    simp only [place_bombs]
    rw [hc]
    simp only
    unfold visit_surrounding_cells
    rw [visit_offsets_eq_visit_list, hb2]
    exact hb3

/-- C13 (duplicate mines rejected), as the code has it: the constructor
fails a check exactly when the list has `NumRowsT * NumColsT` entries or
more, or names a position outside the grid; a repeated position is no
reason.  On every square board every list that passes these two checks gets
a board.  The list `[(0, 0), (0, 0)]` on the 3 x 3 board is accepted, and
the cells next to `(0, 0)` hold 2 though one mine is next to them. -/
theorem duplicate_mines_accepted :
    (∀ (R C : Nat) (bombs : List Position),
      Minesweeper.new R C bombs = Run.fault Fault.assert_failed ↔
        (¬ bombs.length < R * C ∨ ¬ ∀ p ∈ bombs, inBounds R C p)) ∧
    (∀ (n : Nat) (bombs : List Position), bombs.length < n * n →
      (∀ p ∈ bombs, inBounds n n p) → ∃ b, Minesweeper.new n n bombs = Run.ok b) ∧
    ¬ ([(0, 0), (0, 0)] : List Position).Nodup ∧
    Minesweeper.new 3 3 [(0, 0), (0, 0)] = Run.ok doubled_board ∧
    readCell doubled_board 0 1 = Run.ok ⟨2, false⟩ ∧
    mine_neighbours 3 3 doubled_board (0, 1) = 1 := by
  refine ⟨?_, ?_, by decide, by decide, by decide, by decide⟩
  · intro R C bombs
    unfold Minesweeper.new insert_bombs inBounds
    by_cases h1 : bombs.length < R * C
    · by_cases h2 : ∀ p ∈ bombs, p.1 < R ∧ p.2 < C
      · rw [if_neg (fun h => h h1), if_neg (fun h => h h2)]
        constructor
        · intro h
          have := place_bombs_fault _ _ h
          cases this
        · rintro (h | h)
          · exact absurd h1 h
          · exact absurd h2 h
      · rw [if_neg (fun h => h h1), if_pos h2]
        exact ⟨fun _ => Or.inr h2, fun _ => rfl⟩
    · rw [if_pos h1]
      exact ⟨fun _ => Or.inl h1, fun _ => rfl⟩
  · intro n bombs hlen hin
    obtain ⟨b, hb, _⟩ := place_bombs_ok_of_covers bombs (board_ n n) (covers_board_square n) hin
    refine ⟨b, ?_⟩
    unfold Minesweeper.new insert_bombs
    rw [if_neg (by simpa using hlen), if_neg (by
      intro h
      apply h
      intro p hp
      exact hin p hp)]
    exact hb

/-- Witness of C13 on a square board: the list with a repeated position
passes both checks of the 3 x 3 board and gets a board. -/
theorem duplicate_mines_accepted_witness :
    ([(0, 0), (0, 0)] : List Position).length < 3 * 3 ∧
    (∀ p ∈ ([(0, 0), (0, 0)] : List Position), inBounds 3 3 p) ∧
    ∃ b, Minesweeper.new 3 3 [(0, 0), (0, 0)] = Run.ok b :=
  ⟨by decide, by decide,
    duplicate_mines_accepted.2.1 3 [(0, 0), (0, 0)] (by decide) (by decide)⟩

/-! ### Clicks after a lost game, the scenario of `main`, the text of a cell -/

/-- C14 (terminal state), as stated, fails: on the 3 x 3 board with the mine
`(0, 0)` the click on the mine answers `LOSE`, and the next click, on
`(1, 1)`, answers `IN_PROGRESS` and reveals that cell. -/
theorem click_after_lose_reveals :
    click 3 3 0 (0, 0) corner_board
      = Run.ok (ClickResult.LOSE, writeCell corner_board 0 0 ⟨Cell.BOMB, true⟩) ∧
    is_revealed_at (writeCell corner_board 0 0 ⟨Cell.BOMB, true⟩) (1, 1) = false ∧
    ∃ b2, click 3 3 1 (1, 1) (writeCell corner_board 0 0 ⟨Cell.BOMB, true⟩)
        = Run.ok (ClickResult.IN_PROGRESS, b2) ∧
      is_revealed_at b2 (1, 1) = true := by
  refine ⟨by decide, by decide,
    writeCell (writeCell corner_board 0 0 ⟨Cell.BOMB, true⟩) 1 1 ⟨1, true⟩,
    by decide, by decide⟩

/-- C14 as the code has it: `click` keeps no record of a lost game.  After
a click that answered `LOSE`, a later click that returns leaves the board
as it is exactly when it fails the bounds check or hits a revealed cell;
on the lost mine itself it answers `IN_PROGRESS`; on a hidden cell it
reveals that cell. -/
theorem click_after_lose (R C fuel fuel2 : Nat) (p q : Position) (b b1 b2 : Board)
    (r2 : ClickResult) (h1 : click R C fuel p b = Run.ok (ClickResult.LOSE, b1))
    (h2 : click R C fuel2 q b1 = Run.ok (r2, b2)) :
    (b2 = b1 ↔ ((q.1 > R ∨ q.2 > C) ∨ is_revealed_at b1 q = true)) ∧
    (q = p → r2 = ClickResult.IN_PROGRESS ∧ b2 = b1) ∧
    (¬ (q.1 > R ∨ q.2 > C) → is_revealed_at b1 q = false →
      is_revealed_at b2 q = true) := by
  have hrev : ¬ (q.1 > R ∨ q.2 > C) → is_revealed_at b2 q = true := by
    intro hg
    obtain ⟨c, hc, hcr⟩ := click_reveals_clicked h2 hg
    unfold is_revealed_at
    rw [hc]
    exact hcr
  have hnoop : ((q.1 > R ∨ q.2 > C) ∨ is_revealed_at b1 q = true) → b2 = b1 := by
    intro hcond
    rcases click_cases h2 with ⟨_, _, hb⟩ | ⟨hg, c, hc, hcase⟩
    · exact hb
    · rcases hcond with hcond | hcond
      · exact absurd hcond hg
      · unfold is_revealed_at at hcond
        rw [hc] at hcond
        simp only at hcond
        rcases hcase with ⟨_, _, hb⟩ | ⟨hf, _, _, _⟩ | ⟨hf, _, _, _⟩
        · exact hb
        · rw [hcond] at hf; cases hf
        · rw [hcond] at hf; cases hf
  refine ⟨⟨?_, hnoop⟩, ?_, ?_⟩
  · intro hb
    by_cases hg : q.1 > R ∨ q.2 > C
    · left; exact hg
    · right
      rw [← hb]
      exact hrev hg
  · intro hqp
    subst hqp
    have hg : ¬ (q.1 > R ∨ q.2 > C) := by
      rcases click_cases h1 with ⟨_, hr, _⟩ | ⟨hg, _⟩
      · cases hr
      · exact hg
    obtain ⟨c, hc, hcr⟩ := click_reveals_clicked h1 hg
    have := click_of_revealed (R := R) (C := C) fuel2 (by omega) hc hcr
    rw [this] at h2
    cases h2
    exact ⟨rfl, rfl⟩
  · intro hg _
    exact hrev hg

/-- Witness of C14 as the code has it: the 3 x 3 board, the click on the
mine `(0, 0)`, then the click on the hidden cell `(1, 1)`. -/
theorem click_after_lose_witness :
    click 3 3 0 (0, 0) corner_board
      = Run.ok (ClickResult.LOSE, writeCell corner_board 0 0 ⟨Cell.BOMB, true⟩) ∧
    click 3 3 1 (1, 1) (writeCell corner_board 0 0 ⟨Cell.BOMB, true⟩)
      = Run.ok (ClickResult.IN_PROGRESS,
          writeCell (writeCell corner_board 0 0 ⟨Cell.BOMB, true⟩) 1 1 ⟨1, true⟩) ∧
    is_revealed_at
      (writeCell (writeCell corner_board 0 0 ⟨Cell.BOMB, true⟩) 1 1 ⟨1, true⟩) (1, 1) = true :=
  ⟨by decide, by decide,
    (click_after_lose 3 3 0 1 (0, 0) (1, 1) corner_board
      (writeCell corner_board 0 0 ⟨Cell.BOMB, true⟩)
      (writeCell (writeCell corner_board 0 0 ⟨Cell.BOMB, true⟩) 1 1 ⟨1, true⟩)
      ClickResult.IN_PROGRESS (by decide) (by decide)).2.2 (by decide) (by decide)⟩

/-- C17 (display masking): the text of a hidden cell is `-` whatever its
value; the text of a revealed cell is `X` for a mine, a blank for `SPACE`
and the decimal numeral for a count from 1 to 8; this holds of `to_string`
of both source files.  The unmasked text (`apply_revealed = false`, resp.
`force_reveal = true`) is the text of the same value when revealed. -/
theorem to_string_masks (c : Cell) :
    (c.is_revealed = false →
      c.to_string true = "-" ∧ NoClick.to_string c false = "-") ∧
    (c.is_revealed = true → c.value = Cell.BOMB →
      c.to_string true = "X" ∧ NoClick.to_string c false = "X") ∧
    (c.is_revealed = true → c.value = Cell.SPACE →
      c.to_string true = " " ∧ NoClick.to_string c false = " ") ∧
    (c.is_revealed = true → ∀ n : Nat, 1 ≤ n → n ≤ 8 → c.value = (n : Int) →
      c.to_string true = toString n ∧ NoClick.to_string c false = toString n ∧
      toString n = String.singleton (Char.ofNat (48 + n))) ∧
    c.to_string false = (⟨c.value, true⟩ : Cell).to_string true ∧
    NoClick.to_string c true = NoClick.to_string ⟨c.value, true⟩ false := by
  obtain ⟨v, f⟩ := c
  refine ⟨?_, ?_, ?_, ?_, ?_, ?_⟩
  · intro hf
    simp only at hf
    subst hf
    exact ⟨rfl, rfl⟩
  · intro hf hv
    simp only at hf hv
    subst hf; subst hv
    exact ⟨rfl, rfl⟩
  · intro hf hv
    simp only at hf hv
    subst hf; subst hv
    exact ⟨rfl, rfl⟩
  · intro hf n h1 h2 hv
    simp only at hf hv
    subst hf; subst hv
    interval_cases n <;> exact ⟨rfl, rfl, rfl⟩
  · simp [Cell.to_string]
  · simp [NoClick.to_string]

/-- Witness of C17: the revealed cell with the value 3 and the hidden mine. -/
theorem to_string_masks_witness :
    (Cell.to_string ⟨3, true⟩ true = "3" ∧ NoClick.to_string ⟨3, true⟩ false = "3") ∧
    (Cell.to_string ⟨Cell.BOMB, false⟩ true = "-" ∧
      NoClick.to_string ⟨Cell.BOMB, false⟩ false = "-") ∧
    (Cell.to_string ⟨Cell.BOMB, true⟩ true = "X" ∧
      NoClick.to_string ⟨Cell.BOMB, true⟩ false = "X") :=
  ⟨⟨((to_string_masks ⟨3, true⟩).2.2.2.1 rfl 3 (by decide) (by decide) rfl).1,
    ((to_string_masks ⟨3, true⟩).2.2.2.1 rfl 3 (by decide) (by decide) rfl).2.1⟩,
   (to_string_masks ⟨Cell.BOMB, false⟩).1 rfl,
   (to_string_masks ⟨Cell.BOMB, true⟩).2.1 rfl rfl⟩

/-! ### The storage and the grid; the positions of a visit -/

theorem readCell_board_iff {R C i j : Nat} :
    (∃ c, readCell (board_ R C) i j = Run.ok c) ↔ (i < C ∧ j < R) := by
  constructor
  · rintro ⟨c, hc⟩
    obtain ⟨inner, hb, hj⟩ := readCell_eq_ok.1 hc
    unfold board_ at hb
    rcases List.getElem?_eq_some_iff.1 hb with ⟨hi, hb2⟩
    rw [List.getElem_replicate] at hb2
    subst hb2
    rcases List.getElem?_eq_some_iff.1 hj with ⟨hj2, _⟩
    exact ⟨by simpa using hi, by simpa using hj2⟩
  · rintro ⟨hi, hj⟩
    refine ⟨⟨0, false⟩, readCell_eq_ok.2 ⟨List.replicate R ⟨0, false⟩, ?_, ?_⟩⟩
    · unfold board_
      rw [List.getElem?_eq_some_iff]
      exact ⟨by simpa using hi, by simp⟩
    · rw [List.getElem?_eq_some_iff]
      exact ⟨by simpa using hj, by simp⟩

/-- The declared storage holds every cell of the grid exactly when the
board is square (or has no cell at all). -/
theorem covers_declared_iff (R C : Nat) :
    Covers R C (board_ R C) ↔ (R = C ∨ R = 0 ∨ C = 0) := by
  constructor
  · intro hcov
    by_contra hcon
    have hR : 0 < R := by omega
    have hC : 0 < C := by omega
    rcases Nat.lt_or_gt_of_ne (fun e => hcon (Or.inl e)) with hlt | hgt
    · obtain ⟨c, hc⟩ := covers_read hcov (x := (0, C - 1)) ⟨hR, by simp only; omega⟩
      have := (readCell_board_iff.1 ⟨c, hc⟩).2
      simp only at this
      omega
    · obtain ⟨c, hc⟩ := covers_read hcov (x := (R - 1, 0)) ⟨by simp only; omega, hC⟩
      have := (readCell_board_iff.1 ⟨c, hc⟩).1
      simp only at this
      omega
  · rintro (h | h | h)
    · subst h; exact covers_board_square R
    · subst h; intro i hi; omega
    · subst h; intro i _ j hj; omega

/-- C20 (index safety), as the code has it: the declared storage has a
cell at `board_[i][j]` exactly for `i < NumColsT` and `j < NumRowsT`, so it
holds every cell of the grid only on square boards.  On the 5 x 7 board the
position `(0, 5)` of the grid has no cell: `insert_bombs` for the mine
`(0, 5)`, `click` on `(0, 5)` and the visit around `(0, 4)` each make an
access out of range, and so does the 7 x 5 board at `(5, 0)`. -/
theorem storage_misses_grid_cells :
    (∀ R C i j : Nat, (∃ c, readCell (board_ R C) i j = Run.ok c) ↔ (i < C ∧ j < R)) ∧
    (∀ R C : Nat, Covers R C (board_ R C) ↔ (R = C ∨ R = 0 ∨ C = 0)) ∧
    inBounds 5 7 (0, 5) ∧ readCell (board_ 5 7) 0 5 = Run.fault Fault.out_of_range ∧
    Minesweeper.new 5 7 [(0, 5)] = Run.fault Fault.out_of_range ∧
    (∀ fuel, click 5 7 fuel (0, 5) game_board = Run.fault Fault.out_of_range) ∧
    inBounds 5 7 (0, 4) ∧
    visit_surrounding_cells 5 7 (0, 4) enqueue (game_board, [])
      = Run.fault Fault.out_of_range ∧
    inBounds 7 5 (5, 0) ∧ readCell (board_ 7 5) 5 0 = Run.fault Fault.out_of_range := by
  refine ⟨fun R C i j => readCell_board_iff, covers_declared_iff, by decide, by decide,
    by decide, fun fuel => rfl, by decide, by decide, by decide, by decide⟩

theorem visit_list_record {xs : List Position} {b : Board} {log : List Position}
    {st : Board × List Position} (h : visit_list record xs (b, log) = Run.ok st) :
    st = (b, log ++ xs) := by
  induction xs generalizing log with
  | nil =>
    simp only [visit_list] at h
    cases h
    simp
  | cons x xs ih =>
    simp only [visit_list] at h
    cases hr : readCell b x.1 x.2 with
    | fault e => rw [hr] at h; cases h
    | ok c =>
      rw [hr] at h
      simp only [record] at h
      rw [writeCell_self hr] at h
      rw [ih h, List.append_assoc]
      rfl

theorem visit_list_record_ok {xs : List Position} {b : Board} (log : List Position)
    (h : ∀ x ∈ xs, ∃ c, readCell b x.1 x.2 = Run.ok c) :
    visit_list record xs (b, log) = Run.ok (b, log ++ xs) := by
  induction xs generalizing log with
  | nil => simp [visit_list]
  | cons x xs ih =>
    obtain ⟨c, hr⟩ := h x (List.mem_cons_self _ _)
    simp only [visit_list]
    rw [hr]
    simp only [record]
    rw [writeCell_self hr, ih _ (fun y hy => h y (List.mem_cons_of_mem _ hy)),
      List.append_assoc]
    rfl

theorem target_isSome (R C : Nat) (p : Position) (d : Int × Int) :
    (target R C p d).isSome = decide (¬ (p.1 = 0 ∧ d.1 < 0) ∧ ¬ (p.2 = 0 ∧ d.2 < 0) ∧
      ¬ (p.1 + 1 = R ∧ d.1 > 0) ∧ ¬ (p.2 + 1 = C ∧ d.2 > 0)) := by
  unfold target
  split_ifs <;> simp_all

theorem targets_length_eq_countP (R C : Nat) (p : Position) (l : List (Int × Int)) :
    (targets R C p l).length = l.countP (fun d => (target R C p d).isSome) := by
  induction l with
  | nil => rfl
  | cons d l ih =>
    unfold targets at ih ⊢
    rw [List.filterMap_cons, List.countP_cons]
    cases h : target R C p d with
    | none => simp [ih]
    | some x => simp [ih]

/-- Number of positions of a visit: the rows times the columns at hand,
less the cell itself. -/
theorem targets_length (R C : Nat) (p : Position) :
    (targets R C p SURROUNDING_DX_DY).length + 1
      = (3 - row_borders R p) * (3 - col_borders C p) := by
  rw [targets_length_eq_countP]
  simp only [target_isSome, SURROUNDING_DX_DY, List.countP_cons, List.countP_nil]
  unfold row_borders col_borders
  by_cases h1 : p.1 = 0 <;> by_cases h2 : p.2 = 0 <;> by_cases h3 : p.1 + 1 = R <;>
    by_cases h4 : p.2 + 1 = C <;> simp [h1, h2, h3, h4] <;> (split_ifs <;> omega)

theorem adjacent_iff_offset (p x : Position) :
    adjacent p x ↔ ∃ dx dy : Int, (dx ≠ 0 ∨ dy ≠ 0) ∧ -1 ≤ dx ∧ dx ≤ 1 ∧ -1 ≤ dy ∧ dy ≤ 1 ∧
      (x.1 : Int) = p.1 + dx ∧ (x.2 : Int) = p.2 + dy := by
  obtain ⟨r, c⟩ := p
  obtain ⟨a, b⟩ := x
  unfold adjacent
  simp only [ne_eq, Prod.mk.injEq]
  constructor
  · intro h
    exact ⟨(a : Int) - r, (b : Int) - c, by omega, by omega, by omega, by omega, by omega,
      by omega, by omega⟩
  · rintro ⟨dx, dy, h1, h2, h3, h4, h5, h6, h7⟩
    omega

/-- C18 (neighbour enumeration): from a position of the grid the visit
selects, once each, exactly the positions `(row + dx, col + dy)` of the
grid with `dx, dy` from -1 to 1, not both 0, and calls the callback on
them in its order: so does every visit that returns, and every visit
returns when all cells of the grid are in the storage.  Their number is 8
in the interior, 5 on one border, 3 in a corner. -/
theorem visit_enumerates_neighbours (R C : Nat) (p : Position) (hp : inBounds R C p) :
    (targets R C p SURROUNDING_DX_DY).Perm (neighbours R C p) ∧
    (∀ x, x ∈ neighbours R C p ↔ (inBounds R C x ∧
      ∃ dx dy : Int, (dx ≠ 0 ∨ dy ≠ 0) ∧ -1 ≤ dx ∧ dx ≤ 1 ∧ -1 ≤ dy ∧ dy ≤ 1 ∧
        (x.1 : Int) = p.1 + dx ∧ (x.2 : Int) = p.2 + dy)) ∧
    (∀ (b : Board) (log : List Position) (st : Board × List Position),
      visit_surrounding_cells R C p record (b, log) = Run.ok st →
        st = (b, log ++ targets R C p SURROUNDING_DX_DY)) ∧
    (∀ (b : Board) (log : List Position), Covers R C b →
      visit_surrounding_cells R C p record (b, log)
        = Run.ok (b, log ++ targets R C p SURROUNDING_DX_DY)) ∧
    (neighbours R C p).length + 1 = (3 - row_borders R p) * (3 - col_borders C p) ∧
    (row_borders R p = 0 → col_borders C p = 0 → (neighbours R C p).length = 8) ∧
    (row_borders R p + col_borders C p = 1 → (neighbours R C p).length = 5) ∧
    (row_borders R p = 1 → col_borders C p = 1 → (neighbours R C p).length = 3) := by
  have hperm := targets_perm_neighbours hp
  have hlen : (neighbours R C p).length + 1 = (3 - row_borders R p) * (3 - col_borders C p) := by
    rw [← hperm.length_eq]
    exact targets_length R C p
  refine ⟨hperm, ?_, ?_, ?_, hlen, ?_, ?_, ?_⟩
  · intro x
    rw [mem_neighbours, adjacent_iff_offset]
  · intro b log st h
    unfold visit_surrounding_cells at h
    rw [visit_offsets_eq_visit_list] at h
    exact visit_list_record h
  · intro b log hcov
    unfold visit_surrounding_cells
    rw [visit_offsets_eq_visit_list]
    exact visit_list_record_ok log (fun x hx => covers_read hcov (targets_inBounds hp hx))
  · intro h1 h2
    rw [h1, h2] at hlen
    omega
  · intro h
    have h1 : row_borders R p = 0 ∧ col_borders C p = 1 ∨
        row_borders R p = 1 ∧ col_borders C p = 0 := by omega
    rcases h1 with ⟨h1, h2⟩ | ⟨h1, h2⟩ <;> (rw [h1, h2] at hlen; omega)
  · intro h1 h2
    rw [h1, h2] at hlen
    omega

/-- Witness of C18: the corner `(0, 0)` of the 3 x 3 board; the visit
calls the callback on `(1, 1)`, `(1, 0)`, `(0, 1)`. -/
theorem visit_enumerates_neighbours_witness :
    inBounds 3 3 (0, 0) ∧
    visit_surrounding_cells 3 3 (0, 0) record (corner_board, [])
      = Run.ok (corner_board, [(1, 1), (1, 0), (0, 1)]) ∧
    (neighbours 3 3 (0, 0)).length = 3 :=
  ⟨by decide,
    (visit_enumerates_neighbours 3 3 (0, 0) (by decide)).2.2.2.1 corner_board []
      (by decide),
    (visit_enumerates_neighbours 3 3 (0, 0) (by decide)).2.2.2.2.2.2.2 (by decide)
      (by decide)⟩

/-! ### The pushes of the flood fill -/

theorem flood_body_keeps_fault {R C : Nat} {p : Position} {rest : List Position} {b : Board}
    {st : Board × List Position} (h : flood_body R C p rest b = Run.ok st)
    {i j : Nat} {e : Fault} (hr : readCell b i j = Run.fault e) :
    readCell st.1 i j = Run.fault e := by
  obtain ⟨c, hc, hcase⟩ := flood_body_cases h
  have hne : (p.1, p.2) ≠ (i, j) := by
    intro e2
    rw [(Prod.mk.inj e2).1, (Prod.mk.inj e2).2, hr] at hc
    cases hc
  rcases hcase with ⟨_, hst⟩ | ⟨_, _, hst⟩ | ⟨_, _, hst⟩
  · rw [hst]; exact hr
  · rw [hst]; simp only; rw [readCell_writeCell_other hne]; exact hr
  · rw [hst]; simp only; rw [readCell_writeCell_other hne]; exact hr

/-- A cell that can be pushed after an iteration could be pushed before
it. -/
theorem pushable_before_body {R C : Nat} {p : Position} {rest : List Position} {b : Board}
    {st : Board × List Position} (h : flood_body R C p rest b = Run.ok st) {y : Position}
    (hy : pushable st.1 y = true) : pushable b y = true := by
  unfold pushable at hy ⊢
  cases hr : readCell b y.1 y.2 with
  | fault e =>
    rw [flood_body_keeps_fault h hr] at hy
    cases hy
  | ok d =>
    rcases flood_body_frame h hr with h1 | ⟨_, _, h1⟩
    · rw [h1] at hy; exact hy
    · rw [h1] at hy; simp at hy

/-- The position taken from the queue cannot be pushed after the
iteration: it is a mine or revealed. -/
theorem popped_not_pushable {R C : Nat} {p : Position} {rest : List Position} {b : Board}
    {st : Board × List Position} (h : flood_body R C p rest b = Run.ok st) :
    pushable st.1 p = false := by
  obtain ⟨c, hc, hcase⟩ := flood_body_cases h
  have hw : readCell (writeCell b p.1 p.2 ⟨c.value, true⟩) p.1 p.2 = Run.ok ⟨c.value, true⟩ :=
    readCell_writeCell_same hc
  unfold pushable
  rcases hcase with ⟨hbm, hst⟩ | ⟨_, _, hst⟩ | ⟨_, _, hst⟩
  · rw [hst]; simp only; rw [hc]; simp [hbm]
  · rw [hst]; simp only; rw [hw]; simp
  · rw [hst]; simp only; rw [hw]; simp

/-- The positions pushed in an iteration lie around the position taken from
the queue and can be pushed in the board that the iteration leaves. -/
theorem pushed_in_body {R C : Nat} {p : Position} {rest : List Position} {b : Board}
    {st : Board × List Position} (h : flood_body R C p rest b = Run.ok st) {y : Position}
    (hy : y ∈ st.2.drop rest.length) :
    y ∈ targets R C p SURROUNDING_DX_DY ∧ pushable st.1 y = true := by
  obtain ⟨c, hc, hcase⟩ := flood_body_cases h
  rcases hcase with ⟨_, hst⟩ | ⟨_, _, hst⟩ | ⟨_, _, hst⟩
  · rw [hst] at hy; simp at hy
  · rw [hst] at hy; simp at hy
  · rw [hst] at hy ⊢
    simp only [List.drop_left] at hy
    exact ⟨(List.mem_filter.1 hy).1, (List.mem_filter.1 hy).2⟩

/-- The trace of the loop: every position pushed was hidden and no mine in
the board at the start and lies around the position taken from the queue in
that iteration; no position is pushed in the iteration that took it from
the queue, nor in a later one. -/
theorem flood_rounds_spec {R C : Nat} :
    ∀ (fuel : Nat) (q : List Position) (b : Board),
      (∀ r ∈ flood_rounds R C fuel q b, ∀ y ∈ r.2,
        pushable b y = true ∧ adjacent r.1 y ∧ y ≠ r.1) ∧
      (flood_rounds R C fuel q b).Pairwise (fun r1 r2 => r1.1 ∉ r2.2) := by
  intro fuel
  induction fuel with
  | zero => intro q b; simp [flood_rounds]
  | succ n ih =>
    intro q b
    cases q with
    | nil => simp [flood_rounds]
    | cons p rest =>
      simp only [flood_rounds]
      cases hb : flood_body R C p rest b with
      | fault e => simp
      | ok st =>
        simp only
        have hhead : ∀ y ∈ st.2.drop rest.length,
            pushable b y = true ∧ adjacent p y ∧ y ≠ p := by
          intro y hy
          obtain ⟨ht, hp⟩ := pushed_in_body hb hy
          refine ⟨pushable_before_body hb hp, targets_adjacent ht, ?_⟩
          intro e
          rw [e, popped_not_pushable hb] at hp
          cases hp
        have htail : ∀ tail : List (Position × List Position),
            ((∀ r ∈ tail, ∀ y ∈ r.2, pushable st.1 y = true ∧ adjacent r.1 y ∧ y ≠ r.1) ∧
              tail.Pairwise (fun r1 r2 => r1.1 ∉ r2.2)) →
            (∀ r ∈ (p, st.2.drop rest.length) :: tail, ∀ y ∈ r.2,
              pushable b y = true ∧ adjacent r.1 y ∧ y ≠ r.1) ∧
            ((p, st.2.drop rest.length) :: tail).Pairwise (fun r1 r2 => r1.1 ∉ r2.2) := by
          rintro tail ⟨h1, h2⟩
          refine ⟨?_, List.pairwise_cons.2 ⟨?_, h2⟩⟩
          · intro r hr y hy
            rcases List.mem_cons.1 hr with e | hr2
            · subst e; exact hhead y hy
            · obtain ⟨ha, hb2, hc⟩ := h1 r hr2 y hy
              exact ⟨pushable_before_body hb ha, hb2, hc⟩
          · intro r hr hmem
            have := (h1 r hr p hmem).1
            rw [popped_not_pushable hb] at this
            cases this
        split_ifs with he
        · exact htail [] ⟨by simp, List.Pairwise.nil⟩
        · exact htail _ (ih st.2 st.1)

/-- C11 (enqueue at most once), as stated, fails: on the 3 x 3 board built
from the mine `(0, 0)` the click on `(2, 2)`, a hidden cell of the grid
that is no mine, returns after 11 pushes onto the queue for 8 cells:
`(2, 1)`, `(1, 0)` and `(2, 0)` are pushed twice. -/
theorem a_position_is_pushed_twice :
    Minesweeper.new 3 3 [(0, 0)] = Run.ok corner_board ∧ inBounds 3 3 (2, 2) ∧
    is_mine corner_board (2, 2) = false ∧
    click 3 3 11 (2, 2) corner_board = Run.ok (ClickResult.IN_PROGRESS, corner_board_cleared) ∧
    click_pushes 3 3 11 (2, 2) corner_board
      = [(2, 2), (1, 1), (1, 2), (2, 1), (0, 1), (0, 2), (2, 1), (1, 0), (2, 0), (1, 0),
          (2, 0)] ∧
    ¬ (click_pushes 3 3 11 (2, 2) corner_board).Nodup := by
  refine ⟨by decide, by decide, by decide, by decide, by decide, by decide⟩

/-- C11 as the code has it: the callback tests the flag when it pushes and
the flag is set when the position is taken from the queue.  So every
position that the callback pushes during a click was hidden and no mine
before the click, lies around the position taken from the queue in that
iteration, and is neither that position nor the clicked one; and no
position is pushed once it has been taken from the queue. -/
theorem pushes_are_hidden_cells (R C fuel : Nat) (p : Position) (b : Board) :
    (∀ r ∈ click_rounds R C fuel p b, ∀ y ∈ r.2,
      pushable b y = true ∧ adjacent r.1 y ∧ y ≠ r.1 ∧ y ≠ p) ∧
    (click_rounds R C fuel p b).Pairwise (fun r1 r2 => r1.1 ∉ r2.2) := by
  unfold click_rounds
  split_ifs with hg
  · simp
  · cases hc : readCell b p.1 p.2 with
    | fault e => simp
    | ok c =>
      simp only
      split_ifs with h1 h2
      · simp
      · simp
      · obtain ⟨hall, hpair⟩ := flood_rounds_spec (R := R) (C := C) fuel [p]
          (writeCell b p.1 p.2 ⟨c.value, true⟩)
        refine ⟨?_, hpair⟩
        intro r hr y hy
        obtain ⟨ha, hb, hc2⟩ := hall r hr y hy
        have hyp : y ≠ p := by
          intro e
          subst e
          unfold pushable at ha
          rw [readCell_writeCell_same hc] at ha
          simp at ha
        refine ⟨?_, hb, hc2, hyp⟩
        unfold pushable at ha ⊢
        have hne : (p.1, p.2) ≠ (y.1, y.2) := by
          intro e
          apply hyp
          exact (Prod.ext (Prod.mk.inj e).1 (Prod.mk.inj e).2).symm
        rw [readCell_writeCell_other hne] at ha
        exact ha

/-! ### The flood fill over an arbitrary table of offsets -/

theorem flood_body_with_std (R C : Nat) (p : Position) (rest : List Position) (b : Board) :
    flood_body_with SURROUNDING_DX_DY R C p rest b = flood_body R C p rest b := rfl

theorem flood_with_std (R C : Nat) :
    ∀ (fuel : Nat) (q : List Position) (b : Board),
      flood_with SURROUNDING_DX_DY R C fuel q b = flood R C fuel q b := by
  intro fuel
  induction fuel with
  | zero => intro q b; rfl
  | succ n ih =>
    intro q b
    cases q with
    | nil => rfl
    | cons p rest =>
      simp only [flood_with, flood, flood_body_with_std]
      cases flood_body R C p rest b with
      | fault e => rfl
      | ok st => simp only [ih]

theorem click_with_std (R C fuel : Nat) (p : Position) (b : Board) :
    click_with SURROUNDING_DX_DY R C fuel p b = click R C fuel p b := by
  unfold click_with click
  simp only [flood_with_std]

/-- A visit that runs through has read every position of its list. -/
theorem visit_list_enqueue_reads {xs : List Position} {b : Board} {q : List Position}
    {st : Board × List Position} (h : visit_list enqueue xs (b, q) = Run.ok st) :
    ∀ x ∈ xs, ∃ c, readCell b x.1 x.2 = Run.ok c := by
  induction xs generalizing q with
  | nil => intro x hx; cases hx
  | cons y ys ih =>
    intro x hx
    simp only [visit_list] at h
    cases hr : readCell b y.1 y.2 with
    | fault e => rw [hr] at h; cases h
    | ok c =>
      rw [hr] at h
      simp only at h
      rw [enqueue_fst, writeCell_self hr] at h
      rcases List.mem_cons.1 hx with e | hx2
      · rw [e]; exact ⟨c, hr⟩
      · exact ih h x hx2

/-- What one iteration of the loop does to the board and to the queue, for
any table of offsets. -/
theorem flood_body_with_cases {offs : List (Int × Int)} {R C : Nat} {p : Position}
    {rest : List Position} {b : Board} {st : Board × List Position}
    (h : flood_body_with offs R C p rest b = Run.ok st) :
    ∃ c, readCell b p.1 p.2 = Run.ok c ∧
      ((c.value = Cell.BOMB ∧ st = (b, rest)) ∨
       (c.value ≠ Cell.BOMB ∧ c.value ≠ Cell.SPACE ∧
          st = (writeCell b p.1 p.2 ⟨c.value, true⟩, rest)) ∨
       (c.value ≠ Cell.BOMB ∧ c.value = Cell.SPACE ∧
          st = (writeCell b p.1 p.2 ⟨c.value, true⟩,
            rest ++ (targets R C p offs).filter
              (pushable (writeCell b p.1 p.2 ⟨c.value, true⟩))) ∧
          ∀ z ∈ targets R C p offs,
            ∃ cz, readCell (writeCell b p.1 p.2 ⟨c.value, true⟩) z.1 z.2 = Run.ok cz)) := by
  unfold flood_body_with at h
  cases hr : readCell b p.1 p.2 with
  | fault e => rw [hr] at h; cases h
  | ok c =>
    rw [hr] at h
    refine ⟨c, rfl, ?_⟩
    simp only at h
    split_ifs at h with h1 h2
    · left; cases h; exact ⟨h1, rfl⟩
    · right; right
      rw [visit_offsets_eq_visit_list] at h
      exact ⟨h1, h2, visit_list_enqueue h, visit_list_enqueue_reads h⟩
    · right; left; cases h; exact ⟨h1, h2, rfl⟩

/-- A store keeps every place that can be read readable. -/
theorem readCell_writeCell_ok {b : Board} {i j i2 j2 : Nat} {c d : Cell}
    (h : readCell b i2 j2 = Run.ok c) : ∃ c2, readCell (writeCell b i j d) i2 j2 = Run.ok c2 := by
  by_cases hp : (i, j) = (i2, j2)
  · have e1 : i2 = i := by rw [← (Prod.mk.inj hp).1]
    have e2 : j2 = j := by rw [← (Prod.mk.inj hp).2]
    subst e1; subst e2
    exact ⟨d, readCell_writeCell_same h⟩
  · exact ⟨c, by rw [readCell_writeCell_other hp]; exact h⟩

/-- An iteration runs through when the position taken from the queue can be
read and, if it is a `SPACE`, the positions around it can. -/
theorem flood_body_with_ok {offs : List (Int × Int)} {R C : Nat} {p : Position}
    (rest : List Position) {b : Board} {c : Cell} (hc : readCell b p.1 p.2 = Run.ok c)
    (hz : c.value = Cell.SPACE → ∀ z ∈ targets R C p offs, ∃ cz, readCell b z.1 z.2 = Run.ok cz) :
    ∃ st, flood_body_with offs R C p rest b = Run.ok st := by
  unfold flood_body_with
  rw [hc]
  simp only
  split_ifs with h1 h2
  · exact ⟨_, rfl⟩
  · rw [visit_offsets_eq_visit_list]
    refine ⟨_, visit_list_enqueue_ok rest ?_⟩
    intro x hx
    obtain ⟨cz, hcz⟩ := hz h2 x hx
    exact readCell_writeCell_ok hcz
  · exact ⟨_, rfl⟩

theorem flood_body_with_fault {offs : List (Int × Int)} {R C : Nat} {p : Position}
    {rest : List Position} {b : Board} {e : Fault}
    (h : flood_body_with offs R C p rest b = Run.fault e) : e = Fault.out_of_range := by
  unfold flood_body_with at h
  cases hr : readCell b p.1 p.2 with
  | fault e2 =>
    rw [hr] at h
    cases h
    exact readCell_fault_kind hr
  | ok c =>
    rw [hr] at h
    simp only at h
    split_ifs at h
    · rw [visit_offsets_eq_visit_list] at h
      exact visit_list_fault _ _ _ h

/-- Invariants of the loop carry over to its result, for any table of
offsets. -/
theorem flood_with_induct (offs : List (Int × Int)) (R C : Nat)
    (Inv : List Position → Board → Prop)
    (hstep : ∀ p rest b st, Inv (p :: rest) b →
      flood_body_with offs R C p rest b = Run.ok st → Inv st.2 st.1) :
    ∀ (fuel : Nat) (q : List Position) (b b2 : Board),
      Inv q b → flood_with offs R C fuel q b = Run.ok b2 → Inv [] b2 := by
  intro fuel
  induction fuel with
  | zero => intro q b b2 _ h; simp [flood_with] at h
  | succ n ih =>
    intro q b b2 hinv h
    cases q with
    | nil => simp [flood_with] at h
    | cons p rest =>
      simp only [flood_with] at h
      cases hb : flood_body_with offs R C p rest b with
      | fault e => rw [hb] at h; cases h
      | ok st =>
        rw [hb] at h
        simp only at h
        have hst := hstep p rest b st hinv hb
        split_ifs at h with he
        · cases h
          have : st.2 = [] := by simpa using he
          rw [this] at hst; exact hst
        · exact ih _ _ _ hst h

/-- The loop ends with a board, with an access out of range, or without
fuel. -/
theorem flood_with_fault_kind {offs : List (Int × Int)} {R C : Nat} :
    ∀ (fuel : Nat) (q : List Position) (b : Board) (e : Fault),
      flood_with offs R C fuel q b = Run.fault e →
      e = Fault.out_of_range ∨ e = Fault.out_of_fuel := by
  intro fuel
  induction fuel with
  | zero => intro q b e h; simp only [flood_with] at h; cases h; right; rfl
  | succ n ih =>
    intro q b e h
    cases q with
    | nil => simp only [flood_with] at h; cases h; left; rfl
    | cons p rest =>
      simp only [flood_with] at h
      cases hb : flood_body_with offs R C p rest b with
      | fault e2 =>
        rw [hb] at h
        cases h
        left
        exact flood_body_with_fault hb
      | ok st =>
        rw [hb] at h
        simp only at h
        split_ifs at h with he
        exact ih _ _ _ h

/-- More fuel does not change a run that had enough, for any table of
offsets. -/
theorem flood_with_fuel_mono {offs : List (Int × Int)} {R C : Nat} (k : Nat) :
    ∀ (fuel : Nat) (q : List Position) (b : Board),
      flood_with offs R C fuel q b ≠ Run.fault Fault.out_of_fuel →
      flood_with offs R C (fuel + k) q b = flood_with offs R C fuel q b := by
  intro fuel
  induction fuel with
  | zero => intro q b h; simp [flood_with] at h
  | succ n ih =>
    intro q b h
    have e : n + 1 + k = (n + k) + 1 := by omega
    rw [e]
    cases q with
    | nil => simp [flood_with]
    | cons p rest =>
      simp only [flood_with] at h ⊢
      cases hb : flood_body_with offs R C p rest b with
      | fault e2 => rfl
      | ok st =>
        rw [hb] at h
        simp only at h ⊢
        split_ifs at h ⊢ with he
        · rfl
        · exact ih _ _ h

/-- The loop stops for any table of offsets: the measure is the number of
hidden cells that are no mines, then the place of the first such cell in
the queue. -/
theorem flood_with_halts (offs : List (Int × Int)) (R C : Nat) :
    ∀ (n k : Nat) (q : List Position) (b : Board),
      hidden_count b = n → q.findIdx (pushable b) = k →
      ∃ fuel, flood_with offs R C fuel q b ≠ Run.fault Fault.out_of_fuel := by
  intro n
  induction n using Nat.strong_induction_on with
  | _ n ihn =>
    intro k
    induction k using Nat.strong_induction_on with
    | _ k ihk =>
      intro q b hn hk
      cases q with
      | nil => exact ⟨1, by simp [flood_with]⟩
      | cons p rest =>
        cases hb : flood_body_with offs R C p rest b with
        | fault e =>
          refine ⟨1, ?_⟩
          simp only [flood_with, hb]
          rw [flood_body_with_fault hb]
          simp
        | ok st =>
          by_cases he : st.2.isEmpty = true
          · refine ⟨1, ?_⟩
            simp [flood_with, hb, he]
          · have next : ∃ fuel,
                flood_with offs R C fuel st.2 st.1 ≠ Run.fault Fault.out_of_fuel := by
              obtain ⟨c, hc, hcase⟩ := flood_body_with_cases hb
              have hpush : pushable b p = decide (c.value ≠ Cell.BOMB ∧ c.is_revealed = false) := by
                unfold pushable; rw [hc]
              by_cases hh : c.value ≠ Cell.BOMB ∧ c.is_revealed = false
              · have hlt : hidden_count st.1 < n := by
                  have hw := hidden_count_writeCell (d := ⟨c.value, true⟩) hc
                  have w1 : hidden_weight c = 1 := by unfold hidden_weight; rw [if_pos hh]
                  have w2 : hidden_weight ⟨c.value, true⟩ = 0 := by
                    unfold hidden_weight; simp
                  rcases hcase with ⟨hbm, _⟩ | ⟨_, _, hst⟩ | ⟨_, _, hst, _⟩
                  · exact absurd hbm hh.1
                  · rw [hst]; simp only; omega
                  · rw [hst]; simp only; omega
                exact ihn _ hlt _ _ _ rfl rfl
              · have hpf : pushable b p = false := by rw [hpush]; simpa using hh
                have hk2 : rest.findIdx (pushable b) < k := by
                  rw [← hk, List.findIdx_cons, hpf]; simp
                have hsame : c.value ≠ Cell.BOMB →
                    writeCell b p.1 p.2 ⟨c.value, true⟩ = b := by
                  intro hnb
                  have hrev : c.is_revealed = true := by
                    by_contra hcon
                    exact hh ⟨hnb, by simpa using hcon⟩
                  have : c = ⟨c.value, true⟩ := by cases c; simp_all
                  rw [← this]; exact writeCell_self hc
                rcases hcase with ⟨_, hst⟩ | ⟨hnb, _, hst⟩ | ⟨hnb, _, hst, _⟩
                · rw [hst]
                  exact ihk _ hk2 _ _ hn rfl
                · rw [hst, hsame hnb]
                  exact ihk _ hk2 _ _ hn rfl
                · rw [hst, hsame hnb]
                  refine ihk _ ?_ _ _ hn rfl
                  rw [findIdx_append_filter]
                  exact hk2
            obtain ⟨fuel, hf⟩ := next
            refine ⟨fuel + 1, ?_⟩
            simp only [flood_with, hb]
            rw [if_neg he]
            exact hf

theorem flood_with_halts_from (offs : List (Int × Int)) (R C : Nat) (q : List Position)
    (b : Board) :
    ∃ fuel, ∀ k, flood_with offs R C (fuel + k) q b ≠ Run.fault Fault.out_of_fuel := by
  obtain ⟨fuel, hf⟩ := flood_with_halts offs R C _ _ q b rfl rfl
  refine ⟨fuel, fun k => ?_⟩
  rw [flood_with_fuel_mono k fuel q b hf]
  exact hf

/-! ### Boards of the same shape -/

theorem shape_writeCell (b : Board) (i j : Nat) (c : Cell) :
    shape (writeCell b i j c) = shape b := by
  unfold writeCell shape
  cases hb : b[i]? with
  | none => rfl
  | some inner =>
    simp only
    apply List.ext_getElem?
    intro n
    by_cases hn : i = n
    · subst hn
      rcases List.getElem?_eq_some_iff.1 hb with ⟨hlt, _⟩
      rw [List.getElem?_map, List.getElem?_map, List.getElem?_set_self hlt, hb]
      simp
    · rw [List.getElem?_map, List.getElem?_map, List.getElem?_set_ne hn]

/-- Two boards of the same shape with the same cells are the same. -/
theorem board_ext {b b2 : Board} (hs : shape b = shape b2)
    (hr : ∀ i j, readCell b i j = readCell b2 i j) : b = b2 := by
  apply List.ext_getElem?
  intro i
  have hsi : (shape b)[i]? = (shape b2)[i]? := by rw [hs]
  unfold shape at hsi
  rw [List.getElem?_map, List.getElem?_map] at hsi
  cases h1 : b[i]? with
  | none =>
    cases h2 : b2[i]? with
    | none => rfl
    | some inner2 => rw [h1, h2] at hsi; cases hsi
  | some inner =>
    cases h2 : b2[i]? with
    | none => rw [h1, h2] at hsi; cases hsi
    | some inner2 =>
      rw [h1, h2] at hsi
      have hlen : inner.length = inner2.length := by simpa using hsi
      congr 1
      apply List.ext_getElem?
      intro j
      have hij := hr i j
      unfold readCell at hij
      rw [h1, h2] at hij
      simp only at hij
      cases h3 : inner[j]? with
      | none =>
        have : inner.length ≤ j := List.getElem?_eq_none_iff.1 h3
        exact (List.getElem?_eq_none_iff.2 (by omega)).symm
      | some c =>
        cases h4 : inner2[j]? with
        | none =>
          have h5 : inner2.length ≤ j := List.getElem?_eq_none_iff.1 h4
          rcases List.getElem?_eq_some_iff.1 h3 with ⟨hlt, _⟩
          omega
        | some c2 =>
          rw [h3, h4] at hij
          simp only at hij
          cases hij
          rfl

/-! ### The invariant of the flood fill -/

theorem pushable_iff {b : Board} {y : Position} :
    pushable b y = true ↔
      ∃ c, readCell b y.1 y.2 = Run.ok c ∧ c.value ≠ Cell.BOMB ∧ c.is_revealed = false := by
  unfold pushable
  cases hr : readCell b y.1 y.2 with
  | fault e => simp
  | ok c => simp

theorem is_revealed_at_iff {b : Board} {y : Position} :
    is_revealed_at b y = true ↔
      ∃ c, readCell b y.1 y.2 = Run.ok c ∧ c.is_revealed = true := by
  unfold is_revealed_at
  cases hr : readCell b y.1 y.2 with
  | fault e => simp
  | ok c => simp

theorem sweepInv_init (offs : List (Int × Int)) (R C : Nat) (b : Board) (q : List Position) :
    SweepInv offs R C b q q b := by
  refine ⟨rfl, fun _ _ _ h => h, fun _ _ _ h => Or.inl h, fun x hx => Swept.seed hx,
    fun x hx => Or.inl hx, ?_⟩
  intro y hp hr
  exfalso
  obtain ⟨c, hc, _, hh⟩ := pushable_iff.1 hp
  obtain ⟨c2, hc2, hr2⟩ := is_revealed_at_iff.1 hr
  rw [hc] at hc2
  cases hc2
  rw [hh] at hr2
  cases hr2

/-- A cell of the current board is a cell of the start board, with the
same value, and hidden there if it is hidden now. -/
theorem sweepInv_back {offs : List (Int × Int)} {R C : Nat} {b : Board}
    {q q1 : List Position} {b1 : Board} (h : SweepInv offs R C b q q1 b1) {i j : Nat}
    {e1 : Cell} (hr : readCell b1 i j = Run.ok e1) :
    ∃ d, readCell b i j = Run.ok d ∧ d.value = e1.value ∧
      (e1.is_revealed = false → d.is_revealed = false) := by
  obtain ⟨_, h2, h3, _⟩ := h
  cases hd : readCell b i j with
  | fault e => rw [h2 i j e hd] at hr; cases hr
  | ok d =>
    refine ⟨d, rfl, ?_⟩
    rcases h3 i j d hd with hA | ⟨_, hB, _⟩
    · rw [hA] at hr; cases hr; exact ⟨rfl, fun e => e⟩
    · rw [hB] at hr; cases hr; exact ⟨rfl, fun e => by cases e⟩

/-- A cell of the start board is a cell of the current board, with the same
value, and revealed there if it was revealed. -/
theorem sweepInv_fwd {offs : List (Int × Int)} {R C : Nat} {b : Board}
    {q q1 : List Position} {b1 : Board} (h : SweepInv offs R C b q q1 b1) {i j : Nat}
    {d : Cell} (hd : readCell b i j = Run.ok d) :
    ∃ e1, readCell b1 i j = Run.ok e1 ∧ e1.value = d.value ∧
      (d.is_revealed = true → e1.is_revealed = true) := by
  obtain ⟨_, _, h3, _⟩ := h
  rcases h3 i j d hd with hA | ⟨_, hB, _⟩
  · exact ⟨d, hA, rfl, fun e => e⟩
  · exact ⟨_, hB, rfl, fun _ => rfl⟩

theorem sweepInv_pushable {offs : List (Int × Int)} {R C : Nat} {b : Board}
    {q q1 : List Position} {b1 : Board} (h : SweepInv offs R C b q q1 b1) {y : Position}
    (hy : pushable b1 y = true) : pushable b y = true := by
  obtain ⟨e1, he1, hnb, hh⟩ := pushable_iff.1 hy
  obtain ⟨d, hd, hv, hf⟩ := sweepInv_back h he1
  exact pushable_iff.2 ⟨d, hd, by rw [hv]; exact hnb, hf hh⟩

theorem pushable_writeCell_revealed {b : Board} {p y : Position} {c : Cell}
    (_hc : readCell b p.1 p.2 = Run.ok c)
    (hy : pushable (writeCell b p.1 p.2 ⟨c.value, true⟩) y = true) : pushable b y = true := by
  by_cases hyp : y = p
  · subst hyp
    obtain ⟨e1, he1, _, hh⟩ := pushable_iff.1 hy
    rw [readCell_writeCell_same _hc] at he1
    cases he1
    cases hh
  · have hne : (p.1, p.2) ≠ (y.1, y.2) := by
      intro e
      apply hyp
      exact (Prod.ext (Prod.mk.inj e).1 (Prod.mk.inj e).2).symm
    unfold pushable at hy ⊢
    rw [readCell_writeCell_other hne] at hy
    exact hy

/-- The invariant passes from a state with `p` at the front of the queue to
any state in which `p` has been dealt with, the board differs at most by
the reveal of `p`, and the queue is the rest and cells around `p`. -/
theorem sweepInv_next {offs : List (Int × Int)} {R C : Nat} {b : Board}
    {q rest q2 : List Position} {p : Position} {b1 b2 : Board} {d : Cell}
    (h : SweepInv offs R C b q (p :: rest) b1)
    (hd : readCell b p.1 p.2 = Run.ok d)
    (hsh : shape b2 = shape b1)
    (hfl : ∀ i j e, readCell b1 i j = Run.fault e → readCell b2 i j = Run.fault e)
    (hfr : ∀ i j e1, readCell b1 i j = Run.ok e1 → readCell b2 i j = Run.ok e1 ∨
      ((i, j) = p ∧ e1.value ≠ Cell.BOMB ∧ readCell b2 i j = Run.ok ⟨e1.value, true⟩))
    (hsub : ∀ y ∈ rest, y ∈ q2)
    (hq : ∀ y ∈ q2, y ∈ rest ∨
      (d.value = Cell.SPACE ∧ y ∈ targets R C p offs ∧ pushable b y = true))
    (hp : Handled offs R C b q2 b2 p) : SweepInv offs R C b q q2 b2 := by
  obtain ⟨h1, h2, h3, h4, h5, h6⟩ := h
  have hsw : Swept offs R C b q p := h4 p (List.mem_cons_self _ _)
  have hmono : ∀ z, is_revealed_at b1 z = true → is_revealed_at b2 z = true := by
    intro z hz
    obtain ⟨e1, he1, hr1⟩ := is_revealed_at_iff.1 hz
    rcases hfr _ _ _ he1 with hA | ⟨_, _, hA⟩
    · exact is_revealed_at_iff.2 ⟨e1, hA, hr1⟩
    · exact is_revealed_at_iff.2 ⟨_, hA, rfl⟩
  have hpp : pushable b p = true → is_revealed_at b2 p = true := by
    intro hpz
    obtain ⟨c2, hc2, ha2, _⟩ := hp
    obtain ⟨c3, hc3, hnb3, _⟩ := pushable_iff.1 hpz
    rw [hc2] at hc3
    cases hc3
    exact ha2 hnb3
  have hhand : ∀ x, Handled offs R C b (p :: rest) b1 x → Handled offs R C b q2 b2 x := by
    rintro x ⟨c, hc, ha, hb⟩
    refine ⟨c, hc, fun hnb => hmono x (ha hnb), ?_⟩
    intro hsp z hz
    obtain ⟨hzr, hzp⟩ := hb hsp z hz
    refine ⟨hzr, ?_⟩
    intro hpz
    rcases hzp hpz with hmem | hrev
    · rcases List.mem_cons.1 hmem with e | e
      · right
        rw [e] at hpz ⊢
        exact hpp hpz
      · left; exact hsub z e
    · right; exact hmono z hrev
  refine ⟨hsh.trans h1, ?_, ?_, ?_, ?_, ?_⟩
  · intro i j e he
    exact hfl i j e (h2 i j e he)
  · intro i j d0 hd0
    rcases h3 i j d0 hd0 with hA | ⟨hnb, hB, hS⟩
    · rcases hfr i j d0 hA with hA2 | ⟨hij, hnb, hA2⟩
      · left; exact hA2
      · right; exact ⟨hnb, hA2, by rw [hij]; exact hsw⟩
    · rcases hfr i j _ hB with hB2 | ⟨_, _, hB2⟩
      · right; exact ⟨hnb, hB2, hS⟩
      · right; exact ⟨hnb, hB2, hS⟩
  · intro y hy
    rcases hq y hy with hy1 | ⟨hsp, hyt, hyp⟩
    · exact h4 y (List.mem_cons_of_mem _ hy1)
    · exact Swept.step hsw hd hsp hyt hyp
  · intro x hx
    rcases h5 x hx with hx1 | hx1
    · rcases List.mem_cons.1 hx1 with e | e
      · right; rw [e]; exact hp
      · left; exact hsub x e
    · right; exact hhand x hx1
  · intro y hyp hyr
    by_cases hyp2 : y = p
    · right; rw [hyp2]; exact hp
    · have hyr1 : is_revealed_at b1 y = true := by
        obtain ⟨e2, he2, hr2⟩ := is_revealed_at_iff.1 hyr
        cases hr : readCell b1 y.1 y.2 with
        | fault e => rw [hfl _ _ _ hr] at he2; cases he2
        | ok e1 =>
          rcases hfr _ _ _ hr with hA | ⟨hij, _, _⟩
          · rw [hA] at he2
            cases he2
            exact is_revealed_at_iff.2 ⟨_, hr, hr2⟩
          · exact absurd hij hyp2
      rcases h6 y hyp hyr1 with hy1 | hy1
      · rcases List.mem_cons.1 hy1 with e | e
        · exact absurd e hyp2
        · left; exact hsub y e
      · right; exact hhand y hy1

/-- One iteration keeps the invariant, for any table of offsets. -/
theorem sweepInv_step {offs : List (Int × Int)} {R C : Nat} {b : Board}
    {q rest : List Position} {p : Position} {b1 : Board}
    (h : SweepInv offs R C b q (p :: rest) b1) {st : Board × List Position}
    (hb : flood_body_with offs R C p rest b1 = Run.ok st) :
    SweepInv offs R C b q st.2 st.1 := by
  obtain ⟨c, hc, hcase⟩ := flood_body_with_cases hb
  obtain ⟨d, hd, hdv, _⟩ := sweepInv_back h hc
  have hw_sh := shape_writeCell b1 p.1 p.2 ⟨c.value, true⟩
  have hw_fl : ∀ i j e, readCell b1 i j = Run.fault e →
      readCell (writeCell b1 p.1 p.2 ⟨c.value, true⟩) i j = Run.fault e := by
    intro i j e he
    have hne : (p.1, p.2) ≠ (i, j) := by
      intro e2
      rw [(Prod.mk.inj e2).1, (Prod.mk.inj e2).2, he] at hc
      cases hc
    rw [readCell_writeCell_other hne]
    exact he
  have hw_fr : c.value ≠ Cell.BOMB → ∀ i j e1, readCell b1 i j = Run.ok e1 →
      readCell (writeCell b1 p.1 p.2 ⟨c.value, true⟩) i j = Run.ok e1 ∨
      ((i, j) = p ∧ e1.value ≠ Cell.BOMB ∧
        readCell (writeCell b1 p.1 p.2 ⟨c.value, true⟩) i j = Run.ok ⟨e1.value, true⟩) := by
    intro hnb i j e1 he1
    by_cases hp : (p.1, p.2) = (i, j)
    · right
      have hp2 : (i, j) = p := by rw [← hp]
      have e1 : i = p.1 := by rw [← hp2]
      have e2 : j = p.2 := by rw [← hp2]
      subst e1; subst e2
      rw [hc] at he1
      cases he1
      exact ⟨hp2, hnb, readCell_writeCell_same hc⟩
    · left
      rw [readCell_writeCell_other hp]
      exact he1
  have hrevp : is_revealed_at (writeCell b1 p.1 p.2 ⟨c.value, true⟩) p = true := by
    rw [is_revealed_at_writeCell c.value hc p, if_pos rfl]
  rcases hcase with ⟨hbm, hst⟩ | ⟨hnb, hns, hst⟩ | ⟨hnb, hsp, hst, hreads⟩
  · rw [hst]
    refine sweepInv_next h hd rfl (fun _ _ _ he => he) (fun _ _ _ he => Or.inl he)
      (fun y hy => hy) (fun y hy => Or.inl hy) ?_
    refine ⟨d, hd, fun hnb => absurd (hdv.trans hbm) hnb, fun hsp => ?_⟩
    exfalso
    rw [hdv, hbm] at hsp
    exact absurd hsp (by decide)
  · rw [hst]
    refine sweepInv_next h hd hw_sh hw_fl (hw_fr hnb) (fun y hy => hy)
      (fun y hy => Or.inl hy) ?_
    exact ⟨d, hd, fun _ => hrevp, fun hsp => absurd (hdv.symm.trans hsp) hns⟩
  · rw [hst]
    refine sweepInv_next h hd hw_sh hw_fl (hw_fr hnb)
      (fun y hy => List.mem_append_left _ hy) ?_ ?_
    · intro y hy
      rcases List.mem_append.1 hy with hy1 | hy2
      · left; exact hy1
      · right
        obtain ⟨hyt, hyp⟩ := List.mem_filter.1 hy2
        exact ⟨hdv.trans hsp, hyt, sweepInv_pushable h (pushable_writeCell_revealed hc hyp)⟩
    · refine ⟨d, hd, fun _ => hrevp, fun _ z hz => ?_⟩
      obtain ⟨cz, hcz⟩ := hreads z hz
      cases hz1 : readCell b1 z.1 z.2 with
      | fault e => rw [hw_fl _ _ _ hz1] at hcz; cases hcz
      | ok e1 =>
        obtain ⟨dz, hdz, hdzv, _⟩ := sweepInv_back h hz1
        refine ⟨⟨dz, hdz⟩, ?_⟩
        intro hpz
        by_cases hpz2 : pushable (writeCell b1 p.1 p.2 ⟨c.value, true⟩) z = true
        · left
          exact List.mem_append_right _ (List.mem_filter.2 ⟨hz, hpz2⟩)
        · right
          obtain ⟨d3, hd3, hnb3, _⟩ := pushable_iff.1 hpz
          rw [hdz] at hd3
          cases hd3
          have hcv : cz.value = e1.value := by
            rcases hw_fr hnb _ _ _ hz1 with hA | ⟨_, _, hA⟩
            · rw [hA] at hcz; cases hcz; rfl
            · rw [hA] at hcz; cases hcz; rfl
          apply is_revealed_at_iff.2
          refine ⟨cz, hcz, ?_⟩
          by_contra hcon
          apply hpz2
          apply pushable_iff.2
          refine ⟨cz, hcz, ?_, by simpa using hcon⟩
          rw [hcv, ← hdzv]
          exact hnb3

/-- The invariant holds of the result of the loop. -/
theorem flood_with_sweep {offs : List (Int × Int)} {R C fuel : Nat} {q : List Position}
    {b b2 : Board} (h : flood_with offs R C fuel q b = Run.ok b2) :
    SweepInv offs R C b q [] b2 :=
  flood_with_induct offs R C (fun q1 b1 => SweepInv offs R C b q q1 b1)
    (fun _ _ _ _ hinv hb => sweepInv_step hinv hb) fuel q b b2 (sweepInv_init offs R C b q) h

/-- At the end of the loop every swept position has been dealt with. -/
theorem swept_handled {offs : List (Int × Int)} {R C : Nat} {b : Board} {q : List Position}
    {b2 : Board} (h : SweepInv offs R C b q [] b2) {x : Position}
    (hx : Swept offs R C b q x) : Handled offs R C b [] b2 x := by
  obtain ⟨_, _, _, _, h5, h6⟩ := h
  induction hx with
  | seed hq =>
    rcases h5 _ hq with hn | hh
    · cases hn
    · exact hh
  | step _ hread hsp hyt hyp ih =>
    obtain ⟨c, hc, _, hb⟩ := ih
    rw [hread] at hc
    cases hc
    rcases (hb hsp _ hyt).2 hyp with hn | hrev
    · cases hn
    · rcases h6 _ hyp hrev with hn | hh
      · cases hn
      · exact hh

/-- The board at the end of the loop: the swept cells that are no mines are
revealed, every other cell is as it was. -/
theorem swept_final_read {offs : List (Int × Int)} {R C : Nat} {b : Board}
    {q : List Position} {b2 : Board} (h : SweepInv offs R C b q [] b2) {i j : Nat} {d : Cell}
    (hd : readCell b i j = Run.ok d) :
    (Swept offs R C b q (i, j) ∧ d.value ≠ Cell.BOMB →
      readCell b2 i j = Run.ok ⟨d.value, true⟩) ∧
    (¬ (Swept offs R C b q (i, j) ∧ d.value ≠ Cell.BOMB) → readCell b2 i j = Run.ok d) := by
  constructor
  · rintro ⟨hs, hnb⟩
    obtain ⟨c, hc, ha, _⟩ := swept_handled h hs
    simp only at hc
    rw [hd] at hc
    cases hc
    obtain ⟨e2, he2, hr2⟩ := is_revealed_at_iff.1 (ha hnb)
    simp only at he2
    rcases h.2.2.1 i j d hd with hA | ⟨_, hB, _⟩
    · rw [hA] at he2
      cases he2
      have : d = ⟨d.value, true⟩ := by cases d; simp_all
      rw [← this]
      exact hA
    · exact hB
  · intro hn
    rcases h.2.2.1 i j d hd with hA | ⟨hnb, _, hS⟩
    · exact hA
    · exact absurd ⟨hS, hnb⟩ hn

/-- Two boards that end a loop from the same start with the same swept
positions are the same. -/
theorem sweep_result_unique {offs offs2 : List (Int × Int)} {R C : Nat} {b : Board}
    {q : List Position} {b2 b3 : Board}
    (hsame : ∀ x, Swept offs R C b q x ↔ Swept offs2 R C b q x)
    (h2 : SweepInv offs R C b q [] b2) (h3 : SweepInv offs2 R C b q [] b3) : b2 = b3 := by
  apply board_ext (h2.1.trans h3.1.symm)
  intro i j
  cases hd : readCell b i j with
  | fault e => rw [h2.2.1 i j e hd, h3.2.1 i j e hd]
  | ok d =>
    by_cases hs : Swept offs R C b q (i, j) ∧ d.value ≠ Cell.BOMB
    · rw [(swept_final_read h2 hd).1 hs,
        (swept_final_read h3 hd).1 ⟨(hsame _).1 hs.1, hs.2⟩]
    · rw [(swept_final_read h2 hd).2 hs,
        (swept_final_read h3 hd).2 (fun hh => hs ⟨(hsame _).2 hh.1, hh.2⟩)]

/-! ### The order of the offsets -/

theorem targets_perm_mem {offs offs2 : List (Int × Int)} (hperm : offs.Perm offs2)
    (R C : Nat) (x z : Position) : z ∈ targets R C x offs ↔ z ∈ targets R C x offs2 := by
  unfold targets
  exact (hperm.filterMap _).mem_iff

theorem swept_perm {offs offs2 : List (Int × Int)} (hperm : offs.Perm offs2) {R C : Nat}
    {b : Board} {q : List Position} {x : Position} (h : Swept offs R C b q x) :
    Swept offs2 R C b q x := by
  induction h with
  | seed hq => exact Swept.seed hq
  | step _ hread hsp hyt hyp ih =>
    exact Swept.step ih hread hsp ((targets_perm_mem hperm R C _ _).1 hyt) hyp

/-- The loop makes no access out of range when every swept position can be
read and the positions around every swept `SPACE` can. -/
theorem flood_with_no_fault {offs : List (Int × Int)} {R C : Nat} {b : Board}
    {q : List Position}
    (hgood : ∀ x, Swept offs R C b q x → ∃ c, readCell b x.1 x.2 = Run.ok c ∧
      (c.value = Cell.SPACE → ∀ z ∈ targets R C x offs, ∃ cz, readCell b z.1 z.2 = Run.ok cz)) :
    ∀ (fuel : Nat) (q1 : List Position) (b1 : Board), q1 ≠ [] →
      SweepInv offs R C b q q1 b1 →
      flood_with offs R C fuel q1 b1 ≠ Run.fault Fault.out_of_range := by
  intro fuel
  induction fuel with
  | zero => intro q1 b1 _ _; simp [flood_with]
  | succ n ih =>
    intro q1 b1 hne hinv
    cases q1 with
    | nil => exact absurd rfl hne
    | cons p rest =>
      obtain ⟨d, hd, hz⟩ := hgood p (hinv.2.2.2.1 p (List.mem_cons_self _ _))
      obtain ⟨e1, he1, hv, _⟩ := sweepInv_fwd hinv hd
      have hex : ∃ st, flood_body_with offs R C p rest b1 = Run.ok st :=
        flood_body_with_ok rest he1 (by
          intro hsp z hzt
          obtain ⟨cz, hcz⟩ := hz (hv.symm.trans hsp) z hzt
          obtain ⟨e2, he2, _⟩ := sweepInv_fwd hinv hcz
          exact ⟨e2, he2⟩)
      obtain ⟨st, hst⟩ := hex
      simp only [flood_with, hst]
      split_ifs with he
      · simp
      · exact ih _ _ (by intro e; rw [e] at he; exact he rfl) (sweepInv_step hinv hst)

/-- A run of the loop that returns a board returns the same board for any
other order of the offsets. -/
theorem flood_with_perm {offs offs2 : List (Int × Int)} (hperm : offs.Perm offs2)
    {R C fuel : Nat} {q : List Position} {b b2 : Board} (hq : q ≠ [])
    (h : flood_with offs R C fuel q b = Run.ok b2) :
    ∃ fuel2, flood_with offs2 R C fuel2 q b = Run.ok b2 := by
  have hinv := flood_with_sweep h
  obtain ⟨fuel2, hf2⟩ := flood_with_halts offs2 R C _ _ q b rfl rfl
  have hgood : ∀ x, Swept offs2 R C b q x → ∃ c, readCell b x.1 x.2 = Run.ok c ∧
      (c.value = Cell.SPACE →
        ∀ z ∈ targets R C x offs2, ∃ cz, readCell b z.1 z.2 = Run.ok cz) := by
    intro x hx
    obtain ⟨c, hc, _, hb⟩ := swept_handled hinv (swept_perm hperm.symm hx)
    exact ⟨c, hc, fun hsp z hz => (hb hsp z ((targets_perm_mem hperm R C x z).2 hz)).1⟩
  have hnf := flood_with_no_fault hgood fuel2 q b hq (sweepInv_init offs2 R C b q)
  refine ⟨fuel2, ?_⟩
  cases hres : flood_with offs2 R C fuel2 q b with
  | fault e =>
    rcases flood_with_fault_kind _ _ _ _ hres with e1 | e1
    · rw [e1] at hres; exact absurd hres hnf
    · rw [e1] at hres; exact absurd hres hf2
  | ok b3 =>
    have := sweep_result_unique (fun x => ⟨swept_perm hperm, swept_perm hperm.symm⟩) hinv
      (flood_with_sweep hres)
    rw [this]

/-- With enough fuel the loop has the same outcome for two orders of the
offsets: the same board, or an access out of range in both. -/
theorem flood_with_perm_eq {offs offs2 : List (Int × Int)} (hperm : offs.Perm offs2)
    (R C : Nat) (q : List Position) (b : Board) (hq : q ≠ []) :
    ∃ fuel, ∀ k, flood_with offs R C (fuel + k) q b = flood_with offs2 R C (fuel + k) q b := by
  obtain ⟨f1, hf1⟩ := flood_with_halts offs R C _ _ q b rfl rfl
  obtain ⟨f2, hf2⟩ := flood_with_halts offs2 R C _ _ q b rfl rfl
  have key : flood_with offs R C f1 q b = flood_with offs2 R C f2 q b := by
    cases hr1 : flood_with offs R C f1 q b with
    | ok b2 =>
      obtain ⟨f3, h3⟩ := flood_with_perm hperm hq hr1
      have e1 := flood_with_fuel_mono f2 f3 q b (by rw [h3]; simp)
      have e2 := flood_with_fuel_mono f3 f2 q b hf2
      rw [Nat.add_comm] at e1
      rw [← e2, e1, h3]
    | fault e =>
      cases hr2 : flood_with offs2 R C f2 q b with
      | ok b3 =>
        obtain ⟨f3, h3⟩ := flood_with_perm hperm.symm hq hr2
        have e1 := flood_with_fuel_mono f1 f3 q b (by rw [h3]; simp)
        have e2 := flood_with_fuel_mono f3 f1 q b hf1
        rw [Nat.add_comm] at e1
        rw [e2, hr1, h3] at e1
        cases e1
      | fault e2 =>
        rcases flood_with_fault_kind _ _ _ _ hr1 with a1 | a1
        · rcases flood_with_fault_kind _ _ _ _ hr2 with a2 | a2
          · rw [a1, a2]
          · rw [a2] at hr2; exact absurd hr2 hf2
        · rw [a1] at hr1; exact absurd hr1 hf1
  refine ⟨f1 + f2, fun k => ?_⟩
  have e1 := flood_with_fuel_mono (f2 + k) f1 q b hf1
  have e2 := flood_with_fuel_mono (f1 + k) f2 q b hf2
  have a1 : f1 + f2 + k = f1 + (f2 + k) := by omega
  have a2 : f1 + f2 + k = f2 + (f1 + k) := by omega
  rw [a1, e1, ← a1, a2, e2]
  exact key

/-- The same click with more fuel, for any table of offsets. -/
theorem click_with_fuel_mono {offs : List (Int × Int)} {R C : Nat} (fuel k : Nat)
    (p : Position) (b : Board)
    (h : click_with offs R C fuel p b ≠ Run.fault Fault.out_of_fuel) :
    click_with offs R C (fuel + k) p b = click_with offs R C fuel p b := by
  unfold click_with at h ⊢
  split_ifs at h ⊢ with hg
  · rfl
  · cases hr : readCell b p.1 p.2 with
    | fault e => rfl
    | ok c =>
      rw [hr] at h
      simp only at h ⊢
      split_ifs at h ⊢ with h1 h2
      · rfl
      · rfl
      · have hf : flood_with offs R C fuel [p] (writeCell b p.1 p.2 ⟨c.value, true⟩)
            ≠ Run.fault Fault.out_of_fuel := by
          intro e
          rw [e] at h
          exact h rfl
        rw [flood_with_fuel_mono k fuel _ _ hf]

/-- With enough fuel a click has the same outcome for two orders of the
offsets. -/
theorem click_with_perm_eq {offs offs2 : List (Int × Int)} (hperm : offs.Perm offs2)
    (R C : Nat) (p : Position) (b : Board) :
    ∃ fuel, ∀ k, click_with offs R C (fuel + k) p b = click_with offs2 R C (fuel + k) p b := by
  unfold click_with
  split_ifs with hg
  · exact ⟨0, fun _ => rfl⟩
  · cases hr : readCell b p.1 p.2 with
    | fault e => exact ⟨0, fun _ => rfl⟩
    | ok c =>
      simp only
      split_ifs with h1 h2
      · exact ⟨0, fun _ => rfl⟩
      · exact ⟨0, fun _ => rfl⟩
      · obtain ⟨fuel, hf⟩ := flood_with_perm_eq hperm R C [p]
          (writeCell b p.1 p.2 ⟨c.value, true⟩) (by simp)
        refine ⟨fuel, fun k => ?_⟩
        rw [hf k]

/-! ### The construction on any storage -/

/-- A visit with the callback of `insert_bombs` on distinct positions, when
it runs through: the cells visited are bumped, the others stay, and no place
becomes readable. -/
theorem visit_list_count_bomb_of_ok :
    ∀ (xs : List Position) (b : Board) (st : Board × Unit), xs.Nodup →
      visit_list count_bomb xs (b, ()) = Run.ok st →
      (∀ i j e, readCell b i j = Run.fault e → readCell st.1 i j = Run.fault e) ∧
      ∀ (p : Position) (c : Cell), readCell b p.1 p.2 = Run.ok c →
        readCell st.1 p.1 p.2 = Run.ok (if p ∈ xs then bump c else c) := by
  intro xs
  induction xs with
  | nil =>
    intro b st _ h
    simp only [visit_list] at h
    cases h
    exact ⟨fun _ _ _ he => he, fun p c hc => by simpa using hc⟩
  | cons x xs ih =>
    intro b st hnd h
    have hnd2 := List.nodup_cons.1 hnd
    simp only [visit_list] at h
    cases hc0 : readCell b x.1 x.2 with
    | fault e => rw [hc0] at h; cases h
    | ok c0 =>
      rw [hc0] at h
      simp only [count_bomb_eq] at h
      obtain ⟨hfault, hread⟩ := ih _ st hnd2.2 h
      constructor
      · intro i j e he
        apply hfault
        have hne : (x.1, x.2) ≠ (i, j) := by
          intro e2
          rw [(Prod.mk.inj e2).1, (Prod.mk.inj e2).2, he] at hc0
          cases hc0
        rw [readCell_writeCell_other hne]
        exact he
      · intro p c hc
        by_cases hp : p = x
        · subst hp
          rw [hc0] at hc
          cases hc
          have := hread p (bump c0) (readCell_writeCell_same hc0)
          rw [if_neg hnd2.1] at this
          rw [this, if_pos (List.mem_cons_self _ _)]
        · have hne : (x.1, x.2) ≠ (p.1, p.2) := by
            intro e
            apply hp
            exact (Prod.ext (Prod.mk.inj e).1 (Prod.mk.inj e).2).symm
          have := hread p c (by rw [readCell_writeCell_other hne]; exact hc)
          rw [this]
          by_cases hm : p ∈ xs
          · rw [if_pos hm, if_pos (List.mem_cons_of_mem _ hm)]
          · rw [if_neg hm, if_neg (by
              intro h2
              rcases List.mem_cons.1 h2 with h2 | h2
              · exact hp h2
              · exact hm h2)]

/-- The placing loop on any storage, when it runs through: every cell of
the grid that the storage holds ends hidden, with the value that the mines
placed so far and the mines of the list give it. -/
theorem place_bombs_of_ok {R C : Nat} :
    ∀ (rest placed : List Position) (b b2 : Board),
      (∀ p ∈ rest, inBounds R C p) → (rest ++ placed).Nodup →
      (∀ p, inBounds R C p → ∀ c, readCell b p.1 p.2 = Run.ok c →
        c = ⟨value_after placed p, false⟩) →
      place_bombs R C rest b = Run.ok b2 →
      ∀ p, inBounds R C p → ∀ c, readCell b2 p.1 p.2 = Run.ok c →
        c = ⟨value_after (rest ++ placed) p, false⟩ := by
  intro rest
  induction rest with
  | nil =>
    intro placed b b2 _ _ hval h
    simp only [place_bombs] at h
    cases h
    simpa using hval
  | cons m rest ih =>
    intro placed b b2 hin hnd hval h
    have hm : inBounds R C m := hin m (List.mem_cons_self _ _)
    have hmid : (rest ++ m :: placed).Perm (m :: rest ++ placed) := List.perm_middle
    have hnd2 : (rest ++ m :: placed).Nodup := hmid.nodup_iff.2 hnd
    have hnd3 : (m :: placed).Nodup := (List.nodup_append.1 hnd2).2.1
    obtain ⟨row, col⟩ := m
    simp only [place_bombs] at h
    cases hcm : readCell b row col with
    | fault e => rw [hcm] at h; cases h
    | ok c =>
      rw [hcm] at h
      simp only at h
      have hceq := hval (row, col) hm c hcm
      subst hceq
      simp only at h
      cases hv : visit_surrounding_cells R C (row, col) count_bomb
          (writeCell b row col ⟨Cell.BOMB, false⟩, ()) with
      | fault e => rw [hv] at h; cases h
      | ok st =>
        rw [hv] at h
        simp only at h
        unfold visit_surrounding_cells at hv
        rw [visit_offsets_eq_visit_list] at hv
        obtain ⟨hfault, hread⟩ := visit_list_count_bomb_of_ok _ _ st
          (targets_nodup R C (row, col)) hv
        have hval2 : ∀ p, inBounds R C p → ∀ c2, readCell st.1 p.1 p.2 = Run.ok c2 →
            c2 = ⟨value_after ((row, col) :: placed) p, false⟩ := by
          intro p hp c2 hc2
          cases hc1 : readCell (writeCell b row col ⟨Cell.BOMB, false⟩) p.1 p.2 with
          | fault e => rw [hfault _ _ _ hc1] at hc2; cases hc2
          | ok c1 =>
            rw [hread p c1 hc1] at hc2
            have hc2b := (Run.ok.inj hc2).symm
            by_cases hpm : p = (row, col)
            · subst hpm
              rw [readCell_writeCell_same hcm] at hc1
              have hc1b := (Run.ok.inj hc1).symm
              rw [if_neg (fun hh => (targets_adjacent hh).1 rfl)] at hc2b
              rw [hc2b, hc1b, value_after_eq_bomb.2 (List.mem_cons_self _ _)]
            · have hne : (row, col) ≠ (p.1, p.2) := by
                intro e
                apply hpm
                exact (Prod.ext (Prod.mk.inj e).1 (Prod.mk.inj e).2).symm
              rw [readCell_writeCell_other hne] at hc1
              have hc1b := hval p hp c1 hc1
              rw [hc2b, hc1b, ← bump_value_after hnd3 hpm]
              by_cases hadj : adjacent (row, col) p
              · rw [if_pos ((mem_targets_iff hm).2 ⟨hp, hadj⟩), if_pos hadj]
              · rw [if_neg (fun hh => hadj (targets_adjacent hh)), if_neg hadj]
        intro p hp c3 hc3
        have := ih ((row, col) :: placed) st.1 b2
          (fun p hp => hin p (List.mem_cons_of_mem _ hp)) hnd2 hval2 h p hp c3 hc3
        rw [this, value_after_perm hmid p]

/-- The constructor on a valid mine list and any storage, when it returns:
every cell of the grid that the storage holds is hidden and has the value
that the mine list gives it. -/
theorem new_of_ok {R C : Nat} {bombs : List Position} (hv : ValidMines R C bombs)
    {b : Board} (h : Minesweeper.new R C bombs = Run.ok b) :
    ∀ p, inBounds R C p → ∀ c, readCell b p.1 p.2 = Run.ok c →
      c = ⟨value_after bombs p, false⟩ := by
  obtain ⟨hlen, hin, hnd⟩ := hv
  unfold Minesweeper.new insert_bombs at h
  rw [if_neg (by simpa using hlen), if_neg (by
    intro hh
    apply hh
    intro p hp
    exact hin p hp)] at h
  intro p hp c hc
  have := place_bombs_of_ok bombs [] (board_ R C) b hin (by simpa using hnd)
    (by
      intro p2 _ c2 hc2
      rw [readCell_board_ hc2]
      rfl) h p hp c hc
  rw [List.append_nil] at this
  exact this

/-! ### Revealed `SPACE`s and their neighbours -/

theorem storedValues_writeCell {R C : Nat} {bombs : List Position} {b : Board}
    (hS : StoredValues R C bombs b) {p : Position} {c : Cell}
    (hc : readCell b p.1 p.2 = Run.ok c) (f : Bool) :
    StoredValues R C bombs (writeCell b p.1 p.2 ⟨c.value, f⟩) := by
  intro x hx c2 hc2
  by_cases hxp : x = p
  · subst hxp
    rw [readCell_writeCell_same hc] at hc2
    cases hc2
    exact hS x hx c hc
  · have hne : (p.1, p.2) ≠ (x.1, x.2) := by
      intro e
      apply hxp
      exact (Prod.ext (Prod.mk.inj e).1 (Prod.mk.inj e).2).symm
    rw [readCell_writeCell_other hne] at hc2
    exact hS x hx c2 hc2

theorem sweepInv_revealed {offs : List (Int × Int)} {R C : Nat} {b : Board}
    {q q1 : List Position} {b1 : Board} (h : SweepInv offs R C b q q1 b1) {y : Position}
    (hy : is_revealed_at b y = true) : is_revealed_at b1 y = true := by
  obtain ⟨d, hd, hr⟩ := is_revealed_at_iff.1 hy
  obtain ⟨e1, he1, _, hf⟩ := sweepInv_fwd h hd
  exact is_revealed_at_iff.2 ⟨e1, he1, hf hr⟩

/-- A click on a position of the grid that returns keeps the values of the
mine list and the closedness of the revealed `SPACE`s, on any storage. -/
theorem click_keeps_closed {R C : Nat} {bombs : List Position} {b b2 : Board} {p : Position}
    {fuel : Nat} {r : ClickResult} (hS : StoredValues R C bombs b) (hCl : Closed R C b)
    (h : click R C fuel p b = Run.ok (r, b2)) :
    StoredValues R C bombs b2 ∧ Closed R C b2 := by
  rcases click_cases h with ⟨_, _, hb⟩ | ⟨_, c, hc, hcase⟩
  · rw [hb]; exact ⟨hS, hCl⟩
  · have hS1 := storedValues_writeCell hS hc true
    have hrev := is_revealed_at_writeCell c.value hc
    -- a revealed `SPACE` other than `p` was one before the reveal of `p`
    have hold : ∀ x, inBounds R C x → x ≠ p →
        readCell (writeCell b p.1 p.2 ⟨c.value, true⟩) x.1 x.2 = Run.ok ⟨Cell.SPACE, true⟩ →
        ∀ y, inBounds R C y → adjacent x y →
          is_revealed_at (writeCell b p.1 p.2 ⟨c.value, true⟩) y = true := by
      intro x hx hxp hread y hy hadj
      have hne : (p.1, p.2) ≠ (x.1, x.2) := by
        intro e
        apply hxp
        exact (Prod.ext (Prod.mk.inj e).1 (Prod.mk.inj e).2).symm
      rw [readCell_writeCell_other hne] at hread
      rw [hrev y]
      by_cases hyp : y = p
      · rw [if_pos hyp]
      · rw [if_neg hyp]; exact hCl x hx hread y hy hadj
    rcases hcase with ⟨_, _, hb⟩ | ⟨_, hm, _, hb⟩ | ⟨_, hnb, _, hfl⟩
    · rw [hb]; exact ⟨hS, hCl⟩
    · rw [hb]
      refine ⟨hS1, ?_⟩
      intro x hx hread y hy hadj
      have hxp : x ≠ p := by
        intro e
        subst e
        rw [readCell_writeCell_same hc] at hread
        have := congrArg Cell.value (Run.ok.inj hread)
        simp only at this
        rw [hm] at this
        exact absurd this (by decide)
      exact hold x hx hxp hread y hy hadj
    · rw [← flood_with_std] at hfl
      have hinv := flood_with_sweep hfl
      constructor
      · intro x hx c2 hc2
        obtain ⟨d, hd, hdv, _⟩ := sweepInv_back hinv hc2
        rw [← hdv]
        exact hS1 x hx d hd
      · intro x hx hread y hy hadj
        obtain ⟨d, hd, hdv, _⟩ := sweepInv_back hinv hread
        have hdsp : d.value = Cell.SPACE := hdv
        by_cases hsw : Swept SURROUNDING_DX_DY R C (writeCell b p.1 p.2 ⟨c.value, true⟩) [p] x
        · obtain ⟨c3, hc3, _, hb3⟩ := swept_handled hinv hsw
          rw [hd] at hc3
          cases hc3
          obtain ⟨⟨cz, hcz⟩, himp⟩ := hb3 hdsp y (mem_targets_of_adjacent hx hy hadj)
          by_cases hpy : pushable (writeCell b p.1 p.2 ⟨c.value, true⟩) y = true
          · rcases himp hpy with hn | hr
            · cases hn
            · exact hr
          · apply sweepInv_revealed hinv
            apply is_revealed_at_iff.2
            refine ⟨cz, hcz, ?_⟩
            by_contra hcon
            apply hpy
            apply pushable_iff.2
            refine ⟨cz, hcz, ?_, by simpa using hcon⟩
            intro hbomb
            have hy1 : value_after bombs y = Cell.BOMB := by
              rw [← hS1 y hy cz hcz]; exact hbomb
            have hx1 : value_after bombs x = Cell.SPACE := by
              rw [← hS1 x hx d hd]; exact hdsp
            exact space_has_no_mine_neighbour hx1 (value_after_eq_bomb.1 hy1) hadj
        · have hxp : x ≠ p := by
            intro e
            apply hsw
            rw [e]
            exact Swept.seed (List.mem_singleton_self _)
          have hsame := (swept_final_read hinv hd).2 (fun hh => hsw hh.1)
          simp only at hsame
          rw [hread] at hsame
          have hd2 : readCell (writeCell b p.1 p.2 ⟨c.value, true⟩) x.1 x.2
              = Run.ok ⟨Cell.SPACE, true⟩ := by
            rw [hd, ← Run.ok.inj hsame]
          exact sweepInv_revealed hinv (hold x hx hxp hd2 y hy hadj)

/-- Every board that arises from a valid mine list by clicks holds the
values of the mine list, and its revealed `SPACE`s have their neighbours
revealed; on any storage. -/
theorem reachable_closed {R C : Nat} {bombs : List Position} (hv : ValidMines R C bombs)
    {b : Board} (hr : Reachable R C bombs b) : StoredValues R C bombs b ∧ Closed R C b := by
  induction hr with
  | fresh hnew =>
    have hread := new_of_ok hv hnew
    constructor
    · intro x hx c hc
      rw [hread x hx c hc]
    · intro x hx hx2
      have := hread x hx _ hx2
      have h2 := congrArg Cell.is_revealed this
      simp at h2
  | click _ _ hclick ih => exact click_keeps_closed ih.1 ih.2 hclick

/-! ### The program on the block of cells -/

/-- The clicks that `click` answers with `LOSE`, in the storage with
bounds: the check of the bounds lets the position through and the cell
addressed is a hidden mine. -/
theorem click_lose_cases {R C fuel : Nat} {p : Position} {b b2 : Board} :
    click R C fuel p b = Run.ok (ClickResult.LOSE, b2) ↔
      (p.1 ≤ R ∧ p.2 ≤ C) ∧ ∃ c, readCell b p.1 p.2 = Run.ok c ∧ c.is_revealed = false ∧
        c.value = Cell.BOMB ∧ b2 = writeCell b p.1 p.2 ⟨c.value, true⟩ := by
  constructor
  · intro h
    rcases click_cases h with ⟨_, hr, _⟩ | ⟨hg, c, hc, hcase⟩
    · cases hr
    · rcases hcase with ⟨_, hr, _⟩ | ⟨hrev, hv, _, hb⟩ | ⟨_, _, hr, _⟩
      · cases hr
      · exact ⟨by omega, c, hc, hrev, hv, hb⟩
      · cases hr
  · rintro ⟨hg, c, hc, hrev, hv, hb⟩
    rw [hb]
    exact click_of_hidden_mine fuel hg hc hrev hv

/-- The clicks that `click` answers with `LOSE`, on the block of cells. -/
theorem flat_click_lose_cases {R C fuel : Nat} {p : Position} {m m2 : List Cell} :
    Flat.click R C fuel p m = Run.ok (ClickResult.LOSE, m2) ↔
      (p.1 ≤ R ∧ p.2 ≤ C) ∧ ∃ c, Flat.readCell R m p.1 p.2 = Run.ok c ∧
        c.is_revealed = false ∧ c.value = Cell.BOMB ∧
        m2 = Flat.writeCell R m p.1 p.2 ⟨c.value, true⟩ := by
  unfold Flat.click Flat.click_with
  constructor
  · intro h
    split_ifs at h with hg
    · cases h
    · cases hr : Flat.readCell R m p.1 p.2 with
      | fault e => rw [hr] at h; cases h
      | ok c =>
        rw [hr] at h
        simp only at h
        split_ifs at h with h1 h2
        · cases h
        · cases h
          exact ⟨by omega, c, rfl, by simpa using h1, h2, rfl⟩
        · cases hf : Flat.flood_with SURROUNDING_DX_DY R C fuel [p]
              (Flat.writeCell R m p.1 p.2 ⟨c.value, true⟩) with
          | fault e => rw [hf] at h; cases h
          | ok m3 => rw [hf] at h; cases h
  · rintro ⟨hg, c, hc, hrev, hv, hm⟩
    rw [if_neg (by omega), hc, hm]
    simp [hrev, hv]

/-- C8 (losing click), as the code has it.  `click` answers `LOSE` exactly
when its check `row > NumRowsT || col > NumColsT` lets the position through
and the cell that `board_[row][col]` addresses is a hidden mine, and the
board it leaves is the old one with that cell revealed; this holds of the
storage with bounds and of the block of cells.  The check lets
`col = NumColsT` through: on the 3 x 3 board with the mine `(1, 0)` the click
on `(0, 3)`, a position outside the grid, addresses cell 3 of the block,
which is `board_[1][0]`, answers `LOSE` and reveals the mine of `(1, 0)`;
with bounds on the inner arrays the same click is an access out of range.
On the 5 x 7 board of `main` the click on the mine `(1, 3)` answers `LOSE`
and reveals that cell. -/
theorem click_lose_off_the_grid :
    (∀ (R C fuel : Nat) (p : Position) (m m2 : List Cell),
      Flat.click R C fuel p m = Run.ok (ClickResult.LOSE, m2) ↔
        (p.1 ≤ R ∧ p.2 ≤ C) ∧ ∃ c, Flat.readCell R m p.1 p.2 = Run.ok c ∧
          c.is_revealed = false ∧ c.value = Cell.BOMB ∧
          m2 = Flat.writeCell R m p.1 p.2 ⟨c.value, true⟩) ∧
    (∀ (R C fuel : Nat) (p : Position) (b b2 : Board),
      click R C fuel p b = Run.ok (ClickResult.LOSE, b2) ↔
        (p.1 ≤ R ∧ p.2 ≤ C) ∧ ∃ c, readCell b p.1 p.2 = Run.ok c ∧
          c.is_revealed = false ∧ c.value = Cell.BOMB ∧
          b2 = writeCell b p.1 p.2 ⟨c.value, true⟩) ∧
    Flat.new 3 3 [(1, 0)] = Run.ok edge_mine_board.flatten ∧
    ¬ inBounds 3 3 (0, 3) ∧
    Flat.click 3 3 0 (0, 3) edge_mine_board.flatten
      = Run.ok (ClickResult.LOSE, (writeCell edge_mine_board 1 0 ⟨Cell.BOMB, true⟩).flatten) ∧
    Minesweeper.new 3 3 [(1, 0)] = Run.ok edge_mine_board ∧
    (∀ fuel, click 3 3 fuel (0, 3) edge_mine_board = Run.fault Fault.out_of_range) ∧
    Flat.new 5 7 bomb_locations = Run.ok game_board.flatten ∧
    Flat.click 5 7 0 (1, 3) game_board.flatten
      = Run.ok (ClickResult.LOSE, (writeCell game_board 1 3 ⟨Cell.BOMB, true⟩).flatten) := by
  refine ⟨fun R C fuel p m m2 => flat_click_lose_cases,
    fun R C fuel p b b2 => click_lose_cases, by decide, by decide, by decide, by decide,
    fun fuel => rfl, by decide, by decide⟩

/-- On a storage that holds every cell of the grid a click on a position of
the grid returns for every order of the offsets, with the result and the
board of `click`. -/
theorem click_with_perm_of_covers {offs : List (Int × Int)}
    (hperm : offs.Perm SURROUNDING_DX_DY) {R C : Nat} {p : Position} {b : Board}
    (hp : inBounds R C p) (hcov : Covers R C b) :
    ∃ fuel r b2, ∀ k, click_with offs R C (fuel + k) p b = Run.ok (r, b2) ∧
      click R C (fuel + k) p b = Run.ok (r, b2) := by
  obtain ⟨F, hF⟩ := click_with_perm_eq hperm R C p b
  obtain ⟨f0, h0⟩ := click_halts R C p b
  have h00 := h0 0
  rw [Nat.add_zero] at h00
  obtain ⟨r, b2, hok, _⟩ := click_ok_of_covers hp hcov h00
  refine ⟨F + f0, r, b2, fun k => ?_⟩
  have e : click R C (F + f0 + k) p b = Run.ok (r, b2) := by
    have a : F + f0 + k = f0 + (F + k) := by omega
    rw [a, click_fuel_mono f0 (F + k) p b h00, hok]
  refine ⟨?_, e⟩
  have a : F + f0 + k = F + (f0 + k) := by omega
  rw [a, hF (f0 + k), click_with_std, ← a, e]

/-- C16 (order independence of the flood fill).  On a storage that holds
every cell of the grid, as every board reached on a square grid does, a
click on a position of the grid returns the result and the board of `click`
for every permutation of the table of offsets.  On the 5 x 7 board of
`main` the click on `(4, 2)` in the fresh board returns for the order of
the source and for the reverse order with different boards: run on the
block of cells, the order of the source ends after 36 iterations with
`board_[0][4]` (and `board_[1][4]`) hidden, the reverse order after 56
iterations with both revealed; with bounds on the inner arrays both runs
end on an access out of range. -/
theorem order_of_offsets_square_and_main_board :
    (∀ (R C : Nat) (offsets : List (Int × Int)) (p : Position) (b : Board),
      offsets.Perm SURROUNDING_DX_DY → inBounds R C p → Covers R C b →
      ∃ fuel r b2, ∀ k, click_with offsets R C (fuel + k) p b = Run.ok (r, b2) ∧
        click R C (fuel + k) p b = Run.ok (r, b2)) ∧
    (∀ (n : Nat) (bombs : List Position) (b : Board), ValidMines n n bombs →
      Reachable n n bombs b → Covers n n b) ∧
    SURROUNDING_DX_DY.reverse.Perm SURROUNDING_DX_DY ∧
    ValidMines 5 7 bomb_locations ∧
    Flat.new 5 7 bomb_locations = Run.ok game_board.flatten ∧
    inBounds 5 7 (4, 2) ∧
    Flat.click 5 7 36 (4, 2) game_board.flatten
      = Run.ok (ClickResult.IN_PROGRESS, game_board_swept.flatten) ∧
    Flat.click_with SURROUNDING_DX_DY.reverse 5 7 56 (4, 2) game_board.flatten
      = Run.ok (ClickResult.IN_PROGRESS, game_board_swept_reversed.flatten) ∧
    inBounds 5 7 (0, 4) ∧
    Flat.readCell 5 game_board_swept.flatten 0 4 = Run.ok ⟨1, false⟩ ∧
    Flat.readCell 5 game_board_swept_reversed.flatten 0 4 = Run.ok ⟨1, true⟩ ∧
    Minesweeper.new 5 7 bomb_locations = Run.ok game_board ∧
    click 5 7 10 (4, 2) game_board = Run.fault Fault.out_of_range ∧
    click_with SURROUNDING_DX_DY.reverse 5 7 7 (4, 2) game_board
      = Run.fault Fault.out_of_range := by
  refine ⟨?_, ?_, ?_⟩
  · intro R C offsets p b hperm hp hcov
    exact click_with_perm_of_covers hperm hp hcov
  · intro n bombs b hv hr
    exact hasValues_covers (reachable_good hv (covers_board_square n) hr).1
  · decide

/-- Witness of C16 on a square board: the table in reverse order on the
3 x 3 board with the mine `(0, 0)`, click on `(2, 2)`.  The loop runs 15
times instead of 11 and leaves the same board. -/
theorem order_of_offsets_square_witness :
    SURROUNDING_DX_DY.reverse.Perm SURROUNDING_DX_DY ∧ inBounds 3 3 (2, 2) ∧
    Covers 3 3 corner_board ∧
    click_with SURROUNDING_DX_DY.reverse 3 3 14 (2, 2) corner_board
      = Run.fault Fault.out_of_fuel ∧
    click_with SURROUNDING_DX_DY.reverse 3 3 15 (2, 2) corner_board
      = Run.ok (ClickResult.IN_PROGRESS, corner_board_cleared) ∧
    click 3 3 11 (2, 2) corner_board = Run.ok (ClickResult.IN_PROGRESS, corner_board_cleared) ∧
    ∃ fuel r b2, ∀ k,
      click_with SURROUNDING_DX_DY.reverse 3 3 (fuel + k) (2, 2) corner_board = Run.ok (r, b2) ∧
      click 3 3 (fuel + k) (2, 2) corner_board = Run.ok (r, b2) :=
  ⟨by decide, by decide, by decide, by decide, by decide, by decide,
    order_of_offsets_square_and_main_board.1 3 3 SURROUNDING_DX_DY.reverse (2, 2) corner_board
      (by decide) (by decide) (by decide)⟩

/-- C19 (closed-region invariant).  When the declared storage holds every
cell of the grid, as on every square board, and the mine list is valid: the
constructor returns a board with every cell of the grid hidden, every click
on a position of the grid in a board reached from it returns, and in every
board so reached every revealed cell of the grid with value 0 has all its
in-bounds 8-neighbours revealed.  On the 5 x 7 board of `main`, run on the
block of cells, the click on `(0, 5)` in the fresh board returns after 48
iterations and leaves `board_[1][0]` revealed with value 0 while its
neighbour `board_[0][0]` is hidden; and after the two first moves of
`main`, `(2, 4)` and `(0, 1)`, `board_[0][5]` is revealed with value 0
while its neighbour `board_[0][4]` is hidden.  With bounds on the inner
arrays the click on `(0, 5)` is an access out of range. -/
theorem closed_square_and_main_board :
    (∀ (R C : Nat) (bombs : List Position), ValidMines R C bombs →
      Covers R C (board_ R C) →
      (∃ b, Minesweeper.new R C bombs = Run.ok b ∧
        ∀ x, inBounds R C x → is_revealed_at b x = false) ∧
      ∀ b, Reachable R C bombs b → Closed R C b ∧
        ∀ p, inBounds R C p → ∃ fuel r b2,
          (∀ k, click R C (fuel + k) p b = Run.ok (r, b2)) ∧ Closed R C b2) ∧
    (∀ n : Nat, Covers n n (board_ n n)) ∧
    (∀ fuel, click 5 7 fuel (0, 5) game_board = Run.fault Fault.out_of_range) ∧
    ValidMines 5 7 bomb_locations ∧
    Flat.new 5 7 bomb_locations = Run.ok game_board.flatten ∧
    inBounds 5 7 (0, 5) ∧
    Flat.click 5 7 48 (0, 5) game_board.flatten
      = Run.ok (ClickResult.IN_PROGRESS, game_board_after_0_5.flatten) ∧
    inBounds 5 7 (1, 0) ∧ inBounds 5 7 (0, 0) ∧ adjacent (1, 0) (0, 0) ∧
    Flat.readCell 5 game_board_after_0_5.flatten 1 0 = Run.ok ⟨Cell.SPACE, true⟩ ∧
    Flat.readCell 5 game_board_after_0_5.flatten 0 0 = Run.ok ⟨Cell.SPACE, false⟩ ∧
    inBounds 5 7 (2, 4) ∧ inBounds 5 7 (0, 1) ∧
    Flat.click 5 7 1 (2, 4) game_board.flatten
      = Run.ok (ClickResult.IN_PROGRESS, (writeCell game_board 2 4 ⟨1, true⟩).flatten) ∧
    Flat.click 5 7 49 (0, 1) (writeCell game_board 2 4 ⟨1, true⟩).flatten
      = Run.ok (ClickResult.IN_PROGRESS, game_board_swept.flatten) ∧
    inBounds 5 7 (0, 4) ∧ adjacent (0, 5) (0, 4) ∧
    Flat.readCell 5 game_board_swept.flatten 0 5 = Run.ok ⟨Cell.SPACE, true⟩ ∧
    Flat.readCell 5 game_board_swept.flatten 0 4 = Run.ok ⟨1, false⟩ := by
  refine ⟨?_, covers_board_square, fun fuel => rfl, ?_⟩
  · intro R C bombs hv hcov
    constructor
    · obtain ⟨b, hb, _, hread⟩ := new_spec hv hcov
      refine ⟨b, hb, fun x hx => ?_⟩
      unfold is_revealed_at
      rw [hread x hx]
    · intro b hr
      obtain ⟨hV, hCl⟩ := reachable_good hv hcov hr
      refine ⟨hCl, fun p hp => ?_⟩
      obtain ⟨f0, h0⟩ := click_halts R C p b
      have h00 := h0 0
      rw [Nat.add_zero] at h00
      obtain ⟨r, b2, hok, _⟩ := click_ok_of_covers hp (hasValues_covers hV) h00
      refine ⟨f0, r, b2, fun k => ?_, (reachable_good hv hcov (Reachable.click hr hp hok)).2⟩
      rw [click_fuel_mono f0 k p b h00, hok]
  · and_intros
    all_goals decide

/-- Witness of C19 on a square board: the 3 x 3 board with the mine
`(0, 0)` after the click on `(2, 2)`. -/
theorem closed_square_witness :
    ValidMines 3 3 [(0, 0)] ∧ Covers 3 3 (board_ 3 3) ∧
    Reachable 3 3 [(0, 0)] corner_board_cleared ∧ Closed 3 3 corner_board_cleared :=
  ⟨by decide, by decide,
    Reachable.click (Reachable.fresh (by decide)) (by decide : inBounds 3 3 (2, 2))
      (by decide : click 3 3 11 (2, 2) corner_board
        = Run.ok (ClickResult.IN_PROGRESS, corner_board_cleared)),
    ((closed_square_and_main_board.1 3 3 [(0, 0)] (by decide) (by decide)).2
      corner_board_cleared
      (Reachable.click (Reachable.fresh (by decide)) (by decide : inBounds 3 3 (2, 2))
        (by decide : click 3 3 11 (2, 2) corner_board
          = Run.ok (ClickResult.IN_PROGRESS, corner_board_cleared)))).1⟩

end Minesweeper
